import Mathlib

/-! RedisGraph: Argument, CallSubquery, the projection compiler, arrays and maps

A shallow embedding of

* `src/execution_plan/ops/op_argument.c`
* `src/execution_plan/ops/op_call_subquery.c`
* `src/execution_plan/execution_plan_build/build_projection_ops.c`
* `src/datatypes/array.c`
* `src/arithmetic/map_funcs/map_funcs.c` (`AR_MERGEMAP` and the map builders)

Operators are state machines: an operation that mutates `*op` in C takes the
operator state and returns the new one next to its result.  A `Record` pointer
that may be `NULL` is an `Option`; `NULL` returned by a consume function is the
depletion signal.  A failed `ASSERT` and an exhausted loop bound are the two
ways a modelled call does not return a value.
-/

namespace RedisGraph

/-- Why a modelled call produced no value.

Modelled from the spec: the `ASSERT` macro (RG.h is not part of the sources).
A failed assertion is a fatal contract violation: the call does not return. -/
inductive Fault where
  /-- an `ASSERT` of the source failed -/
  | assertion
  /-- the iteration bound given to a source loop or recursion was used up -/
  | fuel
  /-- a `NULL` string was handed to `strlen` -/
  | null
  /-- a C array was read beyond its last element -/
  | bounds
deriving DecidableEq, Repr

/-! ## op_argument.c -/

/-- The `Argument` operation: a single record slot, `arg->r`. -/
structure Argument (R : Type) where
  r : Option R
deriving DecidableEq, Repr

/-- The state `NewArgumentOp` builds: `op->r = NULL`. -/
def NewArgumentOp {R : Type} : Argument R := { r := none }

/-- `ArgumentConsume`: `Record r = arg->r; arg->r = NULL; return r;` -/
def ArgumentConsume {R : Type} (arg : Argument R) : Option R × Argument R :=
  (arg.r, { r := none })

/-- `ArgumentReset`: drops the held record, if any. -/
def ArgumentReset {R : Type} (_arg : Argument R) : Argument R := { r := none }

/-- `Argument_AddRecord`: `ASSERT(!arg->r ...); arg->r = r;` -/
def Argument_AddRecord {R : Type} (arg : Argument R) (r : R) : Except Fault (Argument R) :=
  match arg.r with
  | none => .ok { r := some r }
  | some _ => .error .assertion

/-! ## Children of a CallSubquery -/

/-- Modelled from the spec: the `ArgumentList` operation (op_argument_list.c is
not part of the sources).  It is a multi-record input cell that is handed one
ordered list of records. -/
structure ArgumentList (R : Type) where
  records : Option (List R)
deriving DecidableEq, Repr

/-- Modelled from the spec: `ArgumentList_AddRecordList`, which supplies the
ordered record list to the `ArgumentList` (ownership transferred). -/
def ArgumentList_AddRecordList {R : Type} (_arg : ArgumentList R) (records : List R) :
    ArgumentList R :=
  { records := some records }

/-- Modelled from the spec: the consume function of `ArgumentList`
(op_argument_list.c is not part of the sources), which drains the supplied
records in reverse of supplied order, last in first out, and then depletes. -/
def ArgumentListConsume {R : Type} (arg : ArgumentList R) : Option R × ArgumentList R :=
  match arg.records with
  | none => (none, arg)
  | some records =>
    match records.getLast? with
    | some r => (some r, { records := some records.dropLast })
    | none => (none, arg)

/-- State of the body sub-tree of a CallSubquery: the deepest (left-most leaf)
operation found by `CallSubqueryInit`, of type `A` (`Argument` for a non-eager
operation, `ArgumentList` for an eager one), and the state `inner` of every
other operation of the body. -/
structure BodyState (A β : Type) where
  deepest : A
  inner : β
deriving DecidableEq, Repr

/-- What CallSubquery calls but does not define: the consume functions of its two
children and the record primitives of the plan layer.

* `consume_lhs` is `OpBase_Consume(op->lhs)` on the state of the left child;
* `consume_body` is `OpBase_Consume(op->body)` on the state of the body, which
  may read and clear the deepest operation's slot;
* `DeepCloneRecord` is `OpBase_DeepCloneRecord`;
* `Merge_Into clone consumed` is the content of `clone` after
  `Record_Merge_Into(clone, consumed)`;
* `CreateRecord` is the empty record of `OpBase_CreateRecord(op->body)`.
`OpBase_DeleteRecord` has no effect on values and is left out. -/
structure Env (R L A β : Type) where
  consume_lhs : L → Option R × L
  consume_body : BodyState A β → Option R × BodyState A β
  DeepCloneRecord : R → R
  Merge_Into : R → R → R
  CreateRecord : R

/-! ## op_call_subquery.c -/

/-- The fields of `OpCallSubquery`.  `lhs` is `none` when there is no left
child and otherwise holds that child's state; `argument` / `argument_list`
are `body.deepest`. -/
structure OpCallSubquery (R L A β : Type) where
  r : Option R
  lhs : Option L
  body : BodyState A β
  first : Bool
  records : Option (List R)
  is_eager : Bool
  is_returning : Bool

/-- `NewCallSubqueryOp` followed by `CallSubqueryInit`, over the given children. -/
def NewCallSubqueryOp {R L A β : Type} (is_eager is_returning : Bool)
    (lhs : Option L) (body : BodyState A β) : OpCallSubquery R L A β :=
  { r := none, lhs := lhs, body := body, first := true, records := none,
    is_eager := is_eager, is_returning := is_returning }

section NonEager
variable {R L β : Type}

/-- The loop `while((consumed = OpBase_Consume(op->body))) OpBase_DeleteRecord(consumed);`
run on the body state, with an iteration bound. -/
def drain_body {A : Type} (E : Env R L A β) : Nat → BodyState A β → Except Fault (BodyState A β)
  | 0, _ => .error .fuel
  | fuel + 1, b =>
    match E.consume_body b with
    | (none, b1) => .ok b1
    | (some _, b1) => drain_body E fuel b1

/-- `_consume_and_return`; the self-call is bounded by `fuel`. -/
def _consume_and_return (E : Env R L (Argument R) β) :
    Nat → OpCallSubquery R L (Argument R) β →
      Except Fault (Option R × OpCallSubquery R L (Argument R) β)
  | 0, _ => .error .fuel
  | fuel + 1, op =>
    match E.consume_body op.body with
    | (none, b1) =>
      -- OpBase_DeleteRecord(op->r); op->r = NULL;
      match op.lhs with
      | none => .ok (none, { op with body := b1, r := none })
      | some l =>
        match E.consume_lhs l with
        | (none, l1) => .ok (none, { op with body := b1, r := none, lhs := some l1 })
        | (some r, l1) =>
          -- plant a clone of the record consumed at the Argument op
          match Argument_AddRecord b1.deepest (E.DeepCloneRecord r) with
          | .error e => .error e
          | .ok arg =>
            _consume_and_return E fuel
              { op with body := { b1 with deepest := arg }, r := some r, lhs := some l1 }
    | (some consumed, b1) =>
      match op.r with
      -- not reached: `_handoff` asserts `op->r != NULL` and the self-call sets it
      | none => .error .assertion
      | some r =>
        .ok (some (E.Merge_Into (E.DeepCloneRecord r) consumed), { op with body := b1 })

/-- `_handoff`. -/
def _handoff (E : Env R L (Argument R) β) (fuel : Nat) (op : OpCallSubquery R L (Argument R) β) :
    Except Fault (Option R × OpCallSubquery R L (Argument R) β) :=
  match op.r with
  | none => .error .assertion
  | some r =>
    if op.is_returning then _consume_and_return E fuel op
    else
      match drain_body E fuel op.body with
      | .error e => .error e
      | .ok b1 => .ok (some r, { op with body := b1, r := none })

/-- `CallSubqueryConsume`, the consume function of a non-eager operation. -/
def CallSubqueryConsume (E : Env R L (Argument R) β) (fuel : Nat)
    (op : OpCallSubquery R L (Argument R) β) :
    Except Fault (Option R × OpCallSubquery R L (Argument R) β) :=
  match op.r with
  | some _ => _handoff E fuel op
  | none =>
    let op1 : OpCallSubquery R L (Argument R) β :=
      match op.lhs with
      | some l => { op with r := (E.consume_lhs l).1, lhs := some (E.consume_lhs l).2 }
      | none => { op with r := some E.CreateRecord }
    match op1.r with
    | some r =>
      match Argument_AddRecord op1.body.deepest (E.DeepCloneRecord r) with
      | .error e => .error e
      | .ok arg => _handoff E fuel { op1 with body := { op1.body with deepest := arg } }
    | none => .ok (none, op1)

end NonEager

section Eager
variable {R L β : Type}

/-- The loop `while((r = OpBase_Consume(op->lhs))) array_append(op->records, r);`
run on the state of the left child, with an iteration bound. -/
def drain_lhs {A : Type} (E : Env R L A β) : Nat → L → List R → Except Fault (List R × L)
  | 0, _, _ => .error .fuel
  | fuel + 1, l, records =>
    match E.consume_lhs l with
    | (none, l1) => .ok (records, l1)
    | (some r, l1) => drain_lhs E fuel l1 (records ++ [r])

/-- `_handoff_eager`; `array_pop` takes the last element of `op->records`.  The
assertion `op->is_returning || op->records != NULL` fails exactly in the
branch of a non-returning operation whose `records` is `NULL`. -/
def _handoff_eager (E : Env R L (ArgumentList R) β) (op : OpCallSubquery R L (ArgumentList R) β) :
    Except Fault (Option R × OpCallSubquery R L (ArgumentList R) β) :=
  if op.is_returning then
    -- get a record from the body, and pass it on
    .ok ((E.consume_body op.body).1, { op with body := (E.consume_body op.body).2 })
  else
    match op.records with
    | none => .error .assertion
    | some records =>
      match records.getLast? with
      | some r => .ok (some r, { op with records := some records.dropLast })
      | none => .ok (none, op)

/-- `CallSubqueryConsumeEager`, the consume function of an eager operation. -/
def CallSubqueryConsumeEager (E : Env R L (ArgumentList R) β) (fuel : Nat)
    (op : OpCallSubquery R L (ArgumentList R) β) :
    Except Fault (Option R × OpCallSubquery R L (ArgumentList R) β) :=
  if op.first = false then _handoff_eager E op
  else
    -- op->first = false; op->records = array_new(Record, 1);
    let collected : Except Fault (List R × Option L) :=
      match op.lhs with
      | some l =>
        match drain_lhs E fuel l [] with
        | .error e => .error e
        | .ok (records, l1) => .ok (records, some l1)
      | none => .ok ([E.CreateRecord], none)
    match collected with
    | .error e => .error e
    | .ok (records, lhs1) =>
      if op.is_returning then
        _handoff_eager E
          { op with
            first := false, lhs := lhs1, records := none,
            body := { op.body with
                      deepest := ArgumentList_AddRecordList op.body.deepest records } }
      else
        -- array_clone_with_cb(records_clone, op->records, OpBase_DeepCloneRecord);
        let records_clone := records.map E.DeepCloneRecord
        match drain_body E fuel
            { op.body with
              deepest := ArgumentList_AddRecordList op.body.deepest records_clone } with
        | .error e => .error e
        | .ok b1 =>
          _handoff_eager E
            { op with first := false, lhs := lhs1, records := some records, body := b1 }

end Eager

/-- `_freeInternals`: deletes and frees `op->records` when it is not `NULL`. -/
def _freeInternals {R L A β : Type} (op : OpCallSubquery R L A β) : OpCallSubquery R L A β :=
  match op.records with
  | some _ => { op with records := none }
  | none => op

/-- `CallSubqueryReset`: `_freeInternals(op); return OP_OK;` -/
def CallSubqueryReset {R L A β : Type} (op : OpCallSubquery R L A β) : OpCallSubquery R L A β :=
  _freeInternals op

/-! ## Running an operator -/

/-- The results of `n` successive calls of a consume function, oldest first,
and the state they leave. -/
def consumeN {R S : Type} (consume : S → Except Fault (Option R × S)) :
    Nat → S → Except Fault (List (Option R) × S)
  | 0, s => .ok ([], s)
  | n + 1, s =>
    match consume s with
    | .error e => .error e
    | .ok (x, s1) =>
      match consumeN consume n s1 with
      | .error e => .error e
      | .ok (xs, s2) => .ok (x :: xs, s2)

/-- The results of `n + 1` successive consume calls, the first of which gave
`head`. -/
def consumeAfter {R S : Type} (consume : S → Except Fault (Option R × S))
    (head : Except Fault (Option R × S)) (n : Nat) : Except Fault (List (Option R) × S) :=
  match head with
  | .error e => .error e
  | .ok (x, s1) =>
    match consumeN consume n s1 with
    | .error e => .error e
    | .ok (xs, s2) => .ok (x :: xs, s2)

/-- The results of pulling a child `n` times from state `s`, oldest first, and
the state the child is left in. -/
def pullN {R S : Type} (consume : S → Option R × S) : Nat → S → List (Option R) × S
  | 0, s => ([], s)
  | n + 1, s =>
    ((consume s).1 :: (pullN consume n (consume s).2).1, (pullN consume n (consume s).2).2)

/-- Pulling a child `rs.length` times from state `s` returns the records `rs`
in order and leaves the child in state `s1`. -/
def Pulls {R S : Type} (consume : S → Option R × S) : S → List R → S → Prop
  | s, [], s1 => s1 = s
  | s, r :: rs, s1 => (consume s).1 = some r ∧ Pulls consume (consume s).2 rs s1

/-- Pulling a child from state `s` returns the records `rs` in order and then
the depletion signal, leaving the child in state `s1`. -/
def Yields {R S : Type} (consume : S → Option R × S) : S → List R → S → Prop
  | s, [], s1 => consume s = (none, s1)
  | s, r :: rs, s1 => (consume s).1 = some r ∧ Yields consume (consume s).2 rs s1

section Hypotheses
variable {R L β : Type}

/-- The body as the claims about a non-eager operation describe it.  From the
body state `b`, for each pair `(r, outs)` of `runs` in turn: once a deep clone
of `r` is in the Argument slot, pulling the body returns the records `outs`
and then depletion, and the body has taken the planted record out of its
Argument by then.  `b1` is the body state after the last run. -/
def BodyRuns (E : Env R L (Argument R) β) :
    BodyState (Argument R) β → List (R × List R) → BodyState (Argument R) β → Prop
  | b, [], b1 => b1 = b
  | b, p :: runs, b1 =>
    ∃ b2, Yields E.consume_body { b with deepest := { r := some (E.DeepCloneRecord p.1) } } p.2 b2
      ∧ b2.deepest.r = none ∧ BodyRuns E b2 runs b1

/-- The records a returning, non-eager operation is to emit for `runs`: for each
outer row `r` in order and each body record `x` of that row in order, the
result of merging `x` into a fresh deep clone of `r`. -/
def mergedRows (E : Env R L (Argument R) β) (runs : List (R × List R)) : List (Option R) :=
  runs.flatMap (fun p => p.2.map (fun x => some (E.Merge_Into (E.DeepCloneRecord p.1) x)))

end Hypotheses

/-! ## A concrete plan for the examples -/

namespace Demo

/-- A body of two operations: the Argument and, above it, an operation that
turns the record `c` it pulls from the Argument into the two records `2 * c`
and `2 * c + 1`.  The inner state is the list of records still to be emitted. -/
def consume_body (b : BodyState (Argument Nat) (List Nat)) :
    Option Nat × BodyState (Argument Nat) (List Nat) :=
  match b.inner with
  | x :: rest => (some x, { b with inner := rest })
  | [] =>
    match ArgumentConsume b.deepest with
    | (some c, arg) => (some (2 * c), { deepest := arg, inner := [2 * c + 1] })
    | (none, arg) => (none, { deepest := arg, inner := [] })

/-- A left child that emits the records of a list, then depletion. -/
def consume_lhs (l : List Nat) : Option Nat × List Nat :=
  match l with
  | r :: rest => (some r, rest)
  | [] => (none, [])

/-- Records are numbers; a deep clone of `r` is written `r + 100` so that it can
be told from `r`, and merging `consumed` into `clone` gives `1000 * clone + consumed`. -/
def env : Env Nat (List Nat) (Argument Nat) (List Nat) :=
  { consume_lhs := consume_lhs
    consume_body := consume_body
    DeepCloneRecord := fun r => r + 100
    Merge_Into := fun clone consumed => 1000 * clone + consumed
    CreateRecord := 0 }

/-- The body of `env` before any record is planted. -/
def body0 : BodyState (Argument Nat) (List Nat) := { deepest := NewArgumentOp, inner := [] }

/-- An eager body of two operations: the ArgumentList and, above it, an
operation that doubles each record it pulls. -/
def eager_consume_body (b : BodyState (ArgumentList Nat) Unit) :
    Option Nat × BodyState (ArgumentList Nat) Unit :=
  ((ArgumentListConsume b.deepest).1.map (fun c => 2 * c),
   { b with deepest := (ArgumentListConsume b.deepest).2 })

/-- The plan of `env` with the eager body. -/
def eager_env : Env Nat (List Nat) (ArgumentList Nat) Unit :=
  { consume_lhs := consume_lhs
    consume_body := eager_consume_body
    DeepCloneRecord := fun r => r + 100
    Merge_Into := fun clone consumed => 1000 * clone + consumed
    CreateRecord := 0 }

/-- The body of `eager_env` before a record list is handed over. -/
def eager_body0 : BodyState (ArgumentList Nat) Unit :=
  { deepest := { records := none }, inner := () }

/-- The body of `eager_env` once it has given out every record handed to it. -/
def eager_body1 : BodyState (ArgumentList Nat) Unit :=
  { deepest := { records := some [] }, inner := () }

end Demo

/-! ## build_projection_ops.c -/

/-- The rax radix tree, used by this file as a set of names: the keys in
insertion order. -/
abbrev rax := List String

/-- `raxNew()`. -/
def raxNew : rax := []

/-- `raxFind(t, key, strlen(key)) != raxNotFound`. -/
def raxFind (t : rax) (key : String) : Bool := decide (key ∈ t)

/-- `raxTryInsert(t, key, strlen(key), NULL, NULL)`: the return value (1 when
the key was inserted, 0 when it was already there) and the tree afterwards. -/
def raxTryInsert (t : rax) (key : String) : Bool × rax :=
  if key ∈ t then (false, t) else (true, t ++ [key])

/-- The operand kinds of `AR_OperandNodeType` with the field each one reads. -/
inductive AR_OperandNode where
  | AR_EXP_CONSTANT
  | AR_EXP_VARIADIC (entity_alias : String)
  | AR_EXP_PARAM (param_name : String)
  | AR_EXP_BORROW_RECORD
deriving DecidableEq, Repr

/-- An arithmetic expression tree `AR_ExpNode`: an operand (`AR_EXP_OPERAND`) or
an operation (`AR_EXP_OP`) with the name of its function and its children.
`resolved_name` is `none` for the `NULL` pointer. -/
inductive AR_ExpNode where
  | AR_EXP_OPERAND (resolved_name : Option String) (operand : AR_OperandNode)
  | AR_EXP_OP (resolved_name : Option String) (func_name : String) (children : List AR_ExpNode)
deriving Repr

/-- `exp->resolved_name`. -/
def AR_ExpNode.resolved_name : AR_ExpNode → Option String
  | .AR_EXP_OPERAND n _ => n
  | .AR_EXP_OP n _ _ => n

/-- The node after `exp->resolved_name = name`. -/
def AR_ExpNode.set_resolved_name : AR_ExpNode → Option String → AR_ExpNode
  | .AR_EXP_OPERAND _ o, n => .AR_EXP_OPERAND n o
  | .AR_EXP_OP _ f cs, n => .AR_EXP_OP n f cs

/-- The expression nodes of the parsed query, by the AST node types this file
tells apart; `other` stands for every other type of expression. -/
inductive cypher_astnode where
  | CYPHER_AST_IDENTIFIER (name : String)
  | CYPHER_AST_PROPERTY_OPERATOR (expression : cypher_astnode) (prop_name : String)
  | CYPHER_AST_APPLY_OPERATOR (func_name : String) (arguments : List cypher_astnode)
  | other (text : String)
deriving Repr

/-- A projection item of a WITH/RETURN clause: its expression and the alias
node's name, when there is an alias. -/
structure cypher_ast_projection where
  expression : cypher_astnode
  alias_node : Option String
deriving Repr

/-- An item of an ORDER BY clause. -/
structure cypher_ast_sort_item where
  expression : cypher_astnode
  ascending : Bool
deriving Repr

/-- The two clause types `_buildProjectionOps` accepts. -/
inductive cypher_astnode_type_t where
  | CYPHER_AST_RETURN
  | CYPHER_AST_WITH
deriving DecidableEq, Repr

/-- A WITH or RETURN clause as the `cypher_ast_with_*` / `cypher_ast_return_*`
accessors show it. -/
structure Clause where
  type : cypher_astnode_type_t
  has_include_existing : Bool
  is_distinct : Bool
  projections : List cypher_ast_projection
  order_by : Option (List cypher_ast_sort_item)
  skip : Option cypher_astnode
  limit : Option cypher_astnode
deriving Repr

/-- What the projection compiler calls in the parsed-query layer and the
expression evaluator. -/
structure AstEnv where
  AR_EXP_FromASTNode : cypher_astnode → AR_ExpNode
  AST_ToString : cypher_astnode → String
  AST_ClauseContainsAggregation : Clause → Bool
  AR_EXP_Equal : AR_ExpNode → AR_ExpNode → Bool
  AR_EXP_Clone : AR_ExpNode → AR_ExpNode

/-- The operations the projection compiler builds, with the arguments of their
constructors; `other` stands for any operation already in the plan.  A `NULL`
projection array is `none`. -/
inductive Op where
  | Aggregate (exps : Option (List AR_ExpNode))
  | Project (exps : Option (List AR_ExpNode))
  | Distinct (aliases : List (Option String))
  | Sort (exps : List AR_ExpNode) (directions : List Int)
  | Skip (skip_clause : cypher_astnode)
  | Limit (limit_clause : cypher_astnode)
  | Results
  | other (name : String)
deriving Repr

/-- The `OPType` of an operation. -/
inductive OPType where
  | OPType_AGGREGATE
  | OPType_PROJECT
  | OPType_DISTINCT
  | OPType_SORT
  | OPType_SKIP
  | OPType_LIMIT
  | OPType_RESULTS
  | OPType_OTHER
deriving DecidableEq, Repr

/-- `OpBase_Type`. -/
def Op.type : Op → OPType
  | .Aggregate _ => .OPType_AGGREGATE
  | .Project _ => .OPType_PROJECT
  | .Distinct _ => .OPType_DISTINCT
  | .Sort _ _ => .OPType_SORT
  | .Skip _ => .OPType_SKIP
  | .Limit _ => .OPType_LIMIT
  | .Results => .OPType_RESULTS
  | .other _ => .OPType_OTHER

/-- An operation in the plan tree with its children. -/
inductive OpBase where
  | mk (op : Op) (children : List OpBase)
deriving Repr

/-- The execution plan under construction, `plan->root`, and the error set in
the error context, if any. -/
structure ExecutionPlan where
  root : Option OpBase
  error : Option String
deriving Repr

/-- Modelled from the spec: `ExecutionPlan_UpdateRoot` (execution_plan_modify.c
is not part of the sources).  The new operation becomes the root and consumes
the previous root as its only child. -/
def ExecutionPlan_UpdateRoot (plan : ExecutionPlan) (new_root : Op) : ExecutionPlan :=
  { plan with root := some (.mk new_root plan.root.toList) }

/-- `ErrorCtx_SetError`. -/
def ErrorCtx_SetError (plan : ExecutionPlan) (msg : String) : ExecutionPlan :=
  { plan with error := some msg }

/-- Modelled from the spec: `AST_PrepareSortOp` (ast_build_op_contexts.c is not
part of the sources), which gives the Sort operation one direction per ORDER BY
item, so that `sort_directions` is set whenever there is an ORDER BY. -/
def AST_PrepareSortOp (order_clause : List cypher_ast_sort_item) : List Int :=
  order_clause.map (fun item => if item.ascending then 1 else -1)

/-- `_BuildOrderExpressions`. -/
def _BuildOrderExpressions (X : AstEnv) (order_clause : List cypher_ast_sort_item) :
    List AR_ExpNode :=
  order_clause.map (fun item =>
    (X.AR_EXP_FromASTNode item.expression).set_resolved_name
      (some (X.AST_ToString item.expression)))

/-- The resolved name `_BuildProjectionExpressions` finds for a projection: the
alias, or the name of the identifier after
`ASSERT(cypher_astnode_type(ast_exp) == CYPHER_AST_IDENTIFIER)`. -/
def projection_identifier (projection : cypher_ast_projection) : Except Fault String :=
  match projection.alias_node with
  | some identifier => .ok identifier
  | none =>
    match projection.expression with
    | .CYPHER_AST_IDENTIFIER name => .ok name
    | _ => .error .assertion

/-- The `for` loop of `_BuildProjectionExpressions` over the projections still
to visit, with the rax and the `expressions` array built so far. -/
def _BuildProjectionExpressions_loop (X : AstEnv) :
    List cypher_ast_projection → rax → List AR_ExpNode → Except Fault (List AR_ExpNode)
  | [], _, expressions => .ok expressions
  | projection :: rest, t, expressions =>
    match projection_identifier projection with
    | .error e => .error e
    | .ok identifier =>
      match raxTryInsert t identifier with
      | (true, t1) =>
        _BuildProjectionExpressions_loop X rest t1
          (expressions ++
            [(X.AR_EXP_FromASTNode projection.expression).set_resolved_name (some identifier)])
      | (false, t1) => _BuildProjectionExpressions_loop X rest t1 expressions

/-- `_BuildProjectionExpressions`; the result `none` is the `NULL` returned for
a RETURN with include-existing. -/
def _BuildProjectionExpressions (X : AstEnv) (clause : Clause) :
    Except Fault (Option (List AR_ExpNode)) :=
  match clause.type with
  | .CYPHER_AST_RETURN =>
    if clause.has_include_existing then .ok none
    else
      match _BuildProjectionExpressions_loop X clause.projections raxNew [] with
      | .error e => .error e
      | .ok expressions => .ok (some expressions)
  | .CYPHER_AST_WITH =>
    if clause.has_include_existing then .error .assertion
    else
      match _BuildProjectionExpressions_loop X clause.projections raxNew [] with
      | .error e => .error e
      | .ok expressions => .ok (some expressions)

/-- `_add_WITH_LHS_projections`: for a WITH clause, the names `alias.prop` of the
projected property accesses on an identifier are added to the rax. -/
def _add_WITH_LHS_projections (clause : Clause) (projection_names : rax) : rax :=
  match clause.type with
  | .CYPHER_AST_WITH =>
    clause.projections.foldl
      (fun names projection =>
        match projection.expression with
        | .CYPHER_AST_PROPERTY_OPERATOR (.CYPHER_AST_IDENTIFIER entity) prop_name =>
          (raxTryInsert names (entity ++ "." ++ prop_name)).2
        | _ => names)
      projection_names
  | .CYPHER_AST_RETURN => projection_names

mutual
/-- `_validateOrderExpression`. -/
def _validateOrderExpression (projection_names : rax) : AR_ExpNode → Except Fault Bool
  | .AR_EXP_OPERAND _ operand =>
    match operand with
    | .AR_EXP_CONSTANT => .ok true
    | .AR_EXP_VARIADIC entity_alias => .ok (raxFind projection_names entity_alias)
    | .AR_EXP_PARAM param_name => .ok (raxFind projection_names param_name)
    | .AR_EXP_BORROW_RECORD => .ok true
  | .AR_EXP_OP resolved_name func_name children =>
    if func_name = "property" then
      -- the name is looked up, and `true` is returned whether it is found or not
      match resolved_name with
      | none => .error .null
      | some _ => .ok true
    else
      _validateOrderExpression_children projection_names children
/-- The loop of `_validateOrderExpression` over the children of an operation:
`false` as soon as a child does not validate. -/
def _validateOrderExpression_children (projection_names : rax) :
    List AR_ExpNode → Except Fault Bool
  | [] => .ok true
  | child :: rest =>
    match _validateOrderExpression projection_names child with
    | .error e => .error e
    | .ok false => .ok false
    | .ok true => _validateOrderExpression_children projection_names rest
end

/-- The error `_combine_projection_arrays` sets; the line continuation inside
the C string literal leaves no blank after the comma. -/
def aggregation_scope_error : String :=
  "In a WITH/RETURN with an aggregation,it is not possible to access variables not projected by the WITH/RETURN."

/-- The first loop of `_combine_projection_arrays`: the names of all projections
are added to the rax. -/
def _combine_add_names (project_exps : List AR_ExpNode) (projection_names : rax) :
    Except Fault rax :=
  match project_exps with
  | [] => .ok projection_names
  | exp :: rest =>
    match exp.resolved_name with
    | none => .error .null
    | some name => _combine_add_names rest (raxTryInsert projection_names name).2

/-- The inner loop of the aggregate branch: is the order expression matched, by
resolved name or by `AR_EXP_Equal`, by one of the projections. -/
def _combine_found (X : AstEnv) (order_exp : AR_ExpNode) (project_exps : List AR_ExpNode) :
    Except Fault Bool :=
  match project_exps with
  | [] => .ok false
  | _ :: _ =>
    -- `strcmp` reads the name of the order expression
    match order_exp.resolved_name with
    | none => .error .null
    | some name =>
      .ok (project_exps.any (fun project_exp =>
        project_exp.resolved_name == some name || X.AR_EXP_Equal order_exp project_exp))

/-- The aggregate branch of `_combine_projection_arrays`: every order expression
that matches no projection and does not validate sets the error. -/
def _combine_validate (X : AstEnv) (project_exps : List AR_ExpNode) (projection_names : rax) :
    List AR_ExpNode → ExecutionPlan → Except Fault ExecutionPlan
  | [], plan => .ok plan
  | order_exp :: rest, plan =>
    match _combine_found X order_exp project_exps with
    | .error e => .error e
    | .ok true => _combine_validate X project_exps projection_names rest plan
    | .ok false =>
      match _validateOrderExpression projection_names order_exp with
      | .error e => .error e
      | .ok true => _combine_validate X project_exps projection_names rest plan
      | .ok false =>
        _combine_validate X project_exps projection_names rest
          (ErrorCtx_SetError plan aggregation_scope_error)

/-- The last loop of `_combine_projection_arrays`: a clone of every order
expression whose name is new to the rax is appended to the projections. -/
def _combine_merge (X : AstEnv) :
    List AR_ExpNode → rax → List AR_ExpNode → Except Fault (List AR_ExpNode)
  | [], _, project_exps => .ok project_exps
  | order_exp :: rest, projection_names, project_exps =>
    match order_exp.resolved_name with
    | none => .error .null
    | some name =>
      match raxTryInsert projection_names name with
      | (true, t1) => _combine_merge X rest t1 (project_exps ++ [X.AR_EXP_Clone order_exp])
      | (false, t1) => _combine_merge X rest t1 project_exps

/-- `_combine_projection_arrays`: the projection array afterwards and the plan
with the error it may have set. -/
def _combine_projection_arrays (X : AstEnv) (project_exps order_exps : List AR_ExpNode)
    (aggregate : Bool) (projection_names : rax) (plan : ExecutionPlan) :
    Except Fault (List AR_ExpNode × ExecutionPlan) :=
  match _combine_add_names project_exps projection_names with
  | .error e => .error e
  | .ok names =>
    match (if aggregate then _combine_validate X project_exps names order_exps plan
           else .ok plan) with
    | .error e => .error e
    | .ok plan1 =>
      match _combine_merge X order_exps names project_exps with
      | .error e => .error e
      | .ok merged => .ok (merged, plan1)

/-- `_buildProjectionOps`.  A `NULL` projection array (a RETURN with
include-existing) has length 0 for `array_len` and is merged with the order
expressions as an empty array. -/
def _buildProjectionOps (X : AstEnv) (plan : ExecutionPlan) (clause : Clause) :
    Except Fault ExecutionPlan :=
  let aggregate := X.AST_ClauseContainsAggregation clause
  match _BuildProjectionExpressions X clause with
  | .error e => .error e
  | .ok projections =>
    -- prepare the distinct op but do not add it to the op tree
    let distinct_op : Option Op :=
      if clause.is_distinct then
        some (.Distinct ((projections.getD []).map AR_ExpNode.resolved_name))
      else none
    let sort_directions : Option (List Int) := clause.order_by.map AST_PrepareSortOp
    let order_exps : List AR_ExpNode :=
      match clause.order_by with
      | some order_clause => _BuildOrderExpressions X order_clause
      | none => []
    let combined : Except Fault (Option (List AR_ExpNode) × ExecutionPlan) :=
      match clause.order_by with
      | some _ =>
        let projection_names :=
          if aggregate then _add_WITH_LHS_projections clause raxNew else raxNew
        match _combine_projection_arrays X (projections.getD []) order_exps aggregate
            projection_names plan with
        | .error e => .error e
        | .ok (merged, plan1) => .ok (some merged, plan1)
      | none => .ok (projections, plan)
    match combined with
    | .error e => .error e
    | .ok (projections1, plan1) =>
      -- our fundamental operation will be a projection or aggregation
      let plan2 := ExecutionPlan_UpdateRoot plan1
        (if aggregate then .Aggregate projections1 else .Project projections1)
      let plan3 :=
        match distinct_op with
        | some op => ExecutionPlan_UpdateRoot plan2 op
        | none => plan2
      let plan4 :=
        match sort_directions with
        | some directions => ExecutionPlan_UpdateRoot plan3 (.Sort order_exps directions)
        | none => plan3
      let plan5 :=
        match clause.skip with
        | some skip_clause => ExecutionPlan_UpdateRoot plan4 (.Skip skip_clause)
        | none => plan4
      let plan6 :=
        match clause.limit with
        | some limit_clause => ExecutionPlan_UpdateRoot plan5 (.Limit limit_clause)
        | none => plan5
      .ok plan6

/-- `buildReturnOps`: the projection operations followed by a Results operation. -/
def buildReturnOps (X : AstEnv) (plan : ExecutionPlan) (clause : Clause) :
    Except Fault ExecutionPlan :=
  match _buildProjectionOps X plan clause with
  | .error e => .error e
  | .ok plan1 => .ok (ExecutionPlan_UpdateRoot plan1 .Results)

/-- `buildWithOps`. -/
def buildWithOps (X : AstEnv) (plan : ExecutionPlan) (clause : Clause) :
    Except Fault ExecutionPlan :=
  _buildProjectionOps X plan clause

/-! ## The wiring order and the projection list, in the words of the spec -/

/-- The operations of `ops` put on top of `root` one after the other, each one
the parent and only consumer of what was the root before it. -/
def stack_ops (root : Option OpBase) (ops : List Op) : Option OpBase :=
  ops.foldl (fun r op => some (.mk op r.toList)) root

/-- The fixed wiring order of the spec, from the bottom up: Aggregate or
Project, Distinct if requested, Sort if ORDER BY, Skip if present, Limit if
present, and for RETURN only the terminal Results. -/
def wiring_order (aggregate : Bool) (clause : Clause) (is_return : Bool) : List OPType :=
  [if aggregate then OPType.OPType_AGGREGATE else OPType.OPType_PROJECT]
    ++ (if clause.is_distinct then [OPType.OPType_DISTINCT] else [])
    ++ (if clause.order_by.isSome then [OPType.OPType_SORT] else [])
    ++ (if clause.skip.isSome then [OPType.OPType_SKIP] else [])
    ++ (if clause.limit.isSome then [OPType.OPType_LIMIT] else [])
    ++ (if is_return then [OPType.OPType_RESULTS] else [])

/-- The resolved name of a projection item in the words of the spec: the
explicit alias, else the name of the bare identifier. -/
def resolved_name_of (projection : cypher_ast_projection) : Option String :=
  match projection.alias_node with
  | some identifier => some identifier
  | none =>
    match projection.expression with
    | .CYPHER_AST_IDENTIFIER name => some name
    | _ => none

/-- The projection items whose resolved name does not occur at an earlier item,
in clause order. -/
def first_occurrences (items : List cypher_ast_projection) : List cypher_ast_projection :=
  (List.range items.length).filterMap (fun i =>
    match items[i]? with
    | some projection =>
      if resolved_name_of projection ∈ (items.take i).map resolved_name_of then none
      else some projection
    | none => none)

/-- Every projection item has an alias or is a bare identifier, and a WITH
clause has no include-existing: the clauses the AST rewriting hands over. -/
def Clause.well_formed (clause : Clause) : Prop :=
  (∀ projection ∈ clause.projections, (resolved_name_of projection).isSome = true) ∧
  (clause.type = .CYPHER_AST_WITH → clause.has_include_existing = false)

/-- The items of `rest` whose resolved name is neither in `seen` nor at an
earlier item of `rest`: `first_occurrences` told item by item. -/
def first_occurrences_from (seen : List (Option String)) :
    List cypher_ast_projection → List cypher_ast_projection
  | [] => []
  | projection :: rest =>
    if resolved_name_of projection ∈ seen then
      first_occurrences_from (seen ++ [resolved_name_of projection]) rest
    else
      projection :: first_occurrences_from (seen ++ [resolved_name_of projection]) rest

/-- The expression `_BuildProjectionExpressions` is to build for a projection
item: the expression of the item under the item's resolved name. -/
def projection_expression (X : AstEnv) (projection : cypher_ast_projection) : AR_ExpNode :=
  (X.AR_EXP_FromASTNode projection.expression).set_resolved_name (resolved_name_of projection)

/-- Validating the ORDER BY expressions of the clause never reads a `NULL`
resolved name, whatever the set of visible names. -/
def Clause.order_validates (X : AstEnv) (clause : Clause) : Prop :=
  ∀ order_clause, clause.order_by = some order_clause →
    ∀ (names : rax), ∀ e ∈ _BuildOrderExpressions X order_clause,
      ∃ v, _validateOrderExpression names e = .ok v

/-! ## A concrete parsed-query layer for the examples -/

namespace Demo

mutual
/-- An `AR_EXP_FromASTNode`: identifiers become variadic operands, a property
access the operation `property` over the entity and the constant property
name, a function call the operation of that name, anything else a constant. -/
def FromASTNode : cypher_astnode → AR_ExpNode
  | .CYPHER_AST_IDENTIFIER name => .AR_EXP_OPERAND none (.AR_EXP_VARIADIC name)
  | .CYPHER_AST_PROPERTY_OPERATOR e _ =>
    .AR_EXP_OP none "property" [FromASTNode e, .AR_EXP_OPERAND none .AR_EXP_CONSTANT]
  | .CYPHER_AST_APPLY_OPERATOR f args => .AR_EXP_OP none f (FromASTNodes args)
  | .other _ => .AR_EXP_OPERAND none .AR_EXP_CONSTANT
/-- `FromASTNode` on the arguments of a call. -/
def FromASTNodes : List cypher_astnode → List AR_ExpNode
  | [] => []
  | a :: rest => FromASTNode a :: FromASTNodes rest
end

mutual
/-- An `AST_ToString`: the text of the expression. -/
def ToString : cypher_astnode → String
  | .CYPHER_AST_IDENTIFIER name => name
  | .CYPHER_AST_PROPERTY_OPERATOR e prop_name => ToString e ++ "." ++ prop_name
  | .CYPHER_AST_APPLY_OPERATOR f args => f ++ "(" ++ ToStrings args ++ ")"
  | .other text => text
/-- The texts of the arguments of a call, separated by commas. -/
def ToStrings : List cypher_astnode → String
  | [] => ""
  | [a] => ToString a
  | a :: b :: rest => ToString a ++ ", " ++ ToStrings (b :: rest)
end

mutual
/-- Does the expression contain a call of `count`, `sum`, `avg`, `min`, `max` or
`collect`, at any depth. -/
def ContainsAggregation : cypher_astnode → Bool
  | .CYPHER_AST_IDENTIFIER _ => false
  | .CYPHER_AST_PROPERTY_OPERATOR e _ => ContainsAggregation e
  | .CYPHER_AST_APPLY_OPERATOR f args =>
    decide (f ∈ ["count", "sum", "avg", "min", "max", "collect"]) || AnyContainsAggregation args
  | .other _ => false
/-- `ContainsAggregation` for one of the arguments of a call. -/
def AnyContainsAggregation : List cypher_astnode → Bool
  | [] => false
  | a :: rest => ContainsAggregation a || AnyContainsAggregation rest
end

mutual
/-- An `AR_EXP_Equal`: the two trees have the same shape, operands and function
names; resolved names are not compared. -/
def Equal : AR_ExpNode → AR_ExpNode → Bool
  | .AR_EXP_OPERAND _ a, .AR_EXP_OPERAND _ b => decide (a = b)
  | .AR_EXP_OP _ f cs, .AR_EXP_OP _ g ds => decide (f = g) && EqualAll cs ds
  | .AR_EXP_OPERAND _ _, .AR_EXP_OP _ _ _ => false
  | .AR_EXP_OP _ _ _, .AR_EXP_OPERAND _ _ => false
/-- `Equal` on two lists of children. -/
def EqualAll : List AR_ExpNode → List AR_ExpNode → Bool
  | [], [] => true
  | c :: cs, d :: ds => Equal c d && EqualAll cs ds
  | [], _ :: _ => false
  | _ :: _, [] => false
end

/-- The parsed-query layer of the examples; a clone is equal to its original. -/
def ast : AstEnv :=
  { AR_EXP_FromASTNode := FromASTNode
    AST_ToString := ToString
    AST_ClauseContainsAggregation := fun clause =>
      clause.projections.any (fun p => ContainsAggregation p.expression)
    AR_EXP_Equal := Equal
    AR_EXP_Clone := fun e => e }

/-- `RETURN x, y ORDER BY z`. -/
def return_x_y_order_by_z : Clause :=
  { type := .CYPHER_AST_RETURN, has_include_existing := false, is_distinct := false
    projections := [{ expression := .CYPHER_AST_IDENTIFIER "x", alias_node := none },
                    { expression := .CYPHER_AST_IDENTIFIER "y", alias_node := none }]
    order_by := some [{ expression := .CYPHER_AST_IDENTIFIER "z", ascending := true }]
    skip := none, limit := none }

/-- `RETURN a, b AS a, c AS x, d AS x`. -/
def return_duplicate_names : Clause :=
  { type := .CYPHER_AST_RETURN, has_include_existing := false, is_distinct := false
    projections := [{ expression := .CYPHER_AST_IDENTIFIER "a", alias_node := none },
                    { expression := .CYPHER_AST_IDENTIFIER "b", alias_node := some "a" },
                    { expression := .CYPHER_AST_IDENTIFIER "c", alias_node := some "x" },
                    { expression := .CYPHER_AST_IDENTIFIER "d", alias_node := some "x" }]
    order_by := none, skip := none, limit := none }

/-- A plan with no operation yet. -/
def empty_plan : ExecutionPlan := { root := none, error := none }

end Demo

/-- The operations `_buildProjectionOps` puts above the Aggregate or Project
operation, from the bottom up, for the projections `ps` built from the items
of the clause. -/
def projection_modifiers (X : AstEnv) (clause : Clause) (ps : Option (List AR_ExpNode)) :
    List Op :=
  (if clause.is_distinct then [Op.Distinct ((ps.getD []).map AR_ExpNode.resolved_name)] else [])
    ++ (match clause.order_by with
        | some oc => [Op.Sort (_BuildOrderExpressions X oc) (AST_PrepareSortOp oc)]
        | none => [])
    ++ (match clause.skip with | some s => [Op.Skip s] | none => [])
    ++ (match clause.limit with | some s => [Op.Limit s] | none => [])

/-- The rax handed to `_combine_projection_arrays`: the WITH left-hand-side
names when the clause aggregates, and an empty rax otherwise. -/
def initial_projection_names (X : AstEnv) (clause : Clause) : rax :=
  if X.AST_ClauseContainsAggregation clause then _add_WITH_LHS_projections clause raxNew
  else raxNew

namespace Demo

/-- `RETURN DISTINCT x, y ORDER BY z`. -/
def return_distinct_x_y_order_by_z : Clause :=
  { return_x_y_order_by_z with is_distinct := true }

end Demo

/-- The order expressions whose resolved name is new for the set `seen` of
names: not in `seen` and not the name of an earlier order expression.  They
are listed in ORDER BY order. -/
def new_sort_expressions (seen : List String) : List AR_ExpNode → List AR_ExpNode
  | [] => []
  | e :: rest =>
    match e.resolved_name with
    | some n =>
      if n ∈ seen then new_sort_expressions seen rest
      else e :: new_sort_expressions (seen ++ [n]) rest
    | none => new_sort_expressions seen rest

/-- The resolved names of a list of expressions. -/
def projected_names (exps : List AR_ExpNode) : List String :=
  exps.filterMap AR_ExpNode.resolved_name

namespace Demo

/-- `RETURN a.v AS x ORDER BY a.v`. -/
def return_a_v_as_x_order_by_a_v : Clause :=
  { type := .CYPHER_AST_RETURN, has_include_existing := false, is_distinct := false
    projections :=
      [{ expression := .CYPHER_AST_PROPERTY_OPERATOR (.CYPHER_AST_IDENTIFIER "a") "v",
         alias_node := some "x" }]
    order_by :=
      some [{ expression := .CYPHER_AST_PROPERTY_OPERATOR (.CYPHER_AST_IDENTIFIER "a") "v",
              ascending := true }]
    skip := none, limit := none }

/-- `RETURN n.name AS who, m ORDER BY m, n.name`. -/
def return_who_m_order_by_m_name : Clause :=
  { type := .CYPHER_AST_RETURN, has_include_existing := false, is_distinct := false
    projections :=
      [{ expression := .CYPHER_AST_PROPERTY_OPERATOR (.CYPHER_AST_IDENTIFIER "n") "name",
         alias_node := some "who" },
       { expression := .CYPHER_AST_IDENTIFIER "m", alias_node := none }]
    order_by :=
      some [{ expression := .CYPHER_AST_IDENTIFIER "m", ascending := true },
            { expression := .CYPHER_AST_PROPERTY_OPERATOR (.CYPHER_AST_IDENTIFIER "n") "name",
              ascending := false }]
    skip := none, limit := none }

end Demo

namespace Demo

/-- `WITH count(a) AS c ORDER BY b`. -/
def with_count_a_as_c_order_by_b : Clause :=
  { type := .CYPHER_AST_WITH, has_include_existing := false, is_distinct := false
    projections :=
      [{ expression := .CYPHER_AST_APPLY_OPERATOR "count" [.CYPHER_AST_IDENTIFIER "a"],
         alias_node := some "c" }]
    order_by := some [{ expression := .CYPHER_AST_IDENTIFIER "b", ascending := true }]
    skip := none, limit := none }

/-- `WITH count(a) AS c ORDER BY b.v`. -/
def with_count_a_as_c_order_by_b_v : Clause :=
  { with_count_a_as_c_order_by_b with
    order_by :=
      some [{ expression := .CYPHER_AST_PROPERTY_OPERATOR (.CYPHER_AST_IDENTIFIER "b") "v",
              ascending := true }] }

/-- A plan in which an earlier clause has bound `a` and `b`: a scan of `b` over
a scan of `a`. -/
def plan_binding_a_b : ExecutionPlan :=
  { root := some (.mk (.other "AllNodeScan b") [.mk (.other "AllNodeScan a") []])
    error := none }

end Demo

/-! ## Dynamic values -/

/-- A type mask: one bit per value type. -/
abbrev SIType := Nat

/-- Modelled from the spec: the type bits of `SIType` (value.h is not part of
the sources).  Every type is a single bit, so that a mask is a set of types;
the positions are those of the `SIType` enumeration. -/
def T_MAP : SIType := 1
/-- Type bit of nodes. -/
def T_NODE : SIType := 2
/-- Type bit of edges. -/
def T_EDGE : SIType := 4
/-- Type bit of arrays. -/
def T_ARRAY : SIType := 8
/-- Type bit of strings. -/
def T_STRING : SIType := 2048
/-- Type bit of booleans. -/
def T_BOOL : SIType := 4096
/-- Type bit of 64-bit integers. -/
def T_INT64 : SIType := 8192
/-- Type bit of doubles. -/
def T_DOUBLE : SIType := 16384
/-- Type bit of the null value. -/
def T_NULL : SIType := 32768

/-- The dynamic value `SIValue`, one constructor per value kind, named after the
C constructor of the kind.  A double is kept as its bit pattern; a map is its
array of pairs with string keys.  The ownership mode (`allocation`) is not
part of the value. -/
inductive SIValue where
  | SI_NullVal
  | SI_BoolVal (b : Bool)
  | SI_LongVal (i : Int)
  | SI_DoubleVal (bits : Nat)
  | SI_ConstStringVal (s : String)
  | SI_Array (array : List SIValue)
  | SI_Map (map : List (String × SIValue))
  | SI_Node (id : Nat)
  | SI_Edge (id : Nat)
deriving Repr

/-- `SI_TYPE(v)`. -/
def SI_TYPE : SIValue → SIType
  | .SI_NullVal => T_NULL
  | .SI_BoolVal _ => T_BOOL
  | .SI_LongVal _ => T_INT64
  | .SI_DoubleVal _ => T_DOUBLE
  | .SI_ConstStringVal _ => T_STRING
  | .SI_Array _ => T_ARRAY
  | .SI_Map _ => T_MAP
  | .SI_Node _ => T_NODE
  | .SI_Edge _ => T_EDGE

/-- The field `siarray.array` of a value of type `T_ARRAY`. -/
def SIValue.array : SIValue → List SIValue
  | .SI_Array elems => elems
  | _ => []

/-- Modelled from the spec: `SI_CloneValue` (value.c is not part of the
sources) gives an Owned copy of the value; the copy is the same value. -/
def SI_CloneValue (v : SIValue) : SIValue := v

/-- Modelled from the spec: `SI_ShareValue` gives a Shared reference to the
value, without a copy; the reference is the same value. -/
def SI_ShareValue (v : SIValue) : SIValue := v

/-- What array.c calls in value.c and xxhash: the comparison of two values,
the hash code of a value, and the XXH64 hash of the array type
discriminator. -/
structure ValueEnv where
  SIValue_Compare : SIValue → SIValue → Int
  SIValue_HashCode : SIValue → Nat
  XXH64_T_ARRAY : Nat

/-! ## array.c -/

/-- `SIArray_New`. -/
def SIArray_New (_initialCapacity : Nat) : SIValue := .SI_Array []

/-- `SIArray_Append`: the value is cloned and appended. -/
def SIArray_Append (siarray : SIValue) (value : SIValue) : SIValue :=
  .SI_Array (siarray.array ++ [SI_CloneValue value])

/-- `SIArray_Length`. -/
def SIArray_Length (siarray : SIValue) : Nat := siarray.array.length

/-- `SIArray_Get`. -/
def SIArray_Get (siarray : SIValue) (index : Nat) : SIValue :=
  if index ≥ SIArray_Length siarray then .SI_NullVal
  else
    match siarray.array[index]? with
    | some elem => SI_ShareValue elem
    | none => .SI_NullVal

/-- The test of the loop body of `SIArray_Contains`:
`SI_TYPE(elem) & SI_TYPE(value)` and `SIValue_Compare(elem, value, NULL) == 0`. -/
def SIArray_Contains_test (V : ValueEnv) (elem value : SIValue) : Bool :=
  (SI_TYPE elem &&& SI_TYPE value != 0) && (V.SIValue_Compare elem value == 0)

/-- `SIArray_Contains`. -/
def SIArray_Contains (V : ValueEnv) (siarray : SIValue) (value : SIValue) : Bool :=
  siarray.array.any (fun elem => SIArray_Contains_test V (SI_ShareValue elem) value)

mutual
/-- `SIArray_ContainsType`. -/
def SIArray_ContainsType (siarray : SIValue) (t : SIType) : Bool :=
  match siarray with
  | .SI_Array elems => SIArray_ContainsType_loop elems t
  | _ => false
/-- The loop of `SIArray_ContainsType` over the elements still to visit. -/
def SIArray_ContainsType_loop : List SIValue → SIType → Bool
  | [], _ => false
  | elem :: rest, t =>
    if SI_TYPE elem &&& t != 0 then true
    else
      match elem with
      | .SI_Array inner =>
        -- recursively check nested arrays
        if SIArray_ContainsType (.SI_Array inner) t then true
        else SIArray_ContainsType_loop rest t
      | _ => SIArray_ContainsType_loop rest t
end

/-- `SIArray_AllOfType`. -/
def SIArray_AllOfType (siarray : SIValue) (t : SIType) : Bool :=
  siarray.array.all (fun elem => SI_TYPE elem &&& t != 0)

/-- `SIArray_Clone`. -/
def SIArray_Clone (siarray : SIValue) : SIValue :=
  (List.range (SIArray_Length siarray)).foldl
    (fun newArray i => SIArray_Append newArray (SIArray_Get siarray i))
    (SIArray_New (SIArray_Length siarray))

/-- `SIArray_HashCode`; the hash is a 64-bit unsigned integer. -/
def SIArray_HashCode (V : ValueEnv) (siarray : SIValue) : Nat :=
  siarray.array.foldl (fun hashCode value => (31 * hashCode + V.SIValue_HashCode value) % 2 ^ 64)
    V.XXH64_T_ARRAY

/-- `SIArray_Flatten`.  The case `levels < 1` of the source is the case `0`
here, and `levels - 1` is the `levels` of the case `levels + 1`. -/
def SIArray_Flatten (siarray : SIValue) : Nat → SIValue
  | 0 =>
    siarray.array.foldl (fun newArray value => SIArray_Append newArray value)
      (SIArray_New (SIArray_Length siarray))
  | levels + 1 =>
    siarray.array.foldl
      (fun newArray value =>
        if SI_TYPE value != T_ARRAY then SIArray_Append newArray value
        else
          (SIArray_Flatten value levels).array.foldl
            (fun newArray inner => SIArray_Append newArray inner) newArray)
      (SIArray_New (SIArray_Length siarray))

/-- `SIArray_Dedup`. -/
def SIArray_Dedup (V : ValueEnv) (siarray : SIValue) : SIValue :=
  if SIArray_Length siarray = 0 then SIArray_New 0
  else
    siarray.array.foldl
      (fun newArray elem =>
        if SIArray_Contains V newArray elem = false then SIArray_Append newArray elem
        else newArray)
      (SIArray_New 0)

/-! ## Arrays, in the words of the spec -/

/-- The elements of `rest` that `keep` accepts given the elements before them,
`pre` being the elements before `rest`. -/
def keep_from {α : Type} (keep : List α → α → Bool) (pre : List α) : List α → List α
  | [] => []
  | e :: rest => (if keep pre e then [e] else []) ++ keep_from keep (pre ++ [e]) rest

/-- The subsequence of `A` made of the elements that are not equal, in the sense
of `SIArray_Contains`, to any earlier element of `A`. -/
def first_of_equals (V : ValueEnv) (A : List SIValue) : List SIValue :=
  (List.range A.length).filterMap (fun i =>
    match A[i]? with
    | some e => if SIArray_Contains V (.SI_Array (A.take i)) e then none else some e
    | none => none)

/-- One level of un-nesting: the in-order concatenation, over the elements `e`
of `A`, of `inner e` when `e` is an array and of `[e]` otherwise. -/
def unnest (inner : SIValue → List SIValue) (A : List SIValue) : List SIValue :=
  A.flatMap (fun e => if SI_TYPE e = T_ARRAY then inner e else [e])

namespace Demo

/-- A comparison for the examples: integers, booleans and strings by value, two
nulls equal, and any other two values by their type bits. -/
def Compare : SIValue → SIValue → Int
  | .SI_LongVal a, .SI_LongVal b => a - b
  | .SI_BoolVal a, .SI_BoolVal b => (if a then 1 else 0) - (if b then 1 else 0)
  | .SI_ConstStringVal a, .SI_ConstStringVal b => if a = b then 0 else if a < b then -1 else 1
  | a, b => (SI_TYPE a : Int) - (SI_TYPE b : Int)

/-- The value layer of the examples. -/
def values : ValueEnv :=
  { SIValue_Compare := Compare
    SIValue_HashCode := fun v => match v with | .SI_LongVal i => i.toNat | _ => 0
    XXH64_T_ARRAY := 7 }

/-- The array `[1, 2, 1, 3, 2]`. -/
def array_1_2_1_3_2 : List SIValue :=
  [.SI_LongVal 1, .SI_LongVal 2, .SI_LongVal 1, .SI_LongVal 3, .SI_LongVal 2]

/-- The array `[[1, [2, 3]], 4]`. -/
def nested_array : List SIValue :=
  [.SI_Array [.SI_LongVal 1, .SI_Array [.SI_LongVal 2, .SI_LongVal 3]], .SI_LongVal 4]

end Demo

/-! ## map.h, map_funcs.c -/

/-- The key/value pairs of a value of type `T_MAP`, in insertion order. -/
def SIValue.pairs : SIValue → List (String × SIValue)
  | .SI_Map pairs => pairs
  | _ => []

/-- Modelled from the spec: `Map_KeyCount` (map.c is not part of the sources)
is the number of keys of the map. -/
def Map_KeyCount (map : SIValue) : Nat := map.pairs.length

/-- Modelled from the spec: `Map_Clone` gives a copy of the map with the same
keys and values in the same order. -/
def Map_Clone (map : SIValue) : SIValue := .SI_Map map.pairs

/-- Modelled from the spec: `Map_GetIdx` is the indexed key/value retrieval,
the pair at position `idx` of the insertion order. -/
def Map_GetIdx (map : SIValue) (idx : Nat) : Option (String × SIValue) := map.pairs[idx]?

/-- Modelled from the spec: adding to the pairs of a map overwrites the value
of an existing key in place, and puts a new key after the others. -/
def Map_Add_pairs : List (String × SIValue) → String → SIValue → List (String × SIValue)
  | [], key, value => [(key, SI_CloneValue value)]
  | (k, v) :: rest, key, value =>
    if k == key then (k, SI_CloneValue value) :: rest
    else (k, v) :: Map_Add_pairs rest key value

/-- Modelled from the spec: `Map_Add` (map.c is not part of the sources)
overwrites an existing key's value, or adds the key with the value. -/
def Map_Add (map : SIValue) (key : String) (value : SIValue) : SIValue :=
  .SI_Map (Map_Add_pairs map.pairs key value)

/-- `AR_MERGEMAP`: with two nulls null, with one null the other argument,
otherwise a clone of `map1` to which every pair of `map0` is added in index
order. -/
def AR_MERGEMAP (argv : List SIValue) : Except Fault SIValue :=
  match argv with
  | [map0, map1] =>
    if SI_TYPE map0 &&& T_NULL != 0 && SI_TYPE map1 &&& T_NULL != 0 then
      .ok .SI_NullVal
    else if SI_TYPE map0 &&& T_NULL != 0 then
      .ok map1
    else if SI_TYPE map1 &&& T_NULL != 0 then
      .ok map0
    else
      let keyCount0 := Map_KeyCount map0
      .ok ((List.range keyCount0).foldl
        (fun map i =>
          match Map_GetIdx map0 i with
          | some (key, value) => Map_Add map key value
          | none => map)
        (Map_Clone map1))
  | _ => .error .assertion

namespace Demo

/-- The map `{x: 1, y: 2}`. -/
def map_x1_y2 : List (String × SIValue) := [("x", .SI_LongVal 1), ("y", .SI_LongVal 2)]

/-- The map `{y: 9, z: 3}`. -/
def map_y9_z3 : List (String × SIValue) := [("y", .SI_LongVal 9), ("z", .SI_LongVal 3)]

end Demo

/-! ## Nested arrays and hashing, in the words of the spec -/

mutual
/-- The values reachable from `v` by descending into it when it is an array. -/
def nested_values_of : SIValue → List SIValue
  | .SI_Array elems => nested_values elems
  | _ => []
/-- The values reachable from the array with the elements `A` by descending
through nested arrays to any depth: every element of `A`, and every value
reachable from an element of `A` that is an array. -/
def nested_values : List SIValue → List SIValue
  | [] => []
  | e :: rest => e :: (nested_values_of e ++ nested_values rest)
end

/-- The left fold of `h -> (31 * h + e) mod 2^64` over the element hashes `es`,
started from `h`. -/
def combine_hashes : Nat → List Nat → Nat
  | h, [] => h
  | h, e :: es => combine_hashes ((31 * h + e) % 2 ^ 64) es

/-- The polynomial `e0 * 31^(n-1) + ... + e(n-1)` of the element hashes. -/
def hash_polynomial : List Nat → Nat
  | [] => 0
  | e :: es => e * 31 ^ es.length + hash_polynomial es

namespace Demo

/-- The array `[[["s"]], 4]`, with a string two arrays down. -/
def deep_array : List SIValue :=
  [.SI_Array [.SI_Array [.SI_ConstStringVal "s"]], .SI_LongVal 4]

end Demo

/-! ## The error channel and the map builders of map_funcs.c -/

/-- Modelled from the spec: the conditions a function raises on the shared
error channel (errors.c is not part of the sources): a runtime exception with
its message, and a type mismatch with the value received and the type
expected. -/
inductive Condition where
  | runtime_exception (msg : String)
  | type_mismatch (received : SIValue) (expected : SIType)

/-- Whether the condition is a runtime exception. -/
def Condition.is_runtime_exception : Condition → Bool
  | .runtime_exception _ => true
  | .type_mismatch _ _ => false

/-- Whether the condition is a type mismatch. -/
def Condition.is_type_mismatch : Condition → Bool
  | .runtime_exception _ => false
  | .type_mismatch _ _ => true

/-- Modelled from the spec: the shared error channel, as the conditions raised
so far, oldest first.  It is looked at between consume calls, so a function
that raises a condition goes on with its next statement. -/
abbrev ErrorCtx := List Condition

/-- Modelled from the spec: `ErrorCtx_RaiseRuntimeException` (errors.c is not
part of the sources) raises a runtime-exception condition. -/
def ErrorCtx_RaiseRuntimeException (ctx : ErrorCtx) (msg : String) : ErrorCtx :=
  ctx ++ [.runtime_exception msg]

/-- Modelled from the spec: `Error_SITypeMismatch` (errors.c is not part of the
sources) raises a type-mismatch condition. -/
def Error_SITypeMismatch (ctx : ErrorCtx) (received : SIValue) (expected : SIType) : ErrorCtx :=
  ctx ++ [.type_mismatch received expected]

/-- The string of a value of type `T_STRING`. -/
def SIValue.stringval : SIValue → Option String
  | .SI_ConstStringVal s => some s
  | _ => none

/-- Modelled from the spec: `Map_Remove` (map.c is not part of the sources)
removes the key and its value when the key is present. -/
def Map_Remove (map : SIValue) (key : String) : SIValue :=
  .SI_Map (map.pairs.filter (fun p => !(p.1 == key)))

/-- What the map builders call but map_funcs.c does not define: `AR_TOSTRING`
of string_funcs.c, as a function of its one argument. -/
structure StringFuncs where
  AR_TOSTRING : SIValue → SIValue

/-- The loop of `AR_TOMAP`, from index `i`, with an iteration bound.  `argv` is
a C array of `argc` values; `Map_Add` takes a string key. -/
def AR_TOMAP_loop (argv : List SIValue) (argc : Nat) :
    Nat → Nat → SIValue → ErrorCtx → ErrorCtx × Except Fault SIValue
  | 0, i, map, ctx => if i < argc then (ctx, .error .fuel) else (ctx, .ok map)
  | fuel + 1, i, map, ctx =>
    if i < argc then
      match argv[i]?, argv[i + 1]? with
      | some key, some val =>
        -- make sure key is a string
        if SI_TYPE key &&& T_STRING = 0 then
          (Error_SITypeMismatch ctx key T_STRING, .ok map)
        else
          match key.stringval with
          | some s => AR_TOMAP_loop argv argc fuel (i + 2) (Map_Add map s val) ctx
          | none => (ctx, .error .assertion)
      | _, _ => (ctx, .error .bounds)
    else (ctx, .ok map)

/-- `AR_TOMAP`. -/
def AR_TOMAP (argv : List SIValue) (ctx : ErrorCtx) : ErrorCtx × Except Fault SIValue :=
  let argc := argv.length
  -- validate number of arguments
  let ctx1 :=
    if argc % 2 != 0 then ErrorCtx_RaiseRuntimeException ctx "map expects even number of elements"
    else ctx
  AR_TOMAP_loop argv argc argc 0 (.SI_Map []) ctx1

/-- The loop of `AR_FROMLIST`, from index `i`, with an iteration bound.
`Map_Remove` and `Map_Add` take a string key. -/
def AR_FROMLIST_loop (F : StringFuncs) (list : SIValue) (arrayLen : Nat) :
    Nat → Nat → SIValue → ErrorCtx → ErrorCtx × Except Fault SIValue
  | 0, i, map, ctx => if i < arrayLen then (ctx, .error .fuel) else (ctx, .ok map)
  | fuel + 1, i, map, ctx =>
    if i < arrayLen then
      let key := SIArray_Get list i
      -- if key is null - the pair is skipped
      if SI_TYPE key = T_NULL then AR_FROMLIST_loop F list arrayLen fuel (i + 2) map ctx
      else
        -- make sure key is a string
        let key1 : Option SIValue :=
          if SI_TYPE key ≠ T_STRING then
            let keystr := F.AR_TOSTRING key
            if SI_TYPE keystr = T_NULL then none
            else some (SI_CloneValue keystr)
          else some key
        match key1 with
        | none => (Error_SITypeMismatch ctx key T_STRING, .ok map)
        | some key =>
          let val := SIArray_Get list (i + 1)
          match key.stringval with
          | none => (ctx, .error .assertion)
          | some s =>
            -- update map
            AR_FROMLIST_loop F list arrayLen fuel (i + 2)
              (if SI_TYPE val = T_NULL then Map_Remove map s else Map_Add map s val) ctx
    else (ctx, .ok map)

/-- `AR_FROMLIST`. -/
def AR_FROMLIST (F : StringFuncs) (argv : List SIValue) (ctx : ErrorCtx) :
    ErrorCtx × Except Fault SIValue :=
  match argv with
  | [base, list] =>
    if SI_TYPE base = T_MAP ∧ SI_TYPE list = T_ARRAY then
      let arrayLen := SIArray_Length list
      if arrayLen = 0 then (ctx, .ok base)
      else
        let ctx1 :=
          if arrayLen % 2 != 0 then
            ErrorCtx_RaiseRuntimeException ctx
              "List containing keyStr and values expects even number of elements"
          else ctx
        AR_FROMLIST_loop F list arrayLen arrayLen 0 (Map_Clone base) ctx1
    else (ctx, .error .assertion)
  | _ => (ctx, .error .assertion)

/-- The loop of `AR_FROMTWOLISTS`, from index `i`, with an iteration bound. -/
def AR_FROMTWOLISTS_loop (F : StringFuncs) (keys vals : SIValue) (keyCount : Nat) :
    Nat → Nat → SIValue → ErrorCtx → ErrorCtx × Except Fault SIValue
  | 0, i, map, ctx => if i < keyCount then (ctx, .error .fuel) else (ctx, .ok map)
  | fuel + 1, i, map, ctx =>
    if i < keyCount then
      let key := SIArray_Get keys i
      -- if key is null - the pair is skipped
      if SI_TYPE key = T_NULL then AR_FROMTWOLISTS_loop F keys vals keyCount fuel (i + 1) map ctx
      else
        -- make sure key is a string
        let key1 : Option SIValue :=
          if SI_TYPE key ≠ T_STRING then
            let keystr := F.AR_TOSTRING key
            if SI_TYPE keystr = T_NULL then none
            else some (SI_CloneValue keystr)
          else some key
        match key1 with
        | none => (Error_SITypeMismatch ctx key T_STRING, .ok map)
        | some key =>
          let val := SIArray_Get vals i
          match key.stringval with
          | none => (ctx, .error .assertion)
          | some s =>
            -- update map
            AR_FROMTWOLISTS_loop F keys vals keyCount fuel (i + 1)
              (if SI_TYPE val = T_NULL then Map_Remove map s else Map_Add map s val) ctx
    else (ctx, .ok map)

/-- `AR_FROMTWOLISTS`. -/
def AR_FROMTWOLISTS (F : StringFuncs) (argv : List SIValue) (ctx : ErrorCtx) :
    ErrorCtx × Except Fault SIValue :=
  match argv with
  | [base, keys, vals] =>
    if SI_TYPE base = T_MAP ∧ SI_TYPE keys = T_ARRAY ∧ SI_TYPE vals = T_ARRAY then
      let keyCount := SIArray_Length keys
      let ctx1 :=
        if keyCount ≠ SIArray_Length vals then
          ErrorCtx_RaiseRuntimeException ctx
            "Number of keys must be equal to the number of values"
        else ctx
      AR_FROMTWOLISTS_loop F keys vals keyCount keyCount 0 (Map_Clone base) ctx1
    else (ctx, .error .assertion)
  | _ => (ctx, .error .assertion)

/-- `AR_FROMPAIRS`: a stub that returns null. -/
def AR_FROMPAIRS (argv : List SIValue) : Except Fault SIValue :=
  if argv.length = 3 then .ok .SI_NullVal else .error .assertion

/-! ## Map builders, in the words of the spec -/

/-- The pairs `(k1, v1), ..., (kn, vn)` of a list `[k1, v1, ..., kn, vn]`. -/
def list_pairs : List SIValue → List (SIValue × SIValue)
  | k :: v :: rest => (k, v) :: list_pairs rest
  | _ => []

/-- The interleaved list `[keys[0], vals[0], keys[1], vals[1], ...]`. -/
def interleave : List SIValue → List SIValue → List SIValue
  | k :: keys, v :: vals => k :: v :: interleave keys vals
  | _, _ => []

/-- Processing one pair whose key is a string or null: a null value removes
the key, a non-null value sets the key to the value, and a pair whose key is
null is skipped. -/
def process_pair (map : SIValue) (p : SIValue × SIValue) : SIValue :=
  match p.1 with
  | .SI_ConstStringVal k =>
    if SI_TYPE p.2 = T_NULL then Map_Remove map k else Map_Add map k p.2
  | _ => map

/-- The conditions of the channel that are runtime exceptions. -/
def runtime_exceptions (ctx : ErrorCtx) : List Condition :=
  ctx.filter Condition.is_runtime_exception

/-- The conditions of the channel that are type mismatches. -/
def type_mismatches (ctx : ErrorCtx) : List Condition :=
  ctx.filter Condition.is_type_mismatch

/-- The update both `AR_FROMLIST` and `AR_FROMTWOLISTS` make for the key/value
pairs still to process, in order: the loop body of the two functions, which is
the same text in both, over a list of pairs in place of the indices. -/
def update_from_pairs (F : StringFuncs) :
    List (SIValue × SIValue) → SIValue → ErrorCtx → ErrorCtx × Except Fault SIValue
  | [], map, ctx => (ctx, .ok map)
  | (key, val) :: rest, map, ctx =>
    if SI_TYPE key = T_NULL then update_from_pairs F rest map ctx
    else
      let key1 : Option SIValue :=
        if SI_TYPE key ≠ T_STRING then
          let keystr := F.AR_TOSTRING key
          if SI_TYPE keystr = T_NULL then none
          else some (SI_CloneValue keystr)
        else some key
      match key1 with
      | none => (Error_SITypeMismatch ctx key T_STRING, .ok map)
      | some key =>
        match key.stringval with
        | none => (ctx, .error .assertion)
        | some s =>
          update_from_pairs F rest
            (if SI_TYPE val = T_NULL then Map_Remove map s else Map_Add map s val) ctx

namespace Demo

/-- A string conversion for the examples: an integer gives its decimal digits,
a string itself, a boolean `true` or `false`, and every other value null. -/
def funcs : StringFuncs :=
  { AR_TOSTRING := fun v =>
      match v with
      | .SI_LongVal i => .SI_ConstStringVal (toString i)
      | .SI_ConstStringVal s => .SI_ConstStringVal s
      | .SI_BoolVal b => .SI_ConstStringVal (if b then "true" else "false")
      | _ => .SI_NullVal }

/-- The map `{a: 0, b: 0}`. -/
def map_a0_b0 : List (String × SIValue) := [("a", .SI_LongVal 0), ("b", .SI_LongVal 0)]

end Demo

/-- The pairs before the first pair whose key is not a string, with their keys
as strings. -/
def pairs_before_mismatch : List (SIValue × SIValue) → List (String × SIValue)
  | (.SI_ConstStringVal k, v) :: rest => (k, v) :: pairs_before_mismatch rest
  | _ => []

/-- The first key that is not a string, if there is one. -/
def first_non_string_key : List (SIValue × SIValue) → Option SIValue
  | [] => none
  | (.SI_ConstStringVal _, _) :: rest => first_non_string_key rest
  | (k, _) :: _ => some k

/-! ## Counting the self-calls of `_consume_and_return`, and runs of calls -/

/-- `_consume_and_return` as above, together with two things the source does
not record: the number of self-calls made within the call, and the rows the
left child returned within it, in order. -/
def _consume_and_return_counted {R L β : Type} (E : Env R L (Argument R) β) :
    Nat → OpCallSubquery R L (Argument R) β →
      Except Fault ((Option R × OpCallSubquery R L (Argument R) β) × Nat × List R)
  | 0, _ => .error .fuel
  | fuel + 1, op =>
    match E.consume_body op.body with
    | (none, b1) =>
      match op.lhs with
      | none => .ok ((none, { op with body := b1, r := none }), 0, [])
      | some l =>
        match E.consume_lhs l with
        | (none, l1) => .ok ((none, { op with body := b1, r := none, lhs := some l1 }), 0, [])
        | (some r, l1) =>
          match Argument_AddRecord b1.deepest (E.DeepCloneRecord r) with
          | .error e => .error e
          | .ok arg =>
            match _consume_and_return_counted E fuel
                { op with body := { b1 with deepest := arg }, r := some r, lhs := some l1 } with
            | .error e => .error e
            | .ok (result, calls, rows) => .ok (result, calls + 1, r :: rows)
    | (some consumed, b1) =>
      match op.r with
      | none => .error .assertion
      | some r =>
        .ok ((some (E.Merge_Into (E.DeepCloneRecord r) consumed), { op with body := b1 }), 0, [])

/-- A call made on an operation after `init`. -/
inductive OpCall where
  | consume
  | reset
deriving DecidableEq, Repr

/-- The state of an eager CallSubquery after the given calls, made in order
from the state `op`. -/
def run_eager_calls {R L β : Type} (E : Env R L (ArgumentList R) β) (fuel : Nat) :
    List OpCall → OpCallSubquery R L (ArgumentList R) β →
      Except Fault (OpCallSubquery R L (ArgumentList R) β)
  | [], op => .ok op
  | .consume :: calls, op =>
    match CallSubqueryConsumeEager E fuel op with
    | .error e => .error e
    | .ok (_, op1) => run_eager_calls E fuel calls op1
  | .reset :: calls, op => run_eager_calls E fuel calls (CallSubqueryReset op)

namespace Demo

/-- A body of two operations: the Argument and, above it, a filter that passes
on the record it pulls from the Argument when it is even and drops it when it
is odd. -/
def consume_filter_body (b : BodyState (Argument Nat) Unit) :
    Option Nat × BodyState (Argument Nat) Unit :=
  match ArgumentConsume b.deepest with
  | (some c, arg) =>
    if c % 2 = 0 then (some c, { deepest := arg, inner := () })
    else (none, { deepest := arg, inner := () })
  | (none, arg) => (none, { deepest := arg, inner := () })

/-- The plan of `env` with the filter body. -/
def filter_env : Env Nat (List Nat) (Argument Nat) Unit :=
  { consume_lhs := consume_lhs
    consume_body := consume_filter_body
    DeepCloneRecord := fun r => r + 100
    Merge_Into := fun clone consumed => 1000 * clone + consumed
    CreateRecord := 0 }

/-- The filter body with an empty Argument. -/
def filter_body0 : BodyState (Argument Nat) Unit := { deepest := NewArgumentOp, inner := () }

end Demo

/-! ## Nesting depth and leaves, in the words of the spec -/

mutual
/-- The nesting depth a value adds: one more than the depth of its elements
for an array, and zero for every other value. -/
def depth_of : SIValue → Nat
  | .SI_Array elems => depth elems + 1
  | _ => 0
/-- The maximum nesting depth of inner arrays of the array with the elements
`A`: zero when no element is an array. -/
def depth : List SIValue → Nat
  | [] => 0
  | e :: rest => max (depth_of e) (depth rest)
end

mutual
/-- The non-array leaves of a value, left to right: those of its elements for
an array, and the value itself otherwise. -/
def leaves_of : SIValue → List SIValue
  | .SI_Array elems => leaves elems
  | .SI_NullVal => [.SI_NullVal]
  | .SI_BoolVal b => [.SI_BoolVal b]
  | .SI_LongVal i => [.SI_LongVal i]
  | .SI_DoubleVal bits => [.SI_DoubleVal bits]
  | .SI_ConstStringVal s => [.SI_ConstStringVal s]
  | .SI_Map map => [.SI_Map map]
  | .SI_Node id => [.SI_Node id]
  | .SI_Edge id => [.SI_Edge id]
/-- The non-array leaves of the array with the elements `A`, left to right. -/
def leaves : List SIValue → List SIValue
  | [] => []
  | e :: rest => leaves_of e ++ leaves rest
end

/-! # Theorems -/

/-! ## Lemmas on the loops -/

section Lemmas
variable {R L β : Type}

theorem drain_body_of_Yields {A : Type} (E : Env R L A β) :
    ∀ (outs : List R) (fuel : Nat) (s s1 : BodyState A β),
      Yields E.consume_body s outs s1 → outs.length < fuel → drain_body E fuel s = .ok s1 := by
  intro outs
  induction outs with
  | nil =>
    intro fuel s s1 h hf
    cases fuel with
    | zero => simp at hf
    | succ f =>
      simp only [Yields] at h
      simp [drain_body, h]
  | cons x outs ih =>
    intro fuel s s1 h hf
    cases fuel with
    | zero => simp at hf
    | succ f =>
      obtain ⟨h1, h2⟩ := h
      rcases hc : E.consume_body s with ⟨y, s2⟩
      rw [hc] at h1 h2
      simp only at h1 h2
      subst h1
      simp only [drain_body, hc]
      exact ih f s2 s1 h2 (by simpa using hf)

theorem Pulls_take {S : Type} (consume : S → Option R × S) :
    ∀ (rs : List R) (k : Nat) (s s1 : S), Pulls consume s rs s1 →
      ∃ sk, Pulls consume s (rs.take k) sk := by
  intro rs
  induction rs with
  | nil => intro k s s1 _; exact ⟨s, by simp [Pulls]⟩
  | cons r rs ih =>
    intro k s s1 h
    cases k with
    | zero => exact ⟨s, by simp [Pulls]⟩
    | succ k =>
      obtain ⟨h1, h2⟩ := h
      obtain ⟨sk, hk⟩ := ih k _ _ h2
      exact ⟨sk, by simp [Pulls, h1, hk]⟩

/-- One consume of a non-eager, non-returning operation that holds no record:
pull the left child, plant a clone, drain the body, hand the pulled record on. -/
theorem CallSubqueryConsume_unit_step (E : Env R L (Argument R) β) (fuel : Nat)
    (l : L) (b b2 : BodyState (Argument R) β) (r : R) (outs : List R)
    (hl : (E.consume_lhs l).1 = some r) (hb : b.deepest.r = none)
    (hy : Yields E.consume_body { b with deepest := { r := some (E.DeepCloneRecord r) } } outs b2)
    (hf : outs.length < fuel) :
    CallSubqueryConsume E fuel (NewCallSubqueryOp false false (some l) b)
      = .ok (some r, NewCallSubqueryOp false false (some (E.consume_lhs l).2) b2) := by
  have hd := drain_body_of_Yields E outs fuel _ _ hy hf
  simp only [CallSubqueryConsume, NewCallSubqueryOp, hl, Argument_AddRecord, hb, _handoff]
  simp [hd]

end Lemmas

section Lemmas2
variable {R L β : Type}

theorem consumeN_add {S : Type} (consume : S → Except Fault (Option R × S)) :
    ∀ (n m : Nat) (s s1 s2 : S) (xs ys : List (Option R)),
      consumeN consume n s = .ok (xs, s1) → consumeN consume m s1 = .ok (ys, s2) →
      consumeN consume (n + m) s = .ok (xs ++ ys, s2) := by
  intro n
  induction n with
  | zero =>
    intro m s s1 s2 xs ys h1 h2
    simp only [consumeN, Except.ok.injEq, Prod.mk.injEq] at h1
    obtain ⟨hx, hs⟩ := h1
    subst hx hs
    simpa using h2
  | succ n ih =>
    intro m s s1 s2 xs ys h1 h2
    rw [Nat.add_right_comm]
    simp only [consumeN] at h1 ⊢
    rcases hc : consume s with e | ⟨x, s3⟩
    · rw [hc] at h1; simp at h1
    · rw [hc] at h1
      simp only at h1 ⊢
      rcases hr : consumeN consume n s3 with e | ⟨zs, s4⟩
      · rw [hr] at h1; simp at h1
      · rw [hr] at h1
        simp only [Except.ok.injEq, Prod.mk.injEq] at h1
        obtain ⟨hx, hs⟩ := h1
        subst hx hs
        rw [ih m s3 s4 s2 zs ys hr h2]
        simp

theorem BodyRuns_take (E : Env R L (Argument R) β) :
    ∀ (runs : List (R × List R)) (k : Nat) (b b1 : BodyState (Argument R) β),
      BodyRuns E b runs b1 → ∃ bk, BodyRuns E b (runs.take k) bk := by
  intro runs
  induction runs with
  | nil => intro k b b1 _; exact ⟨b, by simp [BodyRuns]⟩
  | cons p runs ih =>
    intro k b b1 h
    cases k with
    | zero => exact ⟨b, by simp [BodyRuns]⟩
    | succ k =>
      obtain ⟨b2, h1, h2, h3⟩ := h
      obtain ⟨bk, hk⟩ := ih k b2 b1 h3
      exact ⟨bk, b2, h1, h2, hk⟩

/-- A non-eager, non-returning operation run once per outer row. -/
theorem consumeN_unit_rows (E : Env R L (Argument R) β) (fuel : Nat) :
    ∀ (runs : List (R × List R)) (l l1 : L) (b b1 : BodyState (Argument R) β),
      Pulls E.consume_lhs l (runs.map Prod.fst) l1 → b.deepest.r = none →
      BodyRuns E b runs b1 → (∀ p ∈ runs, p.2.length < fuel) →
      consumeN (CallSubqueryConsume E fuel) runs.length (NewCallSubqueryOp false false (some l) b)
        = .ok (runs.map (fun p => some p.1), NewCallSubqueryOp false false (some l1) b1) := by
  intro runs
  induction runs with
  | nil =>
    intro l l1 b b1 hl _ hb _
    simp only [Pulls, List.map_nil] at hl
    simp only [BodyRuns] at hb
    subst hl hb
    simp [consumeN]
  | cons p runs ih =>
    intro l l1 b b1 hl harg hb hf
    obtain ⟨hl1, hl2⟩ := hl
    obtain ⟨b2, hy, hb2, hrest⟩ := hb
    have hstep := CallSubqueryConsume_unit_step E fuel l b b2 p.1 p.2 hl1 harg hy
      (hf p (List.mem_cons_self _ _))
    have hrec := ih (E.consume_lhs l).2 l1 b2 b1 hl2 hb2 hrest
      (fun q hq => hf q (List.mem_cons_of_mem _ hq))
    simp only [List.length_cons, consumeN, hstep, hrec, List.map_cons]

end Lemmas2

/-! ## Non-eager CallSubquery -/

section NonEagerTheorems
variable {R L β : Type}

/-- C1: a non-eager, non-returning CallSubquery over a left child that yields the
outer rows of `runs` and then depletion, with a body that yields finitely many
rows for each planted row, returns on successive consume calls exactly the
outer rows, in order, and then depletion.  After `k` consume calls the left
child has been pulled exactly `k` times and the body has gone through exactly
`k` rounds of planting a deep clone of the row and being pulled to depletion
(`BodyRuns`), so the clone of a row is planted and the body drained before that
row is returned. -/
theorem C1_unit_subquery_emits_outer_rows (E : Env R L (Argument R) β) (fuel : Nat)
    (runs : List (R × List R)) (l l1 l2 : L) (b b1 : BodyState (Argument R) β)
    (hlhs : Pulls E.consume_lhs l (runs.map Prod.fst) l1)
    (hdep : E.consume_lhs l1 = (none, l2))
    (harg : b.deepest.r = none)
    (hbody : BodyRuns E b runs b1)
    (hfuel : ∀ p ∈ runs, p.2.length < fuel) :
    (∀ k, k ≤ runs.length → ∃ lk bk,
        Pulls E.consume_lhs l ((runs.take k).map Prod.fst) lk ∧
        BodyRuns E b (runs.take k) bk ∧
        consumeN (CallSubqueryConsume E fuel) k (NewCallSubqueryOp false false (some l) b)
          = .ok ((runs.take k).map (fun p => some p.1),
                 NewCallSubqueryOp false false (some lk) bk)) ∧
    consumeN (CallSubqueryConsume E fuel) (runs.length + 1)
        (NewCallSubqueryOp false false (some l) b)
      = .ok (runs.map (fun p => some p.1) ++ [none],
             NewCallSubqueryOp false false (some l2) b1) := by
  constructor
  · intro k hk
    obtain ⟨lk, hlk⟩ := Pulls_take E.consume_lhs (runs.map Prod.fst) k l l1 hlhs
    obtain ⟨bk, hbk⟩ := BodyRuns_take E runs k b b1 hbody
    rw [← List.map_take] at hlk
    refine ⟨lk, bk, hlk, hbk, ?_⟩
    have h := consumeN_unit_rows E fuel (runs.take k) l lk b bk hlk harg hbk
      (fun q hq => hfuel q (List.mem_of_mem_take hq))
    rw [List.length_take, Nat.min_eq_left hk] at h
    exact h
  · have h := consumeN_unit_rows E fuel runs l l1 b b1 hlhs harg hbody hfuel
    refine consumeN_add _ runs.length 1 _ _ _ _ _ h ?_
    simp [consumeN, CallSubqueryConsume, NewCallSubqueryOp, hdep]

end NonEagerTheorems

section Returning
variable {R L β : Type}

theorem mergedRows_cons (E : Env R L (Argument R) β) (p : R × List R) (runs : List (R × List R)) :
    mergedRows E (p :: runs)
      = p.2.map (fun x => some (E.Merge_Into (E.DeepCloneRecord p.1) x)) ++ mergedRows E runs := by
  simp [mergedRows]

theorem mergedRows_length (E : Env R L (Argument R) β) (runs : List (R × List R)) :
    (mergedRows E runs).length = (runs.map (fun p => p.2.length)).sum := by
  induction runs with
  | nil => simp [mergedRows]
  | cons p rest ih => rw [mergedRows_cons]; simp [ih]

/-- A consume of a non-eager operation that holds a record goes to `_handoff`,
and for a returning one on to `_consume_and_return`. -/
theorem CallSubqueryConsume_holding (E : Env R L (Argument R) β) (g : Nat) (r : R) (l : L)
    (b : BodyState (Argument R) β) :
    CallSubqueryConsume E g { NewCallSubqueryOp false true (some l) b with r := some r }
      = _consume_and_return E g { NewCallSubqueryOp false true (some l) b with r := some r } := by
  simp [CallSubqueryConsume, _handoff, NewCallSubqueryOp]

theorem consumeN_succ {S : Type} (consume : S → Except Fault (Option R × S)) (n : Nat) (s : S) :
    consumeN consume (n + 1) s = consumeAfter consume (consume s) n := by
  simp only [consumeN, consumeAfter]

/-- A body record is merged into a clone of the held record and emitted. -/
theorem returning_some_step (E : Env R L (Argument R) β) (n : Nat) (x : R) (f g : Nat) (r : R)
    (l : L) (b : BodyState (Argument R) β)
    (hx : (E.consume_body b).1 = some x) (hf : 0 < f) :
    consumeAfter (CallSubqueryConsume E g)
        (_consume_and_return E f { NewCallSubqueryOp false true (some l) b with r := some r })
        (n + 1)
      = match consumeAfter (CallSubqueryConsume E g)
          (_consume_and_return E g
            { NewCallSubqueryOp false true (some l) (E.consume_body b).2 with r := some r }) n with
        | .error e => .error e
        | .ok (xs, s2) => .ok (some (E.Merge_Into (E.DeepCloneRecord r) x) :: xs, s2) := by
  obtain ⟨f, rfl⟩ : ∃ f1, f = f1 + 1 := ⟨f - 1, by omega⟩
  rcases hc : E.consume_body b with ⟨y, b3⟩
  rw [hc] at hx
  simp only at hx
  subst hx
  have hh := CallSubqueryConsume_holding E g r l b3
  simp only [NewCallSubqueryOp] at hh ⊢
  simp only [_consume_and_return, hc]
  conv_lhs => simp only [consumeAfter, consumeN_succ, hh]
  simp only [consumeAfter]
  rcases _consume_and_return E g
    { r := some r, lhs := some l, body := b3, first := true, records := none,
      is_eager := false, is_returning := true } with e | ⟨z, s3⟩
  · rfl
  · simp only
    rcases consumeN (CallSubqueryConsume E g) n s3 with e | ⟨zs, s4⟩ <;> rfl

/-- The run of a returning, non-eager operation that holds the outer record `r`
while the body still has `outs` to give for it and `rest` are the outer rows to
come: the first record comes from `_consume_and_return` with bound `f`, the
others from consume calls with bound `g`. -/
theorem returning_run (E : Env R L (Argument R) β) :
    ∀ (rest : List (R × List R)) (outs : List R) (f g : Nat) (r : R) (l l1 l2 : L)
      (b b2 b1 : BodyState (Argument R) β),
      Yields E.consume_body b outs b2 → b2.deepest.r = none →
      Pulls E.consume_lhs l (rest.map Prod.fst) l1 → E.consume_lhs l1 = (none, l2) →
      BodyRuns E b2 rest b1 → rest.length < f → rest.length < g →
      consumeAfter (CallSubqueryConsume E g)
          (_consume_and_return E f { NewCallSubqueryOp false true (some l) b with r := some r })
          (outs.length + (mergedRows E rest).length)
        = .ok (outs.map (fun x => some (E.Merge_Into (E.DeepCloneRecord r) x))
                ++ mergedRows E rest ++ [none],
               NewCallSubqueryOp false true (some l2) b1) := by
  intro rest
  induction rest with
  | nil =>
    intro outs
    induction outs with
    | nil =>
      intro f g r l l1 l2 b b2 b1 hy _ hl hdep hb hf _
      obtain ⟨f, rfl⟩ : ∃ f1, f = f1 + 1 := ⟨f - 1, by omega⟩
      simp only [Yields] at hy
      simp only [Pulls, List.map_nil] at hl
      simp only [BodyRuns] at hb
      subst hl hb
      simp [_consume_and_return, NewCallSubqueryOp, hy, hdep, consumeN, consumeAfter, mergedRows]
    | cons x outs ihouts =>
      intro f g r l l1 l2 b b2 b1 hy hb2 hl hdep hb hf hg
      obtain ⟨hx, hy2⟩ := hy
      have h := ihouts g g r l l1 l2 _ b2 b1 hy2 hb2 hl hdep hb hg hg
      have hlen : (x :: outs).length + (mergedRows E []).length
          = (outs.length + (mergedRows E []).length) + 1 := by
        simp only [List.length_cons]; omega
      rw [hlen, returning_some_step E _ x f g r l b hx (by omega), h]
      simp
  | cons p rest ih =>
    intro outs
    induction outs with
    | nil =>
      intro f g r l l1 l2 b b2 b1 hy hb2 hl hdep hb hf hg
      obtain ⟨f, rfl⟩ : ∃ f1, f = f1 + 1 := ⟨f - 1, by omega⟩
      simp only [Yields] at hy
      obtain ⟨hl1, hl2⟩ := hl
      obtain ⟨b3, hy3, hb3, hrest⟩ := hb
      simp only [List.length_cons] at hf hg
      have h := ih p.2 f g p.1 (E.consume_lhs l).2 l1 l2 _ b3 b1 hy3 hb3 hl2 hdep hrest
        (by omega) (by omega)
      rcases hc : E.consume_lhs l with ⟨y, l3⟩
      rw [hc] at hl1 h
      simp only at hl1 h
      subst hl1
      simp only [NewCallSubqueryOp] at h ⊢
      simp only [_consume_and_return, hy, hc, Argument_AddRecord, hb2, mergedRows_cons,
        List.length_nil, Nat.zero_add, List.length_append, List.length_map, List.map_nil,
        List.nil_append]
      rw [h]
    | cons x outs ihouts =>
      intro f g r l l1 l2 b b2 b1 hy hb2 hl hdep hb hf hg
      obtain ⟨hx, hy2⟩ := hy
      have h := ihouts g g r l l1 l2 _ b2 b1 hy2 hb2 hl hdep hb hg hg
      have hlen : (x :: outs).length + (mergedRows E (p :: rest)).length
          = (outs.length + (mergedRows E (p :: rest)).length) + 1 := by
        simp only [List.length_cons]; omega
      rw [hlen, returning_some_step E _ x f g r l b hx (by omega), h]
      simp

/-- C2: a non-eager, returning CallSubquery over a left child that yields the
outer rows of `runs` and then depletion, whose body yields for the planted
clone of each outer row `r` the records paired with `r` in `runs`, returns on
successive consume calls, for each outer row in order and each of its body
records in order, the body record merged into a fresh deep clone of the outer
row (`mergedRows`), and then depletion.  The number of records emitted is the
sum of the numbers of body records, so an outer row whose body yields nothing
contributes no record. -/
theorem C2_returning_subquery_emits_merged_rows (E : Env R L (Argument R) β) (fuel : Nat)
    (runs : List (R × List R)) (l l1 l2 : L) (b b1 : BodyState (Argument R) β)
    (hlhs : Pulls E.consume_lhs l (runs.map Prod.fst) l1)
    (hdep : E.consume_lhs l1 = (none, l2))
    (harg : b.deepest.r = none)
    (hbody : BodyRuns E b runs b1)
    (hfuel : runs.length < fuel) :
    consumeN (CallSubqueryConsume E fuel) ((mergedRows E runs).length + 1)
        (NewCallSubqueryOp false true (some l) b)
      = .ok (mergedRows E runs ++ [none], NewCallSubqueryOp false true (some l2) b1) ∧
    (mergedRows E runs).length = (runs.map (fun p => p.2.length)).sum := by
  constructor
  · cases runs with
    | nil =>
      simp only [Pulls, List.map_nil] at hlhs
      simp only [BodyRuns] at hbody
      subst hlhs hbody
      simp [mergedRows, consumeN, CallSubqueryConsume, NewCallSubqueryOp, hdep]
    | cons p rest =>
      obtain ⟨hl1, hl2⟩ := hlhs
      obtain ⟨b3, hy3, hb3, hrest⟩ := hbody
      simp only [List.length_cons] at hfuel
      have h := returning_run E rest p.2 fuel fuel p.1 (E.consume_lhs l).2 l1 l2 _ b3 b1
        hy3 hb3 hl2 hdep hrest (by omega) (by omega)
      have hstart : CallSubqueryConsume E fuel (NewCallSubqueryOp false true (some l) b)
          = _consume_and_return E fuel
              { NewCallSubqueryOp false true (some (E.consume_lhs l).2)
                  { b with deepest := { r := some (E.DeepCloneRecord p.1) } } with
                r := some p.1 } := by
        simp [CallSubqueryConsume, NewCallSubqueryOp, hl1, Argument_AddRecord, harg, _handoff]
      rw [consumeN_succ, hstart, mergedRows_cons, List.length_append, List.length_map, h]
  · exact mergedRows_length E runs

end Returning

/-! ## Eager CallSubquery -/

section EagerTheorems
variable {R L β : Type}

theorem drain_lhs_of_Yields {A : Type} (E : Env R L A β) :
    ∀ (rows : List R) (fuel : Nat) (l l1 : L) (acc : List R),
      Yields E.consume_lhs l rows l1 → rows.length < fuel →
      drain_lhs E fuel l acc = .ok (acc ++ rows, l1) := by
  intro rows
  induction rows with
  | nil =>
    intro fuel l l1 acc h hf
    obtain ⟨f, rfl⟩ : ∃ f1, fuel = f1 + 1 := ⟨fuel - 1, by simp at hf; omega⟩
    simp only [Yields] at h
    simp [drain_lhs, h]
  | cons x rows ih =>
    intro fuel l l1 acc h hf
    obtain ⟨f, rfl⟩ : ∃ f1, fuel = f1 + 1 := ⟨fuel - 1, by simp at hf; omega⟩
    obtain ⟨h1, h2⟩ := h
    rcases hc : E.consume_lhs l with ⟨y, l3⟩
    rw [hc] at h1 h2
    simp only at h1 h2
    subst h1
    simp only [drain_lhs, hc]
    rw [ih f l3 l1 (acc ++ [x]) h2 (by simpa using hf)]
    simp

theorem pullN_of_Yields {S : Type} (consume : S → Option R × S) :
    ∀ (outs : List R) (s s1 : S), Yields consume s outs s1 →
      pullN consume (outs.length + 1) s = (outs.map some ++ [none], s1) := by
  intro outs
  induction outs with
  | nil => intro s s1 h; simp only [Yields] at h; simp [pullN, h]
  | cons x outs ih =>
    intro s s1 h
    obtain ⟨h1, h2⟩ := h
    have := ih _ _ h2
    rw [List.length_cons, pullN, this, h1]
    simp

/-- After its first consume an eager, returning operation passes on what the
body returns and touches nothing else. -/
theorem eager_returning_after (E : Env R L (ArgumentList R) β) (fuel : Nat) (lhs : Option L) :
    ∀ (n : Nat) (b : BodyState (ArgumentList R) β),
      consumeN (CallSubqueryConsumeEager E fuel) n
          { NewCallSubqueryOp true true lhs b with first := false }
        = .ok ((pullN E.consume_body n b).1,
               { NewCallSubqueryOp true true lhs (pullN E.consume_body n b).2 with
                 first := false }) := by
  intro n
  induction n with
  | zero => intro b; simp [consumeN, pullN]
  | succ n ih =>
    intro b
    have h := ih (E.consume_body b).2
    simp only [NewCallSubqueryOp] at h ⊢
    simp only [consumeN, CallSubqueryConsumeEager, _handoff_eager, if_true, h, pullN]

theorem take_append_replicate_succ (A : List (Option R)) (n : Nat) :
    (A ++ List.replicate (n + 1) none).take n = (A ++ List.replicate n none).take n := by
  rw [List.replicate_succ', ← List.append_assoc]
  exact List.take_append_of_le_length (by simp)

/-- After its first consume an eager, non-returning operation pops the retained
records one by one, last first, and then returns depletion. -/
theorem eager_unit_after (E : Env R L (ArgumentList R) β) (fuel : Nat) (lhs : Option L)
    (b : BodyState (ArgumentList R) β) :
    ∀ (n : Nat) (rs : List R),
      consumeN (CallSubqueryConsumeEager E fuel) n
          { NewCallSubqueryOp true false lhs b with first := false, records := some rs }
        = .ok ((rs.reverse.map some ++ List.replicate n none).take n,
               { NewCallSubqueryOp true false lhs b with
                 first := false, records := some (rs.take (rs.length - n)) }) := by
  intro n
  induction n with
  | zero => intro rs; simp [consumeN]
  | succ n ih =>
    intro rs
    rcases List.eq_nil_or_concat' rs with hnil | ⟨rs1, x, hx⟩
    · subst hnil
      have h := ih []
      simp only [NewCallSubqueryOp] at h ⊢
      simp only [consumeN, CallSubqueryConsumeEager, _handoff_eager, if_true, List.getLast?_nil,
        Bool.false_eq_true, if_false]
      rw [h]
      simp [List.replicate_succ]
    · subst hx
      have h := ih rs1
      have ht : (rs1 ++ [x]).take ((rs1 ++ [x]).length - (n + 1)) = rs1.take (rs1.length - n) := by
        rw [List.length_append, List.length_singleton, Nat.add_sub_add_right]
        exact List.take_append_of_le_length (Nat.sub_le _ _)
      rw [ht]
      simp only [NewCallSubqueryOp] at h ⊢
      simp only [consumeN, CallSubqueryConsumeEager, _handoff_eager, if_true,
        List.getLast?_concat, List.dropLast_concat, Bool.false_eq_true, if_false]
      rw [h]
      simp only [List.reverse_append, List.reverse_singleton, List.singleton_append,
        List.map_cons, List.cons_append, List.take_succ_cons, take_append_replicate_succ,
        List.nil_append]

/-- C3: an eager, returning CallSubquery over a left child that yields `rows`
and then depletion.  The first consume pulls the left child to depletion and
hands the collected rows, in the supplied order, to the ArgumentList before
the body is pulled at all: the records returned by any number of successive
consume calls are exactly what the body returns when pulled from the state in
which its ArgumentList holds `rows`, unmerged.  The left child stays in the
state `l1` in which its depletion left it, whatever it would return there, so
it is not pulled again.  When the body yields `outs` and then depletion, the
operation emits exactly the `outs.length` records `outs` and then depletion. -/
theorem C3_eager_returning_streams_body (E : Env R L (ArgumentList R) β) (fuel : Nat)
    (rows : List R) (l l1 : L) (b : BodyState (ArgumentList R) β)
    (hlhs : Yields E.consume_lhs l rows l1) (hfuel : rows.length < fuel) :
    (∀ n : Nat,
      consumeN (CallSubqueryConsumeEager E fuel) (n + 1) (NewCallSubqueryOp true true (some l) b)
        = .ok ((pullN E.consume_body (n + 1)
                  { b with deepest := ArgumentList_AddRecordList b.deepest rows }).1,
               { NewCallSubqueryOp true true (some l1)
                   (pullN E.consume_body (n + 1)
                     { b with deepest := ArgumentList_AddRecordList b.deepest rows }).2 with
                 first := false })) ∧
    (∀ (outs : List R) (b1 : BodyState (ArgumentList R) β),
      Yields E.consume_body { b with deepest := ArgumentList_AddRecordList b.deepest rows }
        outs b1 →
      consumeN (CallSubqueryConsumeEager E fuel) (outs.length + 1)
          (NewCallSubqueryOp true true (some l) b)
        = .ok (outs.map some ++ [none],
               { NewCallSubqueryOp true true (some l1) b1 with first := false })) := by
  have hd := drain_lhs_of_Yields E rows fuel l l1 [] hlhs hfuel
  have main : ∀ n : Nat,
      consumeN (CallSubqueryConsumeEager E fuel) (n + 1) (NewCallSubqueryOp true true (some l) b)
        = .ok ((pullN E.consume_body (n + 1)
                  { b with deepest := ArgumentList_AddRecordList b.deepest rows }).1,
               { NewCallSubqueryOp true true (some l1)
                   (pullN E.consume_body (n + 1)
                     { b with deepest := ArgumentList_AddRecordList b.deepest rows }).2 with
                 first := false }) := by
    intro n
    have h := eager_returning_after E fuel (some l1) n
      (E.consume_body { b with deepest := ArgumentList_AddRecordList b.deepest rows }).2
    simp only [NewCallSubqueryOp] at h ⊢
    simp only [consumeN, CallSubqueryConsumeEager, hd, List.nil_append, _handoff_eager, if_true,
      pullN]
    simp only [Bool.true_eq_false, if_false]
    rw [h]
  refine ⟨main, ?_⟩
  intro outs b1 hy
  rw [main outs.length, pullN_of_Yields E.consume_body outs _ b1 hy]

/-- C4: an eager, non-returning CallSubquery over a left child that yields `rows`
and then depletion, with a body that yields `outs` and then depletion once its
ArgumentList holds the deep clones of `rows`.  Every run of consume calls
leaves the body in the state `b1` reached by pulling it to depletion from the
state where the ArgumentList holds `rows.map DeepCloneRecord`, so the clones
are handed over and the body is drained, its records discarded, before the
first record is emitted.  The records returned by `n + 1` successive consume
calls are the first `n + 1` items of the retained rows in reverse order
followed by depletion signals, and the rows not yet emitted stay retained. -/
theorem C4_eager_unit_replays_reversed (E : Env R L (ArgumentList R) β) (fuel : Nat)
    (rows outs : List R) (l l1 : L) (b b1 : BodyState (ArgumentList R) β)
    (hlhs : Yields E.consume_lhs l rows l1)
    (hbody : Yields E.consume_body
      { b with deepest := ArgumentList_AddRecordList b.deepest (rows.map E.DeepCloneRecord) }
      outs b1)
    (hf1 : rows.length < fuel) (hf2 : outs.length < fuel) (n : Nat) :
    consumeN (CallSubqueryConsumeEager E fuel) (n + 1) (NewCallSubqueryOp true false (some l) b)
      = .ok ((rows.reverse.map some ++ List.replicate (n + 1) none).take (n + 1),
             { NewCallSubqueryOp true false (some l1) b1 with
               first := false, records := some (rows.take (rows.length - (n + 1))) }) := by
  have hd := drain_lhs_of_Yields E rows fuel l l1 [] hlhs hf1
  have hb := drain_body_of_Yields E outs fuel _ b1 hbody hf2
  have h := eager_unit_after E fuel (some l1) b1 (n + 1) rows
  rw [consumeN_succ] at h ⊢
  rw [← h]
  congr 1
  simp only [NewCallSubqueryOp] at hb ⊢
  simp only [CallSubqueryConsumeEager, hd, List.nil_append, hb, if_true]
  simp

end EagerTheorems

/-! ## The synthetic row, reset, and the Argument contract -/

section Contract
variable {R L β : Type}

/-- C5, on the code: a non-eager CallSubquery without a left child creates and
plants the synthetic empty record on every consume that finds `op->r` empty.
A non-returning operation returns the record `0` of `Demo.env` on each of three
consume calls and never depletes; a returning one returns depletion after the
two merged records and then, on the next consume, plants a new synthetic
record and emits again. -/
theorem C5_synthetic_row_is_created_again :
    consumeN (CallSubqueryConsume Demo.env 3) 3 (NewCallSubqueryOp false false none Demo.body0)
      = .ok ([some 0, some 0, some 0], NewCallSubqueryOp false false none Demo.body0) ∧
    consumeN (CallSubqueryConsume Demo.env 3) 4 (NewCallSubqueryOp false true none Demo.body0)
      = .ok ([some 100200, some 100201, none, some 100200],
             { NewCallSubqueryOp false true none
                 { deepest := { r := none }, inner := [201] } with r := some 0 }) := by
  constructor <;> rfl

/-- C6, on the code: `CallSubqueryReset` releases the retained record list and
leaves `first` as it was.  After the first consume of an eager, non-returning
operation over the rows 1, 2, 3 and a reset, `records` is `NULL` and `first`
is still false, and the next consume fails the assertion of `_handoff_eager`
where the claim has it drain the left child again. -/
theorem C6_reset_leaves_first_false :
    (∀ op : OpCallSubquery R L (ArgumentList R) β,
      (CallSubqueryReset op).records = none ∧ (CallSubqueryReset op).first = op.first) ∧
    (∃ op1, CallSubqueryConsumeEager Demo.eager_env 4
          (NewCallSubqueryOp true false (some [1, 2, 3]) Demo.eager_body0) = .ok (some 3, op1) ∧
      op1.first = false ∧ op1.records = some [1, 2] ∧
      (CallSubqueryReset op1).first = false ∧ (CallSubqueryReset op1).records = none ∧
      CallSubqueryConsumeEager Demo.eager_env 4 (CallSubqueryReset op1) = .error .assertion) := by
  constructor
  · intro op
    unfold CallSubqueryReset _freeInternals
    cases h : op.records <;> simp [h]
  · exact ⟨_, rfl, rfl, rfl, rfl, rfl, rfl⟩

/-- C7: once `Argument_AddRecord` has put `r` into an empty Argument, the first
consume returns `r` and empties the slot and every further consume returns
depletion; a consume on an empty Argument returns depletion and leaves it
empty; and after any consume a record can be added again. -/
theorem C7_argument_emits_held_record_once (r : R) (n : Nat) :
    Argument_AddRecord ({ r := none } : Argument R) r = .ok { r := some r } ∧
    ArgumentConsume ({ r := some r } : Argument R) = (some r, { r := none }) ∧
    pullN ArgumentConsume (n + 1) ({ r := some r } : Argument R)
      = (some r :: List.replicate n none, { r := none }) ∧
    pullN ArgumentConsume n ({ r := none } : Argument R) = (List.replicate n none, { r := none }) ∧
    (∀ (arg : Argument R) (r1 : R),
      Argument_AddRecord (ArgumentConsume arg).2 r1 = .ok { r := some r1 }) := by
  have hempty : ∀ n : Nat, pullN ArgumentConsume n ({ r := none } : Argument R)
      = (List.replicate n none, { r := none }) := by
    intro n
    induction n with
    | zero => rfl
    | succ n ih =>
      have h1 : ArgumentConsume ({ r := none } : Argument R) = (none, { r := none }) := rfl
      rw [pullN, h1, ih, List.replicate_succ]
  refine ⟨rfl, rfl, ?_, hempty n, fun _ _ => rfl⟩
  have h1 : ArgumentConsume ({ r := some r } : Argument R) = (some r, { r := none }) := rfl
  rw [pullN, h1, hempty n]

/-- Draining the body never fails an assertion, and leaves the Argument empty
when a depleted body has consumed its Argument. -/
theorem drain_body_contract (E : Env R L (Argument R) β)
    (hbody : ∀ s, (E.consume_body s).1 = none → (E.consume_body s).2.deepest.r = none) :
    ∀ (fuel : Nat) (b : BodyState (Argument R) β),
      drain_body E fuel b ≠ .error .assertion ∧
      ∀ b1, drain_body E fuel b = .ok b1 → b1.deepest.r = none := by
  intro fuel
  induction fuel with
  | zero => intro b; simp [drain_body]
  | succ f ih =>
    intro b
    rcases hc : E.consume_body b with ⟨x, b2⟩
    have hb := hbody b
    rw [hc] at hb
    cases x with
    | none =>
      simp only [drain_body, hc]
      refine ⟨by simp, ?_⟩
      intro b1 h
      simp only [Except.ok.injEq] at h
      subst h
      exact hb rfl
    | some x =>
      simp only [drain_body, hc]
      exact ih b2

/-- `_consume_and_return` on an operation that holds a record never fails an
assertion, and returns an operation whose Argument is empty whenever it holds
no record. -/
theorem consume_and_return_contract (E : Env R L (Argument R) β)
    (hbody : ∀ s, (E.consume_body s).1 = none → (E.consume_body s).2.deepest.r = none) :
    ∀ (fuel : Nat) (op : OpCallSubquery R L (Argument R) β), op.r ≠ none →
      _consume_and_return E fuel op ≠ .error .assertion ∧
      ∀ x op1, _consume_and_return E fuel op = .ok (x, op1) →
        (op1.r = none → op1.body.deepest.r = none) := by
  intro fuel
  induction fuel with
  | zero => intro op _; simp [_consume_and_return]
  | succ f ih =>
    intro op hr
    rcases hc : E.consume_body op.body with ⟨x, b2⟩
    have hb := hbody op.body
    rw [hc] at hb
    cases x with
    | none =>
      have hb2 : b2.deepest.r = none := hb rfl
      cases hl : op.lhs with
      | none =>
        simp only [_consume_and_return, hc, hl]
        refine ⟨by simp, ?_⟩
        intro x op1 h
        simp only [Except.ok.injEq, Prod.mk.injEq] at h
        obtain ⟨_, h2⟩ := h
        subst h2
        intro _
        exact hb2
      | some l =>
        rcases hcl : E.consume_lhs l with ⟨y, l1⟩
        cases y with
        | none =>
          simp only [_consume_and_return, hc, hl, hcl]
          refine ⟨by simp, ?_⟩
          intro x op1 h
          simp only [Except.ok.injEq, Prod.mk.injEq] at h
          obtain ⟨_, h2⟩ := h
          subst h2
          intro _
          exact hb2
        | some y =>
          simp only [_consume_and_return, hc, hl, hcl, Argument_AddRecord, hb2]
          exact ih _ (by simp)
    | some x =>
      cases hor : op.r with
      | none => exact absurd hor hr
      | some r0 =>
        simp only [_consume_and_return, hc, hor]
        refine ⟨by simp, ?_⟩
        intro x op1 h
        simp only [Except.ok.injEq, Prod.mk.injEq] at h
        obtain ⟨_, h2⟩ := h
        subst h2
        intro h3
        simp only [hor] at h3
        exact absurd h3 (by simp)

/-- `_handoff` under the same conditions. -/
theorem handoff_contract (E : Env R L (Argument R) β)
    (hbody : ∀ s, (E.consume_body s).1 = none → (E.consume_body s).2.deepest.r = none)
    (fuel : Nat) (op : OpCallSubquery R L (Argument R) β) (hr : op.r ≠ none) :
    _handoff E fuel op ≠ .error .assertion ∧
    ∀ x op1, _handoff E fuel op = .ok (x, op1) → (op1.r = none → op1.body.deepest.r = none) := by
  cases hor : op.r with
  | none => exact absurd hor hr
  | some r0 =>
    cases hret : op.is_returning with
    | true =>
      simp only [_handoff, hor, hret, if_true]
      exact consume_and_return_contract E hbody fuel op hr
    | false =>
      have hd := drain_body_contract E hbody fuel op.body
      simp only [_handoff, hor, hret, Bool.false_eq_true, if_false]
      rcases hdb : drain_body E fuel op.body with e | b1
      · rw [hdb] at hd
        refine ⟨?_, by simp⟩
        intro h
        simp only [Except.error.injEq] at h
        exact hd.1 (by rw [h])
      · rw [hdb] at hd
        refine ⟨by simp, ?_⟩
        intro x op1 h
        simp only [Except.ok.injEq, Prod.mk.injEq] at h
        obtain ⟨_, h2⟩ := h
        subst h2
        intro _
        exact hd.2 b1 rfl

/-- One consume of a non-eager operation keeps "no held record implies an empty
Argument" and never fails an assertion. -/
theorem CallSubqueryConsume_contract (E : Env R L (Argument R) β)
    (hbody : ∀ s, (E.consume_body s).1 = none → (E.consume_body s).2.deepest.r = none)
    (fuel : Nat) (op : OpCallSubquery R L (Argument R) β)
    (hinv : op.r = none → op.body.deepest.r = none) :
    CallSubqueryConsume E fuel op ≠ .error .assertion ∧
    ∀ x op1, CallSubqueryConsume E fuel op = .ok (x, op1) →
      (op1.r = none → op1.body.deepest.r = none) := by
  cases hor : op.r with
  | some r0 =>
    simp only [CallSubqueryConsume, hor]
    exact handoff_contract E hbody fuel op (by simp [hor])
  | none =>
    have hslot := hinv hor
    cases hl : op.lhs with
    | none =>
      simp only [CallSubqueryConsume, hor, hl, Argument_AddRecord, hslot]
      exact handoff_contract E hbody fuel _ (by simp)
    | some l =>
      rcases hcl : E.consume_lhs l with ⟨y, l1⟩
      cases y with
      | none =>
        simp only [CallSubqueryConsume, hor, hl, hcl]
        refine ⟨by simp, ?_⟩
        intro x op1 h
        simp only [Except.ok.injEq, Prod.mk.injEq] at h
        obtain ⟨_, h2⟩ := h
        subst h2
        intro _
        exact hslot
      | some y =>
        simp only [CallSubqueryConsume, hor, hl, hcl, Argument_AddRecord, hslot]
        exact handoff_contract E hbody fuel _ (by simp)

theorem consumeN_contract (E : Env R L (Argument R) β)
    (hbody : ∀ s, (E.consume_body s).1 = none → (E.consume_body s).2.deepest.r = none)
    (fuel : Nat) :
    ∀ (n : Nat) (op : OpCallSubquery R L (Argument R) β),
      (op.r = none → op.body.deepest.r = none) →
      consumeN (CallSubqueryConsume E fuel) n op ≠ .error .assertion := by
  intro n
  induction n with
  | zero => intro op _; simp [consumeN]
  | succ n ih =>
    intro op hinv
    have hstep := CallSubqueryConsume_contract E hbody fuel op hinv
    rcases hc : CallSubqueryConsume E fuel op with e | ⟨x, op1⟩
    · rw [hc] at hstep
      simp only [consumeN, hc]
      intro h
      simp only [Except.error.injEq] at h
      exact hstep.1 (by rw [h])
    · rw [hc] at hstep
      have hrec := ih op1 (hstep.2 x op1 rfl)
      simp only [consumeN, hc]
      rcases hr : consumeN (CallSubqueryConsume E fuel) n op1 with e | ⟨xs, op2⟩
      · rw [hr] at hrec
        simpa using hrec
      · simp

/-- C8: `Argument_AddRecord` makes `r` the held record exactly when the slot is
empty, and fails the assertion, returning no Argument in which the held record
is replaced, when the slot is populated.  In the non-eager CallSubquery
protocol, with a body that has emptied its Argument whenever it returns
depletion, no run of consume calls from a freshly built operation fails an
assertion. -/
theorem C8_AddRecord_requires_empty_slot (E : Env R L (Argument R) β)
    (hbody : ∀ s, (E.consume_body s).1 = none → (E.consume_body s).2.deepest.r = none) :
    (∀ (arg : Argument R) (r : R),
      (arg.r = none → Argument_AddRecord arg r = .ok { r := some r }) ∧
      (arg.r ≠ none → Argument_AddRecord arg r = .error .assertion) ∧
      ((∃ a, Argument_AddRecord arg r = .ok a) ↔ arg.r = none)) ∧
    (∀ (is_returning : Bool) (lhs : Option L) (b : BodyState (Argument R) β) (fuel n : Nat),
      b.deepest.r = none →
      consumeN (CallSubqueryConsume E fuel) n (NewCallSubqueryOp false is_returning lhs b)
        ≠ .error .assertion) := by
  constructor
  · intro arg r
    cases h : arg.r with
    | none => simp [Argument_AddRecord, h]
    | some r0 => simp [Argument_AddRecord, h]
  · intro is_returning lhs b fuel n hb
    exact consumeN_contract E hbody fuel n _ (fun _ => hb)

end Contract

/-! ## The projection compiler -/

section Projection

theorem resolved_name_set (e : AR_ExpNode) (n : Option String) :
    (e.set_resolved_name n).resolved_name = n := by
  cases e <;> rfl

theorem projection_identifier_of_resolved (p : cypher_ast_projection) (n : String)
    (h : resolved_name_of p = some n) : projection_identifier p = .ok n := by
  unfold resolved_name_of at h
  unfold projection_identifier
  cases ha : p.alias_node with
  | some a => rw [ha] at h; simp only [Option.some.injEq] at h; simp [h]
  | none =>
    rw [ha] at h
    cases he : p.expression with
    | CYPHER_AST_IDENTIFIER name => rw [he] at h; simp only [Option.some.injEq] at h; simp [h]
    | CYPHER_AST_PROPERTY_OPERATOR e pn => rw [he] at h; simp at h
    | CYPHER_AST_APPLY_OPERATOR f args => rw [he] at h; simp at h
    | other txt => rw [he] at h; simp at h

theorem first_occurrences_eq_from_aux :
    ∀ (rest : List cypher_ast_projection) (seen : List (Option String)),
      (List.range rest.length).filterMap (fun i =>
        match rest[i]? with
        | some projection =>
          if resolved_name_of projection ∈ seen ++ (rest.take i).map resolved_name_of then none
          else some projection
        | none => none)
      = first_occurrences_from seen rest := by
  intro rest
  induction rest with
  | nil => intro seen; simp [first_occurrences_from]
  | cons p rest ih =>
    intro seen
    have h := ih (seen ++ [resolved_name_of p])
    rw [List.length_cons, List.range_succ_eq_map, List.filterMap_cons, List.filterMap_map]
    simp only [List.getElem?_cons_zero, List.take_zero, List.map_nil, List.append_nil,
      first_occurrences_from]
    have htail : (List.range rest.length).filterMap ((fun i =>
          match (p :: rest)[i]? with
          | some projection =>
            if resolved_name_of projection ∈ seen ++ ((p :: rest).take i).map resolved_name_of
            then none else some projection
          | none => none) ∘ Nat.succ)
        = first_occurrences_from (seen ++ [resolved_name_of p]) rest := by
      rw [← h]
      apply List.filterMap_congr
      intro i _
      simp only [Function.comp, Nat.succ_eq_add_one, List.getElem?_cons_succ, List.take_succ_cons,
        List.map_cons, List.append_assoc, List.singleton_append]
    rw [htail]
    by_cases hp : resolved_name_of p ∈ seen <;> simp [hp]

theorem first_occurrences_eq_from (items : List cypher_ast_projection) :
    first_occurrences items = first_occurrences_from [] items := by
  have h := first_occurrences_eq_from_aux items []
  simpa [first_occurrences] using h

theorem first_occurrences_from_names :
    ∀ (rest : List cypher_ast_projection) (seen : List (Option String)),
      ((first_occurrences_from seen rest).map resolved_name_of).Nodup ∧
      (∀ n ∈ (first_occurrences_from seen rest).map resolved_name_of, n ∉ seen) ∧
      (∀ p ∈ rest, resolved_name_of p ∈ seen ∨
        resolved_name_of p ∈ (first_occurrences_from seen rest).map resolved_name_of) := by
  intro rest
  induction rest with
  | nil => intro seen; simp [first_occurrences_from]
  | cons p rest ih =>
    intro seen
    obtain ⟨h1, h2, h3⟩ := ih (seen ++ [resolved_name_of p])
    by_cases hp : resolved_name_of p ∈ seen
    · simp only [first_occurrences_from, hp, if_true]
      refine ⟨h1, ?_, ?_⟩
      · intro n hn hs
        exact h2 n hn (List.mem_append_left _ hs)
      · intro q hq
        rcases List.mem_cons.mp hq with rfl | hq
        · exact Or.inl hp
        · rcases h3 q hq with h | h
          · rcases List.mem_append.mp h with h | h
            · exact Or.inl h
            · simp only [List.mem_singleton] at h
              exact Or.inl (h ▸ hp)
          · exact Or.inr h
    · simp only [first_occurrences_from, hp, if_false, List.map_cons, List.nodup_cons,
        List.mem_cons]
      refine ⟨⟨?_, h1⟩, ?_, ?_⟩
      · intro hmem
        exact h2 _ hmem (List.mem_append_right _ (List.mem_singleton_self _))
      · intro n hn hs
        rcases hn with rfl | hn
        · exact hp hs
        · exact h2 n hn (List.mem_append_left _ hs)
      · intro q hq
        rcases hq with rfl | hq
        · exact Or.inr (Or.inl rfl)
        · rcases h3 q hq with h | h
          · rcases List.mem_append.mp h with h | h
            · exact Or.inl h
            · simp only [List.mem_singleton] at h
              exact Or.inr (Or.inl h)
          · exact Or.inr (Or.inr h)

/-- The loop of `_BuildProjectionExpressions` appends the expressions of the
first occurrences, when the rax holds exactly the names seen so far. -/
theorem BuildProjectionExpressions_loop_eq (X : AstEnv) :
    ∀ (rest : List cypher_ast_projection) (seen : List (Option String)) (t : rax)
      (expressions : List AR_ExpNode),
      (∀ p ∈ rest, (resolved_name_of p).isSome = true) →
      (∀ k : String, k ∈ t ↔ some k ∈ seen) →
      _BuildProjectionExpressions_loop X rest t expressions
        = .ok (expressions ++ (first_occurrences_from seen rest).map (projection_expression X)) := by
  intro rest
  induction rest with
  | nil => intro seen t expressions _ _; simp [_BuildProjectionExpressions_loop, first_occurrences_from]
  | cons p rest ih =>
    intro seen t expressions hwf ht
    obtain ⟨n, hn⟩ := Option.isSome_iff_exists.mp (hwf p (List.mem_cons_self _ _))
    have hid := projection_identifier_of_resolved p n hn
    have hrest : ∀ q ∈ rest, (resolved_name_of q).isSome = true :=
      fun q hq => hwf q (List.mem_cons_of_mem _ hq)
    by_cases hk : n ∈ t
    · have hseen : resolved_name_of p ∈ seen := by rw [hn]; exact (ht n).mp hk
      have ht1 : ∀ k : String, k ∈ t ↔ some k ∈ seen ++ [resolved_name_of p] := by
        intro k
        rw [List.mem_append, List.mem_singleton, ht k]
        constructor
        · exact Or.inl
        · rintro (h | h)
          · exact h
          · rw [h]; exact hseen
      simp only [_BuildProjectionExpressions_loop, hid, raxTryInsert, hk, if_true,
        first_occurrences_from, hseen]
      exact ih _ t expressions hrest ht1
    · have hseen : resolved_name_of p ∉ seen := by rw [hn]; exact fun h => hk ((ht n).mpr h)
      have ht1 : ∀ k : String, k ∈ t ++ [n] ↔ some k ∈ seen ++ [resolved_name_of p] := by
        intro k
        rw [List.mem_append, List.mem_append, List.mem_singleton, List.mem_singleton, ht k, hn,
          Option.some.injEq]
      simp only [_BuildProjectionExpressions_loop, hid, raxTryInsert, hk, if_false,
        first_occurrences_from, hseen, List.map_cons]
      rw [ih _ (t ++ [n]) _ hrest ht1]
      simp [projection_expression, hn]

/-- C10: for a WITH or RETURN clause without include-existing whose items each
have an alias or are a bare identifier, `_BuildProjectionExpressions` returns,
in clause order, the expression of exactly those items whose resolved name
(the alias if present, else the identifier's name) occurs at no earlier item,
each under its resolved name.  The resolved names of the returned expressions
are pairwise distinct, and every item's name is the name of a kept item, which
is the first item of that name. -/
theorem C10_projection_names_deduplicated (X : AstEnv) (clause : Clause)
    (hinc : clause.has_include_existing = false)
    (hwf : ∀ p ∈ clause.projections, (resolved_name_of p).isSome = true) :
    _BuildProjectionExpressions X clause
      = .ok (some ((first_occurrences clause.projections).map (projection_expression X))) ∧
    (((first_occurrences clause.projections).map (projection_expression X)).map
      AR_ExpNode.resolved_name).Nodup ∧
    (∀ p ∈ clause.projections, ∃ q ∈ first_occurrences clause.projections,
      resolved_name_of q = resolved_name_of p) := by
  have hloop := BuildProjectionExpressions_loop_eq X clause.projections [] raxNew [] hwf
    (by intro k; simp [raxNew])
  have hnames := first_occurrences_from_names clause.projections []
  rw [first_occurrences_eq_from]
  refine ⟨?_, ?_, ?_⟩
  · unfold _BuildProjectionExpressions
    cases clause.type <;> simp [hinc, hloop]
  · have hmap : ((first_occurrences_from [] clause.projections).map (projection_expression X)).map
        AR_ExpNode.resolved_name
        = (first_occurrences_from [] clause.projections).map resolved_name_of := by
      rw [List.map_map]
      apply List.map_congr_left
      intro p _
      simp [projection_expression, resolved_name_set]
    rw [hmap]
    exact hnames.1
  · intro p hp
    rcases hnames.2.2 p hp with h | h
    · simp at h
    · obtain ⟨q, hq, hqn⟩ := List.mem_map.mp h
      exact ⟨q, hq, hqn⟩

theorem stack_ops_append (root : Option OpBase) (ops1 ops2 : List Op) :
    stack_ops root (ops1 ++ ops2) = stack_ops (stack_ops root ops1) ops2 := by
  simp [stack_ops, List.foldl_append]

theorem UpdateRoot_root (plan : ExecutionPlan) (op : Op) :
    (ExecutionPlan_UpdateRoot plan op).root = stack_ops plan.root [op] := by
  simp [ExecutionPlan_UpdateRoot, stack_ops]

theorem combine_validate_root (X : AstEnv) (project_exps : List AR_ExpNode) (names : rax) :
    ∀ (order_exps : List AR_ExpNode) (plan plan1 : ExecutionPlan),
      _combine_validate X project_exps names order_exps plan = .ok plan1 →
      plan1.root = plan.root := by
  intro order_exps
  induction order_exps with
  | nil => intro plan plan1 h; simp only [_combine_validate, Except.ok.injEq] at h; rw [← h]
  | cons e rest ih =>
    intro plan plan1 h
    simp only [_combine_validate] at h
    rcases hf : _combine_found X e project_exps with err | found
    · rw [hf] at h; simp at h
    · rw [hf] at h
      cases found with
      | true => simp only at h; exact ih plan plan1 h
      | false =>
        simp only at h
        rcases hv : _validateOrderExpression names e with err | v
        · rw [hv] at h; simp at h
        · rw [hv] at h
          cases v with
          | true => simp only at h; exact ih plan plan1 h
          | false =>
            simp only at h
            have hr := ih _ plan1 h
            simpa [ErrorCtx_SetError] using hr

theorem combine_projection_arrays_root (X : AstEnv) (project_exps order_exps : List AR_ExpNode)
    (aggregate : Bool) (names : rax) (plan plan1 : ExecutionPlan) (merged : List AR_ExpNode)
    (h : _combine_projection_arrays X project_exps order_exps aggregate names plan
      = .ok (merged, plan1)) :
    plan1.root = plan.root := by
  unfold _combine_projection_arrays at h
  rcases hn : _combine_add_names project_exps names with err | t
  · rw [hn] at h; simp at h
  · rw [hn] at h
    simp only at h
    cases aggregate with
    | false =>
      simp only [Bool.false_eq_true, if_false] at h
      rcases hm : _combine_merge X order_exps t project_exps with err | m
      · rw [hm] at h; simp at h
      · rw [hm] at h
        simp only [Except.ok.injEq, Prod.mk.injEq] at h
        rw [← h.2]
    | true =>
      simp only [if_true] at h
      rcases hv : _combine_validate X project_exps t order_exps plan with err | p
      · rw [hv] at h; simp at h
      · rw [hv] at h
        simp only at h
        rcases hm : _combine_merge X order_exps t project_exps with err | m
        · rw [hm] at h; simp at h
        · rw [hm] at h
          simp only [Except.ok.injEq, Prod.mk.injEq] at h
          rw [← h.2]
          exact combine_validate_root X project_exps t order_exps plan p hv

/-- The operations `_buildProjectionOps` puts on the plan. -/
theorem buildProjectionOps_wiring (X : AstEnv) (plan plan1 : ExecutionPlan) (clause : Clause)
    (h : _buildProjectionOps X plan clause = .ok plan1) :
    ∃ ops, plan1.root = stack_ops plan.root ops ∧
      ops.map Op.type = wiring_order (X.AST_ClauseContainsAggregation clause) clause false := by
  unfold _buildProjectionOps at h
  rcases hp : _BuildProjectionExpressions X clause with err | projections
  · rw [hp] at h; simp at h
  · rw [hp] at h
    simp only at h
    split at h
    · simp at h
    · rename_i projections1 p1 hcomb
      have hroot : p1.root = plan.root := by
        cases ho : clause.order_by with
        | none =>
          rw [ho] at hcomb
          simp only [Except.ok.injEq, Prod.mk.injEq] at hcomb
          rw [← hcomb.2]
        | some oc =>
          rw [ho] at hcomb
          simp only at hcomb
          split at hcomb
          · simp at hcomb
          · rename_i m p hc
            simp only [Except.ok.injEq, Prod.mk.injEq] at hcomb
            rw [← hcomb.2]
            exact combine_projection_arrays_root X _ _ _ _ plan p m hc
      simp only [Except.ok.injEq] at h
      subst h
      refine ⟨[if X.AST_ClauseContainsAggregation clause = true then Op.Aggregate projections1
                else Op.Project projections1]
              ++ (if clause.is_distinct = true then
                    [Op.Distinct ((projections.getD []).map AR_ExpNode.resolved_name)] else [])
              ++ (match clause.order_by with
                  | some oc => [Op.Sort (_BuildOrderExpressions X oc) (AST_PrepareSortOp oc)]
                  | none => [])
              ++ (match clause.skip with | some s => [Op.Skip s] | none => [])
              ++ (match clause.limit with | some s => [Op.Limit s] | none => []), ?_, ?_⟩
      · rw [← hroot]
        clear hcomb hp hroot
        generalize clause.is_distinct = d
        generalize clause.order_by = o
        generalize clause.skip = s
        generalize clause.limit = k
        cases d <;> cases o <;> cases s <;> cases k <;>
          simp [stack_ops, ExecutionPlan_UpdateRoot]
      · clear hcomb hp hroot
        unfold wiring_order
        generalize X.AST_ClauseContainsAggregation clause = a
        generalize clause.is_distinct = d
        generalize clause.order_by = o
        generalize clause.skip = s
        generalize clause.limit = k
        cases a <;> cases d <;> cases o <;> cases s <;> cases k <;> simp [Op.type]

theorem first_occurrences_from_mem :
    ∀ (rest : List cypher_ast_projection) (seen : List (Option String)),
      ∀ p ∈ first_occurrences_from seen rest, p ∈ rest := by
  intro rest
  induction rest with
  | nil => intro seen p hp; simp [first_occurrences_from] at hp
  | cons q rest ih =>
    intro seen p hp
    by_cases hq : resolved_name_of q ∈ seen
    · simp only [first_occurrences_from, hq, if_true] at hp
      exact List.mem_cons_of_mem _ (ih _ p hp)
    · simp only [first_occurrences_from, hq, if_false, List.mem_cons] at hp
      rcases hp with rfl | hp
      · exact List.mem_cons_self _ _
      · exact List.mem_cons_of_mem _ (ih _ p hp)

/-- On a well-formed clause `_BuildProjectionExpressions` returns, and every
expression it returns has a resolved name. -/
theorem BuildProjectionExpressions_ok (X : AstEnv) (clause : Clause) (hwf : clause.well_formed) :
    ∃ ps, _BuildProjectionExpressions X clause = .ok ps ∧
      ∀ e ∈ ps.getD [], e.resolved_name.isSome = true := by
  obtain ⟨hitems, hwith⟩ := hwf
  have hloop := BuildProjectionExpressions_loop_eq X clause.projections [] raxNew [] hitems
    (by intro k; simp [raxNew])
  have hnamed : ∀ e ∈ (first_occurrences_from [] clause.projections).map (projection_expression X),
      e.resolved_name.isSome = true := by
    intro e he
    obtain ⟨p, hp, rfl⟩ := List.mem_map.mp he
    rw [projection_expression, resolved_name_set]
    exact hitems p (first_occurrences_from_mem _ _ p hp)
  cases hinc : clause.has_include_existing with
  | false =>
    refine ⟨some ((first_occurrences_from [] clause.projections).map (projection_expression X)),
      ?_, by simpa using hnamed⟩
    unfold _BuildProjectionExpressions
    cases clause.type <;> simp [hinc, hloop]
  | true =>
    cases hty : clause.type with
    | CYPHER_AST_WITH => rw [hwith hty] at hinc; simp at hinc
    | CYPHER_AST_RETURN =>
      exact ⟨none, by simp [_BuildProjectionExpressions, hty, hinc], by simp⟩

theorem combine_add_names_ok :
    ∀ (ps : List AR_ExpNode) (names : rax), (∀ e ∈ ps, e.resolved_name.isSome = true) →
      ∃ t, _combine_add_names ps names = .ok t := by
  intro ps
  induction ps with
  | nil => intro names _; exact ⟨names, rfl⟩
  | cons e rest ih =>
    intro names h
    obtain ⟨n, hn⟩ := Option.isSome_iff_exists.mp (h e (List.mem_cons_self _ _))
    obtain ⟨t, ht⟩ := ih (raxTryInsert names n).2 (fun q hq => h q (List.mem_cons_of_mem _ hq))
    exact ⟨t, by simp only [_combine_add_names, hn, ht]⟩

theorem combine_found_ok (X : AstEnv) (e : AR_ExpNode) (ps : List AR_ExpNode)
    (h : e.resolved_name.isSome = true) : ∃ b, _combine_found X e ps = .ok b := by
  obtain ⟨n, hn⟩ := Option.isSome_iff_exists.mp h
  cases ps with
  | nil => exact ⟨false, rfl⟩
  | cons p rest =>
    refine ⟨(p :: rest).any (fun project_exp =>
      project_exp.resolved_name == some n || X.AR_EXP_Equal e project_exp), ?_⟩
    simp only [_combine_found, hn]

theorem combine_validate_ok (X : AstEnv) (ps : List AR_ExpNode) (names : rax) :
    ∀ (os : List AR_ExpNode), (∀ e ∈ os, e.resolved_name.isSome = true) →
      (∀ e ∈ os, ∃ v, _validateOrderExpression names e = .ok v) →
      ∀ plan, ∃ p, _combine_validate X ps names os plan = .ok p := by
  intro os
  induction os with
  | nil => intro _ _ plan; exact ⟨plan, rfl⟩
  | cons e rest ih =>
    intro hn hv plan
    obtain ⟨b, hb⟩ := combine_found_ok X e ps (hn e (List.mem_cons_self _ _))
    obtain ⟨v, hve⟩ := hv e (List.mem_cons_self _ _)
    have hrec := ih (fun q hq => hn q (List.mem_cons_of_mem _ hq))
      (fun q hq => hv q (List.mem_cons_of_mem _ hq))
    simp only [_combine_validate, hb]
    cases b with
    | true => exact hrec plan
    | false =>
      simp only [hve]
      cases v with
      | true => exact hrec plan
      | false => exact hrec _

theorem combine_merge_ok (X : AstEnv) :
    ∀ (os : List AR_ExpNode) (t : rax) (ps : List AR_ExpNode),
      (∀ e ∈ os, e.resolved_name.isSome = true) → ∃ m, _combine_merge X os t ps = .ok m := by
  intro os
  induction os with
  | nil => intro t ps _; exact ⟨ps, rfl⟩
  | cons e rest ih =>
    intro t ps h
    obtain ⟨n, hn⟩ := Option.isSome_iff_exists.mp (h e (List.mem_cons_self _ _))
    have hrest : ∀ q ∈ rest, q.resolved_name.isSome = true :=
      fun q hq => h q (List.mem_cons_of_mem _ hq)
    simp only [_combine_merge, hn]
    rcases hins : raxTryInsert t n with ⟨b, t1⟩
    cases b with
    | true => exact ih t1 _ hrest
    | false => exact ih t1 _ hrest

theorem combine_projection_arrays_ok (X : AstEnv) (ps os : List AR_ExpNode) (aggregate : Bool)
    (names : rax) (plan : ExecutionPlan)
    (hps : ∀ e ∈ ps, e.resolved_name.isSome = true)
    (hos : ∀ e ∈ os, e.resolved_name.isSome = true)
    (hv : ∀ (t : rax), ∀ e ∈ os, ∃ v, _validateOrderExpression t e = .ok v) :
    ∃ res, _combine_projection_arrays X ps os aggregate names plan = .ok res := by
  obtain ⟨t, ht⟩ := combine_add_names_ok ps names hps
  obtain ⟨p, hp⟩ := combine_validate_ok X ps t os hos (hv t) plan
  obtain ⟨m, hm⟩ := combine_merge_ok X os t ps hos
  cases aggregate with
  | true => exact ⟨(m, p), by simp [_combine_projection_arrays, ht, hp, hm]⟩
  | false => exact ⟨(m, plan), by simp [_combine_projection_arrays, ht, hm]⟩

theorem BuildOrderExpressions_named (X : AstEnv) (oc : List cypher_ast_sort_item) :
    ∀ e ∈ _BuildOrderExpressions X oc, e.resolved_name.isSome = true := by
  intro e he
  obtain ⟨item, _, rfl⟩ := List.mem_map.mp he
  rw [resolved_name_set]
  rfl

/-- On a well-formed clause whose ORDER BY expressions validate without reading
a `NULL` name, `_buildProjectionOps` returns a plan. -/
theorem buildProjectionOps_ok (X : AstEnv) (plan : ExecutionPlan) (clause : Clause)
    (hwf : clause.well_formed) (hval : clause.order_validates X) :
    ∃ plan1, _buildProjectionOps X plan clause = .ok plan1 := by
  obtain ⟨ps, hps, hnamed⟩ := BuildProjectionExpressions_ok X clause hwf
  unfold _buildProjectionOps
  simp only [hps]
  cases ho : clause.order_by with
  | none => exact ⟨_, rfl⟩
  | some oc =>
    obtain ⟨res, hres⟩ := combine_projection_arrays_ok X (ps.getD []) (_BuildOrderExpressions X oc)
      (X.AST_ClauseContainsAggregation clause)
      (if X.AST_ClauseContainsAggregation clause = true then
        _add_WITH_LHS_projections clause raxNew else raxNew) plan hnamed
      (BuildOrderExpressions_named X oc) (fun t e he => hval oc ho t e he)
    simp only [hres]
    exact ⟨_, rfl⟩

/-- C9: the operations `buildReturnOps` (for RETURN) and `buildWithOps`, that is
`_buildProjectionOps` (for WITH), put on the plan are stacked on the root the
plan had, each one the parent and only consumer of the one before, and their
types from the bottom up are: Aggregate if the clause contains an aggregation
and Project otherwise, Distinct iff DISTINCT is present, Sort iff ORDER BY is
present, Skip iff SKIP is present, Limit iff LIMIT is present, and Results
iff the clause is built as a RETURN.  On a well-formed clause whose ORDER BY
expressions validate, both builders return such a plan. -/
theorem C9_fixed_wiring_order (X : AstEnv) (plan : ExecutionPlan) (clause : Clause) :
    (∀ plan1, buildReturnOps X plan clause = .ok plan1 →
      ∃ ops, plan1.root = stack_ops plan.root ops ∧
        ops.map Op.type = wiring_order (X.AST_ClauseContainsAggregation clause) clause true) ∧
    (∀ plan1, buildWithOps X plan clause = .ok plan1 →
      ∃ ops, plan1.root = stack_ops plan.root ops ∧
        ops.map Op.type = wiring_order (X.AST_ClauseContainsAggregation clause) clause false) ∧
    (clause.well_formed → clause.order_validates X →
      (∃ plan1, buildReturnOps X plan clause = .ok plan1) ∧
      (∃ plan1, buildWithOps X plan clause = .ok plan1)) := by
  refine ⟨?_, ?_, ?_⟩
  · intro plan1 h
    unfold buildReturnOps at h
    rcases hb : _buildProjectionOps X plan clause with err | p
    · rw [hb] at h; simp at h
    · rw [hb] at h
      simp only [Except.ok.injEq] at h
      obtain ⟨ops, hroot, htypes⟩ := buildProjectionOps_wiring X plan p clause hb
      refine ⟨ops ++ [Op.Results], ?_, ?_⟩
      · rw [← h, UpdateRoot_root, hroot, stack_ops_append]
      · rw [List.map_append, htypes]
        simp [wiring_order, Op.type]
  · intro plan1 h
    exact buildProjectionOps_wiring X plan plan1 clause h
  · intro hwf hval
    obtain ⟨p, hp⟩ := buildProjectionOps_ok X plan clause hwf hval
    exact ⟨⟨ExecutionPlan_UpdateRoot p Op.Results, by simp only [buildReturnOps, hp]⟩, ⟨p, hp⟩⟩

end Projection

/-! ## ORDER BY and DISTINCT in the projection compiler -/

section ProjectionOrder

/-- What `_buildProjectionOps` returns, spelled out: the projections `ps` built
from the items, the list `ps1` handed to the Aggregate or Project operation
(`ps` merged with the order expressions when there is an ORDER BY), and the
operations stacked on the root. -/
theorem buildProjectionOps_ops (X : AstEnv) (plan plan1 : ExecutionPlan) (clause : Clause)
    (h : _buildProjectionOps X plan clause = .ok plan1) :
    ∃ ps ps1 p1, _BuildProjectionExpressions X clause = .ok ps ∧
      ((clause.order_by = none ∧ ps1 = ps ∧ p1 = plan) ∨
        (∃ oc merged, clause.order_by = some oc ∧
          _combine_projection_arrays X (ps.getD []) (_BuildOrderExpressions X oc)
            (X.AST_ClauseContainsAggregation clause) (initial_projection_names X clause) plan
            = .ok (merged, p1) ∧ ps1 = some merged)) ∧
      plan1.error = p1.error ∧
      plan1.root = stack_ops plan.root
        ((if X.AST_ClauseContainsAggregation clause = true then Op.Aggregate ps1
          else Op.Project ps1) :: projection_modifiers X clause ps) := by
  unfold _buildProjectionOps at h
  rcases hp : _BuildProjectionExpressions X clause with err | ps
  · rw [hp] at h; simp at h
  · rw [hp] at h
    simp only at h
    split at h
    · simp at h
    · rename_i ps1 p1 hcomb
      have hshape : (clause.order_by = none ∧ ps1 = ps ∧ p1 = plan) ∨
          (∃ oc merged, clause.order_by = some oc ∧
            _combine_projection_arrays X (ps.getD []) (_BuildOrderExpressions X oc)
              (X.AST_ClauseContainsAggregation clause) (initial_projection_names X clause) plan
              = .ok (merged, p1) ∧ ps1 = some merged) := by
        cases ho : clause.order_by with
        | none =>
          rw [ho] at hcomb
          simp only [Except.ok.injEq, Prod.mk.injEq] at hcomb
          exact Or.inl ⟨rfl, hcomb.1.symm, hcomb.2.symm⟩
        | some oc =>
          rw [ho] at hcomb
          simp only at hcomb
          split at hcomb
          · simp at hcomb
          · rename_i m p hc
            simp only [Except.ok.injEq, Prod.mk.injEq] at hcomb
            refine Or.inr ⟨oc, m, rfl, ?_, hcomb.1.symm⟩
            rw [← hcomb.2]
            exact hc
      have hroot : p1.root = plan.root := by
        rcases hshape with ⟨_, _, h3⟩ | ⟨oc, m, _, hc, _⟩
        · rw [h3]
        · exact combine_projection_arrays_root X _ _ _ _ plan p1 m hc
      simp only [Except.ok.injEq] at h
      subst h
      refine ⟨ps, ps1, p1, rfl, hshape, ?_, ?_⟩
      · clear hcomb hp hroot hshape
        generalize clause.is_distinct = d
        generalize clause.order_by = o
        generalize clause.skip = s
        generalize clause.limit = k
        cases d <;> cases o <;> cases s <;> cases k <;> simp [ExecutionPlan_UpdateRoot]
      · rw [← hroot]
        clear hcomb hp hroot hshape
        unfold projection_modifiers
        generalize clause.is_distinct = d
        generalize clause.order_by = o
        generalize clause.skip = s
        generalize clause.limit = k
        cases d <;> cases o <;> cases s <;> cases k <;>
          simp [stack_ops, ExecutionPlan_UpdateRoot]

end ProjectionOrder

section DistinctTargets

theorem BuildProjectionExpressions_loop_names (X : AstEnv) :
    ∀ (rest : List cypher_ast_projection) (t : rax) (acc exps : List AR_ExpNode),
      _BuildProjectionExpressions_loop X rest t acc = .ok exps →
      ∀ e ∈ exps, e ∈ acc ∨ ∃ p ∈ rest, e.resolved_name = resolved_name_of p := by
  intro rest
  induction rest with
  | nil =>
    intro t acc exps h e he
    simp only [_BuildProjectionExpressions_loop, Except.ok.injEq] at h
    subst h
    exact Or.inl he
  | cons p rest ih =>
    intro t acc exps h e he
    simp only [_BuildProjectionExpressions_loop] at h
    rcases hid : projection_identifier p with err | identifier
    · rw [hid] at h; simp at h
    · rw [hid] at h
      simp only at h
      have hname : resolved_name_of p = some identifier := by
        unfold projection_identifier at hid
        unfold resolved_name_of
        cases ha : p.alias_node with
        | some a => rw [ha] at hid; simp only [Except.ok.injEq] at hid; rw [hid]
        | none =>
          rw [ha] at hid
          cases hex : p.expression with
          | CYPHER_AST_IDENTIFIER name =>
            rw [hex] at hid; simp only [Except.ok.injEq] at hid; rw [hid]
          | CYPHER_AST_PROPERTY_OPERATOR e1 pn => rw [hex] at hid; simp at hid
          | CYPHER_AST_APPLY_OPERATOR f args => rw [hex] at hid; simp at hid
          | other txt => rw [hex] at hid; simp at hid
      rcases hins : raxTryInsert t identifier with ⟨b, t1⟩
      rw [hins] at h
      cases b with
      | true =>
        simp only at h
        rcases ih t1 _ exps h e he with hacc | ⟨q, hq, hqe⟩
        · rcases List.mem_append.mp hacc with h1 | h1
          · exact Or.inl h1
          · simp only [List.mem_singleton] at h1
            refine Or.inr ⟨p, List.mem_cons_self _ _, ?_⟩
            rw [h1, resolved_name_set, hname]
        · exact Or.inr ⟨q, List.mem_cons_of_mem _ hq, hqe⟩
      | false =>
        simp only at h
        rcases ih t1 _ exps h e he with hacc | ⟨q, hq, hqe⟩
        · exact Or.inl hacc
        · exact Or.inr ⟨q, List.mem_cons_of_mem _ hq, hqe⟩

/-- Every expression `_BuildProjectionExpressions` returns carries the resolved
name of one of the projection items of the clause. -/
theorem BuildProjectionExpressions_names (X : AstEnv) (clause : Clause)
    (ps : Option (List AR_ExpNode)) (h : _BuildProjectionExpressions X clause = .ok ps) :
    ∀ a ∈ (ps.getD []).map AR_ExpNode.resolved_name,
      ∃ p ∈ clause.projections, a = resolved_name_of p := by
  intro a ha
  obtain ⟨e, he, rfl⟩ := List.mem_map.mp ha
  have key : ∀ exps, _BuildProjectionExpressions_loop X clause.projections raxNew [] = .ok exps →
      ps = some exps → ∃ p ∈ clause.projections, e.resolved_name = resolved_name_of p := by
    intro exps hl hps
    rw [hps] at he
    rcases BuildProjectionExpressions_loop_names X _ _ _ _ hl e he with h1 | h1
    · simp at h1
    · exact h1
  unfold _BuildProjectionExpressions at h
  cases hty : clause.type <;> rw [hty] at h <;> simp only at h <;>
    cases hinc : clause.has_include_existing <;> rw [hinc] at h <;>
    simp only [Bool.false_eq_true, if_false, if_true] at h
  · rcases hl : _BuildProjectionExpressions_loop X clause.projections raxNew [] with err | exps
    · rw [hl] at h; simp at h
    · rw [hl] at h
      simp only [Except.ok.injEq] at h
      exact key exps hl h.symm
  · simp only [Except.ok.injEq] at h
    rw [← h] at he
    simp at he
  · rcases hl : _BuildProjectionExpressions_loop X clause.projections raxNew [] with err | exps
    · rw [hl] at h; simp at h
    · rw [hl] at h
      simp only [Except.ok.injEq] at h
      exact key exps hl h.symm
  · simp at h

/-- C11: when DISTINCT is requested, the Distinct operation `_buildProjectionOps`
puts directly above the Aggregate or Project operation gets as its alias list
the resolved names, in order, of the projection expressions
`_BuildProjectionExpressions` builds from the projection items of the clause;
each of them is the resolved name of a projection item, the list does not
depend on the ORDER BY of the clause, and no other Distinct operation is
added.  On a well-formed clause whose ORDER BY validates, the builder returns
such a plan. -/
theorem C11_distinct_targets_precede_order_by (X : AstEnv) (plan : ExecutionPlan)
    (clause : Clause) :
    (∀ plan1, _buildProjectionOps X plan clause = .ok plan1 → clause.is_distinct = true →
      ∃ ps base above, _BuildProjectionExpressions X clause = .ok ps ∧
        plan1.root = stack_ops plan.root
          (base :: Op.Distinct ((ps.getD []).map AR_ExpNode.resolved_name) :: above) ∧
        (base.type = .OPType_AGGREGATE ∨ base.type = .OPType_PROJECT) ∧
        (∀ op ∈ above, op.type ≠ .OPType_DISTINCT) ∧
        (∀ a ∈ (ps.getD []).map AR_ExpNode.resolved_name,
          ∃ p ∈ clause.projections, a = resolved_name_of p)) ∧
    (∀ order_by, _BuildProjectionExpressions X { clause with order_by := order_by }
      = _BuildProjectionExpressions X clause) ∧
    (clause.well_formed → clause.order_validates X →
      ∃ plan1, _buildProjectionOps X plan clause = .ok plan1) := by
  refine ⟨?_, fun _ => rfl, buildProjectionOps_ok X plan clause⟩
  intro plan1 h hd
  obtain ⟨ps, ps1, p1, hps, _, _, hroot⟩ := buildProjectionOps_ops X plan plan1 clause h
  refine ⟨ps, (if X.AST_ClauseContainsAggregation clause = true then Op.Aggregate ps1
      else Op.Project ps1), (match clause.order_by with
        | some oc => [Op.Sort (_BuildOrderExpressions X oc) (AST_PrepareSortOp oc)]
        | none => [])
      ++ (match clause.skip with | some s => [Op.Skip s] | none => [])
      ++ (match clause.limit with | some s => [Op.Limit s] | none => []), hps, ?_, ?_, ?_,
    BuildProjectionExpressions_names X clause ps hps⟩
  · rw [hroot]
    simp [projection_modifiers, hd]
  · cases X.AST_ClauseContainsAggregation clause <;> simp [Op.type]
  · intro op hop
    generalize clause.order_by = o at hop
    generalize clause.skip = s at hop
    generalize clause.limit = k at hop
    cases o <;> cases s <;> cases k <;> simp at hop <;>
      (try rcases hop with rfl | rfl | rfl) <;> simp [Op.type]

end DistinctTargets

section MergeOrder

theorem raxTryInsert_mem (t : rax) (n k : String) :
    k ∈ (raxTryInsert t n).2 ↔ k ∈ t ∨ k = n := by
  unfold raxTryInsert
  by_cases h : n ∈ t
  · simp only [h, if_true]
    constructor
    · exact Or.inl
    · rintro (h1 | h1)
      · exact h1
      · rw [h1]; exact h
  · simp [h]

theorem combine_add_names_mem :
    ∀ (ps : List AR_ExpNode) (names t : rax), _combine_add_names ps names = .ok t →
      ∀ k, k ∈ t ↔ k ∈ names ∨ k ∈ projected_names ps := by
  intro ps
  induction ps with
  | nil =>
    intro names t h k
    simp only [_combine_add_names, Except.ok.injEq] at h
    simp [h, projected_names]
  | cons e rest ih =>
    intro names t h k
    simp only [_combine_add_names] at h
    cases hn : e.resolved_name with
    | none => rw [hn] at h; simp at h
    | some n =>
      rw [hn] at h
      simp only at h
      rw [ih _ t h k, raxTryInsert_mem]
      simp only [projected_names, List.filterMap_cons, hn, List.mem_cons]
      constructor
      · rintro ((h1 | h1) | h1)
        · exact Or.inl h1
        · exact Or.inr (Or.inl h1)
        · exact Or.inr (Or.inr h1)
      · rintro (h1 | h1 | h1)
        · exact Or.inl (Or.inl h1)
        · exact Or.inl (Or.inr h1)
        · exact Or.inr h1

theorem new_sort_expressions_congr :
    ∀ (os : List AR_ExpNode) (s1 s2 : List String), (∀ k, k ∈ s1 ↔ k ∈ s2) →
      new_sort_expressions s1 os = new_sort_expressions s2 os := by
  intro os
  induction os with
  | nil => intro s1 s2 _; rfl
  | cons e rest ih =>
    intro s1 s2 h
    cases hn : e.resolved_name with
    | none => simp only [new_sort_expressions, hn]; exact ih s1 s2 h
    | some n =>
      simp only [new_sort_expressions, hn]
      by_cases hk : n ∈ s1
      · have hk2 : n ∈ s2 := (h n).mp hk
        simp only [hk, hk2, if_true]
        exact ih s1 s2 h
      · have hk2 : n ∉ s2 := fun h2 => hk ((h n).mpr h2)
        simp only [hk, hk2, if_false]
        rw [ih (s1 ++ [n]) (s2 ++ [n])]
        intro k
        simp only [List.mem_append, h k]

/-- The merge loop appends a clone of exactly the order expressions whose name
is new to the rax. -/
theorem combine_merge_eq (X : AstEnv) :
    ∀ (os : List AR_ExpNode) (t : rax) (ps merged : List AR_ExpNode),
      _combine_merge X os t ps = .ok merged →
      merged = ps ++ (new_sort_expressions t os).map X.AR_EXP_Clone := by
  intro os
  induction os with
  | nil =>
    intro t ps merged h
    simp only [_combine_merge, Except.ok.injEq] at h
    simp [new_sort_expressions, h]
  | cons e rest ih =>
    intro t ps merged h
    simp only [_combine_merge] at h
    cases hn : e.resolved_name with
    | none => rw [hn] at h; simp at h
    | some n =>
      rw [hn] at h
      simp only at h
      by_cases hk : n ∈ t
      · simp only [raxTryInsert, hk, if_true] at h
        simp only [new_sort_expressions, hn, hk, if_true]
        exact ih t ps merged h
      · simp only [raxTryInsert, hk, if_false] at h
        simp only [new_sort_expressions, hn, hk, if_false, List.map_cons]
        rw [ih (t ++ [n]) _ merged h]
        simp

/-- What `_combine_projection_arrays` returns: the projections followed by a
clone of every order expression whose name is new. -/
theorem combine_projection_arrays_eq (X : AstEnv) (ps os : List AR_ExpNode) (aggregate : Bool)
    (names : rax) (plan plan1 : ExecutionPlan) (merged : List AR_ExpNode)
    (h : _combine_projection_arrays X ps os aggregate names plan = .ok (merged, plan1)) :
    merged = ps ++ (new_sort_expressions (names ++ projected_names ps) os).map X.AR_EXP_Clone := by
  unfold _combine_projection_arrays at h
  rcases hn : _combine_add_names ps names with err | t
  · rw [hn] at h; simp at h
  · rw [hn] at h
    simp only at h
    have hmem := combine_add_names_mem ps names t hn
    have hcongr : new_sort_expressions t os
        = new_sort_expressions (names ++ projected_names ps) os :=
      new_sort_expressions_congr os _ _ (fun k => by rw [hmem k, List.mem_append])
    split at h
    · simp at h
    · rcases hm : _combine_merge X os t ps with err | m
      · rw [hm] at h; simp at h
      · rw [hm] at h
        simp only [Except.ok.injEq, Prod.mk.injEq] at h
        rw [← h.1, ← hcongr]
        exact combine_merge_eq X os t ps m hm

theorem new_sort_expressions_facts :
    ∀ (os : List AR_ExpNode) (seen : List String),
      (new_sort_expressions seen os).Sublist os ∧
      (∀ e ∈ new_sort_expressions seen os, ∃ n, e.resolved_name = some n ∧ n ∉ seen) ∧
      (projected_names (new_sort_expressions seen os)).Nodup ∧
      (∀ e ∈ os, ∀ n, e.resolved_name = some n →
        n ∈ seen ∨ n ∈ projected_names (new_sort_expressions seen os)) := by
  intro os
  induction os with
  | nil => intro seen; simp [new_sort_expressions, projected_names]
  | cons e rest ih =>
    intro seen
    cases hn : e.resolved_name with
    | none =>
      obtain ⟨h1, h2, h3, h4⟩ := ih seen
      simp only [new_sort_expressions, hn]
      refine ⟨h1.cons _, h2, h3, ?_⟩
      intro q hq n hqn
      rcases List.mem_cons.mp hq with rfl | hq
      · rw [hn] at hqn; simp at hqn
      · exact h4 q hq n hqn
    | some n =>
      by_cases hk : n ∈ seen
      · obtain ⟨h1, h2, h3, h4⟩ := ih seen
        simp only [new_sort_expressions, hn, hk, if_true]
        refine ⟨h1.cons _, h2, h3, ?_⟩
        intro q hq m hqm
        rcases List.mem_cons.mp hq with rfl | hq
        · rw [hn] at hqm
          simp only [Option.some.injEq] at hqm
          exact Or.inl (hqm ▸ hk)
        · exact h4 q hq m hqm
      · obtain ⟨h1, h2, h3, h4⟩ := ih (seen ++ [n])
        simp only [new_sort_expressions, hn, hk, if_false]
        refine ⟨h1.cons₂ _, ?_, ?_, ?_⟩
        · intro q hq
          rcases List.mem_cons.mp hq with rfl | hq
          · exact ⟨n, hn, hk⟩
          · obtain ⟨m, hm, hms⟩ := h2 q hq
            exact ⟨m, hm, fun hc => hms (List.mem_append_left _ hc)⟩
        · simp only [projected_names, List.filterMap_cons, hn, List.nodup_cons]
          refine ⟨?_, h3⟩
          intro hmem
          obtain ⟨q, hq, hqn⟩ := List.mem_filterMap.mp hmem
          obtain ⟨m, hm, hms⟩ := h2 q hq
          rw [hqn] at hm
          simp only [Option.some.injEq] at hm
          exact hms (List.mem_append_right _ (by simp [hm]))
        · intro q hq m hqm
          simp only [projected_names, List.filterMap_cons, hn, List.mem_cons]
          rcases List.mem_cons.mp hq with rfl | hq
          · rw [hn] at hqm
            simp only [Option.some.injEq] at hqm
            exact Or.inr (Or.inl hqm.symm)
          · rcases h4 q hq m hqm with h5 | h5
            · rcases List.mem_append.mp h5 with h6 | h6
              · exact Or.inl h6
              · simp only [List.mem_singleton] at h6
                exact Or.inr (Or.inl h6)
            · exact Or.inr (Or.inr h5)

end MergeOrder

section MergeClaims

/-- C12, on the code: in `RETURN a.v AS x ORDER BY a.v` the sort expression `a.v`
is structurally equal (`AR_EXP_Equal`) to the projected expression and its
resolved name `a.v` differs from the projected name `x`; a clone of it is
appended to the projection list by `_combine_projection_arrays`. -/
theorem C12_structurally_equal_sort_expression_is_appended :
    _BuildProjectionExpressions Demo.ast Demo.return_a_v_as_x_order_by_a_v
      = .ok (some [.AR_EXP_OP (some "x") "property"
          [.AR_EXP_OPERAND none (.AR_EXP_VARIADIC "a"), .AR_EXP_OPERAND none .AR_EXP_CONSTANT]]) ∧
    _BuildOrderExpressions Demo.ast
        [{ expression := .CYPHER_AST_PROPERTY_OPERATOR (.CYPHER_AST_IDENTIFIER "a") "v",
           ascending := true }]
      = [.AR_EXP_OP (some "a.v") "property"
          [.AR_EXP_OPERAND none (.AR_EXP_VARIADIC "a"), .AR_EXP_OPERAND none .AR_EXP_CONSTANT]] ∧
    Demo.ast.AR_EXP_Equal
        (.AR_EXP_OP (some "a.v") "property"
          [.AR_EXP_OPERAND none (.AR_EXP_VARIADIC "a"), .AR_EXP_OPERAND none .AR_EXP_CONSTANT])
        (.AR_EXP_OP (some "x") "property"
          [.AR_EXP_OPERAND none (.AR_EXP_VARIADIC "a"), .AR_EXP_OPERAND none .AR_EXP_CONSTANT])
      = true ∧
    _combine_projection_arrays Demo.ast
        [.AR_EXP_OP (some "x") "property"
          [.AR_EXP_OPERAND none (.AR_EXP_VARIADIC "a"), .AR_EXP_OPERAND none .AR_EXP_CONSTANT]]
        [.AR_EXP_OP (some "a.v") "property"
          [.AR_EXP_OPERAND none (.AR_EXP_VARIADIC "a"), .AR_EXP_OPERAND none .AR_EXP_CONSTANT]]
        false raxNew Demo.empty_plan
      = .ok ([.AR_EXP_OP (some "x") "property"
                [.AR_EXP_OPERAND none (.AR_EXP_VARIADIC "a"),
                 .AR_EXP_OPERAND none .AR_EXP_CONSTANT],
              .AR_EXP_OP (some "a.v") "property"
                [.AR_EXP_OPERAND none (.AR_EXP_VARIADIC "a"),
                 .AR_EXP_OPERAND none .AR_EXP_CONSTANT]],
             Demo.empty_plan) :=
  ⟨rfl, rfl, rfl, rfl⟩

/-- C12, amended: `_combine_projection_arrays` does not append a sort expression
whose resolved name equals the resolved name of some expression of the
projection list `ps`.  The list it returns is `ps` followed by clones of some
of the sort expressions, in their order, and none of these has the resolved
name of an expression of `ps`.  It returns whenever all expressions are named
and validation reads no `NULL` name. -/
theorem C12_sort_expression_with_projected_name_not_appended (X : AstEnv)
    (ps os : List AR_ExpNode) (aggregate : Bool) (names : rax) (plan : ExecutionPlan) :
    (∀ merged plan1,
      _combine_projection_arrays X ps os aggregate names plan = .ok (merged, plan1) →
      ∃ appended : List AR_ExpNode, appended.Sublist os ∧
        merged = ps ++ appended.map X.AR_EXP_Clone ∧
        ∀ e ∈ appended, e.resolved_name ∉ ps.map AR_ExpNode.resolved_name) ∧
    ((∀ e ∈ ps, e.resolved_name.isSome = true) → (∀ e ∈ os, e.resolved_name.isSome = true) →
      (∀ (t : rax), ∀ e ∈ os, ∃ v, _validateOrderExpression t e = .ok v) →
      ∃ res, _combine_projection_arrays X ps os aggregate names plan = .ok res) := by
  refine ⟨?_, combine_projection_arrays_ok X ps os aggregate names plan⟩
  intro merged plan1 h
  obtain ⟨hsub, hnew, _, _⟩ := new_sort_expressions_facts os (names ++ projected_names ps)
  refine ⟨_, hsub, combine_projection_arrays_eq X ps os aggregate names plan plan1 merged h, ?_⟩
  intro e he hmem
  obtain ⟨n, hn, hns⟩ := hnew e he
  obtain ⟨p, hp, hpn⟩ := List.mem_map.mp hmem
  apply hns
  apply List.mem_append_right
  exact List.mem_filterMap.mpr ⟨p, hp, by rw [hpn, hn]⟩

/-- C13, on the code: for `RETURN n.name AS who, m ORDER BY m, n.name` the list
handed to the Project operation ends with a clone of the sort expression
`n.name`, which is structurally equal to the projected expression `who`. -/
theorem C13_projection_list_holds_structurally_equal_clone :
    _buildProjectionOps Demo.ast Demo.empty_plan Demo.return_who_m_order_by_m_name
      = .ok { root := some (.mk
                (.Sort [.AR_EXP_OPERAND (some "m") (.AR_EXP_VARIADIC "m"),
                        .AR_EXP_OP (some "n.name") "property"
                          [.AR_EXP_OPERAND none (.AR_EXP_VARIADIC "n"),
                           .AR_EXP_OPERAND none .AR_EXP_CONSTANT]] [1, -1])
                [.mk (.Project (some
                  [.AR_EXP_OP (some "who") "property"
                     [.AR_EXP_OPERAND none (.AR_EXP_VARIADIC "n"),
                      .AR_EXP_OPERAND none .AR_EXP_CONSTANT],
                   .AR_EXP_OPERAND (some "m") (.AR_EXP_VARIADIC "m"),
                   .AR_EXP_OP (some "n.name") "property"
                     [.AR_EXP_OPERAND none (.AR_EXP_VARIADIC "n"),
                      .AR_EXP_OPERAND none .AR_EXP_CONSTANT]])) []])
              error := none } ∧
    Demo.ast.AR_EXP_Equal
        (.AR_EXP_OP (some "n.name") "property"
          [.AR_EXP_OPERAND none (.AR_EXP_VARIADIC "n"), .AR_EXP_OPERAND none .AR_EXP_CONSTANT])
        (.AR_EXP_OP (some "who") "property"
          [.AR_EXP_OPERAND none (.AR_EXP_VARIADIC "n"), .AR_EXP_OPERAND none .AR_EXP_CONSTANT])
      = true :=
  ⟨rfl, rfl⟩

/-- C13, amended: after `_combine_projection_arrays` the projection list is the
original projection expressions, unchanged and in their order, followed by
one clone of every sort expression whose resolved name is new, that is, not
the resolved name of a projected expression, not a name of the rax handed in
(the WITH left-hand-side names captured under aggregation) and not the name
of an earlier sort expression, in ORDER BY order and at most once per
resolved name.  With an ORDER BY, this list is the one `_buildProjectionOps`
hands to the Aggregate or Project operation. -/
theorem C13_projection_list_after_merge (X : AstEnv) (plan : ExecutionPlan) (clause : Clause)
    (ps os : List AR_ExpNode) (aggregate : Bool) (names : rax) :
    (∀ merged plan1,
      _combine_projection_arrays X ps os aggregate names plan = .ok (merged, plan1) →
      merged = ps ++ (new_sort_expressions (names ++ projected_names ps) os).map X.AR_EXP_Clone) ∧
    ((new_sort_expressions (names ++ projected_names ps) os).Sublist os ∧
      (∀ e ∈ new_sort_expressions (names ++ projected_names ps) os,
        ∃ n, e.resolved_name = some n ∧ n ∉ names ∧ n ∉ projected_names ps) ∧
      (projected_names (new_sort_expressions (names ++ projected_names ps) os)).Nodup ∧
      (∀ e ∈ os, ∀ n, e.resolved_name = some n → n ∉ names → n ∉ projected_names ps →
        n ∈ projected_names (new_sort_expressions (names ++ projected_names ps) os))) ∧
    (∀ plan1 oc, _buildProjectionOps X plan clause = .ok plan1 → clause.order_by = some oc →
      ∃ ps0, _BuildProjectionExpressions X clause = .ok ps0 ∧
        plan1.root = stack_ops plan.root
          ((if X.AST_ClauseContainsAggregation clause = true then
              Op.Aggregate (some ((ps0.getD []) ++ (new_sort_expressions
                (initial_projection_names X clause ++ projected_names (ps0.getD []))
                (_BuildOrderExpressions X oc)).map X.AR_EXP_Clone))
            else
              Op.Project (some ((ps0.getD []) ++ (new_sort_expressions
                (initial_projection_names X clause ++ projected_names (ps0.getD []))
                (_BuildOrderExpressions X oc)).map X.AR_EXP_Clone)))
            :: projection_modifiers X clause ps0)) ∧
    (clause.well_formed → clause.order_validates X →
      ∃ plan1, _buildProjectionOps X plan clause = .ok plan1) := by
  obtain ⟨hsub, hnew, hnodup, hcover⟩ :=
    new_sort_expressions_facts os (names ++ projected_names ps)
  refine ⟨fun merged plan1 h => combine_projection_arrays_eq X ps os aggregate names plan plan1
      merged h, ⟨hsub, ?_, hnodup, ?_⟩, ?_, buildProjectionOps_ok X plan clause⟩
  · intro e he
    obtain ⟨n, hn, hns⟩ := hnew e he
    exact ⟨n, hn, fun hc => hns (List.mem_append_left _ hc),
      fun hc => hns (List.mem_append_right _ hc)⟩
  · intro e he n hn h1 h2
    rcases hcover e he n hn with h3 | h3
    · rcases List.mem_append.mp h3 with h4 | h4
      · exact absurd h4 h1
      · exact absurd h4 h2
    · exact h3
  · intro plan1 oc h ho
    obtain ⟨ps0, ps1, p1, hps, hshape, _, hroot⟩ := buildProjectionOps_ops X plan plan1 clause h
    refine ⟨ps0, hps, ?_⟩
    rcases hshape with ⟨hnone, _, _⟩ | ⟨oc1, merged, ho1, hc, hps1⟩
    · rw [ho] at hnone; simp at hnone
    · rw [ho] at ho1
      simp only [Option.some.injEq] at ho1
      subst ho1
      have hm := combine_projection_arrays_eq X _ _ _ _ plan p1 merged hc
      rw [hroot, hps1, hm]

end MergeClaims

section ScopeError

/-- C16, on the code: `_validateOrderExpression` returns true for every
property access that has a resolved name, whether or not the name is in the
set of visible names: the lookup only decides between two `return true`.  For
`b.v` and the visible names `c` the name is not found and the result is true,
and `WITH count(a) AS c ORDER BY b.v` is built without the scope error. -/
theorem C16_property_access_always_validates :
    (∀ (names : rax) (n : String) (children : List AR_ExpNode),
      _validateOrderExpression names (.AR_EXP_OP (some n) "property" children) = .ok true) ∧
    raxFind ["c"] "b.v" = false ∧
    _validateOrderExpression ["c"]
        (.AR_EXP_OP (some "b.v") "property"
          [.AR_EXP_OPERAND none (.AR_EXP_VARIADIC "b"), .AR_EXP_OPERAND none .AR_EXP_CONSTANT])
      = .ok true ∧
    (∃ plan1, buildWithOps Demo.ast Demo.empty_plan Demo.with_count_a_as_c_order_by_b_v
        = .ok plan1 ∧ plan1.error = none) := by
  refine ⟨?_, by decide, rfl, ⟨_, rfl, rfl⟩⟩
  intro names n children
  simp [_validateOrderExpression]

/-- An error that is set stays set through the validation loop. -/
theorem combine_validate_keeps_error (X : AstEnv) (ps : List AR_ExpNode) (t : rax) :
    ∀ (os : List AR_ExpNode) (plan p : ExecutionPlan),
      _combine_validate X ps t os plan = .ok p →
      plan.error = some aggregation_scope_error → p.error = some aggregation_scope_error := by
  intro os
  induction os with
  | nil =>
    intro plan p h he
    simp only [_combine_validate, Except.ok.injEq] at h
    rw [← h]; exact he
  | cons e rest ih =>
    intro plan p h he
    simp only [_combine_validate] at h
    rcases hf : _combine_found X e ps with err | found
    · rw [hf] at h; simp at h
    · rw [hf] at h
      cases found with
      | true => simp only at h; exact ih plan p h he
      | false =>
        simp only at h
        rcases hv : _validateOrderExpression t e with err | v
        · rw [hv] at h; simp at h
        · rw [hv] at h
          cases v with
          | true => simp only at h; exact ih plan p h he
          | false => simp only at h; exact ih _ p h rfl

/-- The validation loop sets the scope error as soon as one order expression
matches no projection and does not validate. -/
theorem combine_validate_sets_error (X : AstEnv) (ps : List AR_ExpNode) (t : rax)
    (e0 : AR_ExpNode) (hfound : _combine_found X e0 ps = .ok false)
    (hinvalid : _validateOrderExpression t e0 = .ok false) :
    ∀ (os : List AR_ExpNode) (plan p : ExecutionPlan), e0 ∈ os →
      _combine_validate X ps t os plan = .ok p → p.error = some aggregation_scope_error := by
  intro os
  induction os with
  | nil => intro plan p hmem _; simp at hmem
  | cons e rest ih =>
    intro plan p hmem h
    rcases List.mem_cons.mp hmem with rfl | hmem
    · simp only [_combine_validate, hfound, hinvalid] at h
      exact combine_validate_keeps_error X ps t rest _ p h rfl
    · simp only [_combine_validate] at h
      rcases hf : _combine_found X e ps with err | found
      · rw [hf] at h; simp at h
      · rw [hf] at h
        cases found with
        | true => simp only at h; exact ih plan p hmem h
        | false =>
          simp only at h
          rcases hv : _validateOrderExpression t e with err | v
          · rw [hv] at h; simp at h
          · rw [hv] at h
            cases v with
            | true => simp only at h; exact ih plan p hmem h
            | false => simp only at h; exact ih _ p hmem h

/-- Under aggregation `_combine_projection_arrays` sets the scope error for an
order expression that is a bare variable, when the variable is neither a
projected resolved name nor a name of the rax handed in and the expression
matches no projection by name or by `AR_EXP_Equal`; without aggregation it
leaves the error as it was. -/
theorem combine_scope_error (X : AstEnv) (ps os : List AR_ExpNode) (names : rax)
    (plan : ExecutionPlan) (rn v : String)
    (hps : ∀ e ∈ ps, e.resolved_name.isSome = true)
    (hos : ∀ e ∈ os, e.resolved_name.isSome = true)
    (hval : ∀ (t : rax), ∀ e ∈ os, ∃ b, _validateOrderExpression t e = .ok b)
    (he : AR_ExpNode.AR_EXP_OPERAND (some rn) (.AR_EXP_VARIADIC v) ∈ os)
    (h1 : v ∉ names) (h2 : v ∉ projected_names ps)
    (h3 : ∀ p ∈ ps, p.resolved_name ≠ some rn ∧
      X.AR_EXP_Equal (.AR_EXP_OPERAND (some rn) (.AR_EXP_VARIADIC v)) p = false) :
    (∃ merged plan1, _combine_projection_arrays X ps os true names plan = .ok (merged, plan1) ∧
      plan1.error = some aggregation_scope_error) ∧
    (∀ merged plan1, _combine_projection_arrays X ps os false names plan = .ok (merged, plan1) →
      plan1.error = plan.error) := by
  constructor
  · obtain ⟨⟨merged, plan1⟩, hres⟩ := combine_projection_arrays_ok X ps os true names plan
      hps hos hval
    refine ⟨merged, plan1, hres, ?_⟩
    unfold _combine_projection_arrays at hres
    rcases hn : _combine_add_names ps names with err | t
    · rw [hn] at hres; simp at hres
    · rw [hn] at hres
      simp only [if_true] at hres
      have hmem := combine_add_names_mem ps names t hn
      have hfound : _combine_found X (.AR_EXP_OPERAND (some rn) (.AR_EXP_VARIADIC v)) ps
          = .ok false := by
        cases ps with
        | nil => rfl
        | cons p rest =>
          simp only [_combine_found, AR_ExpNode.resolved_name, Except.ok.injEq,
            List.any_eq_false, Bool.or_eq_true, beq_iff_eq, not_or]
          intro q hq
          exact ⟨(h3 q hq).1, by simp [(h3 q hq).2]⟩
      have hinvalid : _validateOrderExpression t (.AR_EXP_OPERAND (some rn) (.AR_EXP_VARIADIC v))
          = .ok false := by
        have hv : v ∉ t := fun hc => by
          rcases (hmem v).mp hc with h4 | h4
          · exact h1 h4
          · exact h2 h4
        simp [_validateOrderExpression, raxFind, hv]
      rcases hvl : _combine_validate X ps t os plan with err | p
      · rw [hvl] at hres; simp at hres
      · rw [hvl] at hres
        simp only at hres
        rcases hm : _combine_merge X os t ps with err | m
        · rw [hm] at hres; simp at hres
        · rw [hm] at hres
          simp only [Except.ok.injEq, Prod.mk.injEq] at hres
          rw [← hres.2]
          exact combine_validate_sets_error X ps t _ hfound hinvalid os plan p he hvl
  · intro merged plan1 h
    unfold _combine_projection_arrays at h
    rcases hn : _combine_add_names ps names with err | t
    · rw [hn] at h; simp at h
    · rw [hn] at h
      simp only [Bool.false_eq_true, if_false] at h
      rcases hm : _combine_merge X os t ps with err | m
      · rw [hm] at h; simp at h
      · rw [hm] at h
        simp only [Except.ok.injEq, Prod.mk.injEq] at h
        rw [← h.2]

/-- C14, on the code: for `WITH count(a) AS c ORDER BY b` the scope error is
set, and its text is the one of the source, whose string literal is continued
over a line break without a blank: it reads `aggregation,it is`, not
`aggregation, it is` as the claim quotes it. -/
theorem C14_scope_error_text_lacks_blank :
    (∃ plan1, buildWithOps Demo.ast Demo.empty_plan Demo.with_count_a_as_c_order_by_b = .ok plan1 ∧
      plan1.error = some "In a WITH/RETURN with an aggregation,it is not possible to access variables not projected by the WITH/RETURN.") ∧
    aggregation_scope_error ≠
      "In a WITH/RETURN with an aggregation, it is not possible to access variables not projected by the WITH/RETURN." :=
  ⟨⟨_, rfl, rfl⟩, by decide⟩

end ScopeError

section EarlierBinding

/-- C15, on the code: `WITH count(a) AS c ORDER BY b` built on a plan in which
earlier clauses have bound `a` and `b`.  The builder returns, the order
expression `b` does not validate against the visible names (`c` only), and
the aggregation-scope error is set. -/
theorem C15_earlier_binding_does_not_validate :
    _validateOrderExpression ["c"] (.AR_EXP_OPERAND (some "b") (.AR_EXP_VARIADIC "b"))
      = .ok false ∧
    ∃ plan1, buildWithOps Demo.ast Demo.plan_binding_a_b Demo.with_count_a_as_c_order_by_b
        = .ok plan1 ∧ plan1.error = some aggregation_scope_error :=
  ⟨rfl, _, rfl, rfl⟩

/-- C15, amended: for `WITH count(a) AS c ORDER BY b`, where the clause
aggregates, `b` is a bare variable reference and the sort expression matches
the projection neither by name nor by structure, building the projection
operations on any plan, whatever earlier clauses have bound, returns the plan
with Aggregate and Sort stacked on it and with the aggregation-scope error
set: the order expression `b` does not validate. -/
theorem C15_unprojected_variable_sets_scope_error (X : AstEnv) (plan : ExecutionPlan)
    (rn0 : Option String)
    (hagg : X.AST_ClauseContainsAggregation Demo.with_count_a_as_c_order_by_b = true)
    (hb : X.AR_EXP_FromASTNode (.CYPHER_AST_IDENTIFIER "b")
      = .AR_EXP_OPERAND rn0 (.AR_EXP_VARIADIC "b"))
    (hname : X.AST_ToString (.CYPHER_AST_IDENTIFIER "b") ≠ "c")
    (hneq : X.AR_EXP_Equal
      (.AR_EXP_OPERAND (some (X.AST_ToString (.CYPHER_AST_IDENTIFIER "b"))) (.AR_EXP_VARIADIC "b"))
      ((X.AR_EXP_FromASTNode
        (.CYPHER_AST_APPLY_OPERATOR "count" [.CYPHER_AST_IDENTIFIER "a"])).set_resolved_name
          (some "c")) = false) :
    _validateOrderExpression ["c"]
        (.AR_EXP_OPERAND (some (X.AST_ToString (.CYPHER_AST_IDENTIFIER "b")))
          (.AR_EXP_VARIADIC "b")) = .ok false ∧
    buildWithOps X plan Demo.with_count_a_as_c_order_by_b
      = .ok { root := stack_ops plan.root (
        [Op.Aggregate (some
          [(X.AR_EXP_FromASTNode
              (.CYPHER_AST_APPLY_OPERATOR "count" [.CYPHER_AST_IDENTIFIER "a"])).set_resolved_name
              (some "c"),
           X.AR_EXP_Clone (.AR_EXP_OPERAND (some (X.AST_ToString (.CYPHER_AST_IDENTIFIER "b")))
             (.AR_EXP_VARIADIC "b"))]),
         Op.Sort [.AR_EXP_OPERAND (some (X.AST_ToString (.CYPHER_AST_IDENTIFIER "b")))
           (.AR_EXP_VARIADIC "b")] [1]])
              error := some aggregation_scope_error } := by
  have hvalid : _validateOrderExpression ["c"]
      (.AR_EXP_OPERAND (some (X.AST_ToString (.CYPHER_AST_IDENTIFIER "b")))
        (.AR_EXP_VARIADIC "b")) = .ok false := by
    simp [_validateOrderExpression, raxFind]
  refine ⟨hvalid, ?_⟩
  have hne : ¬ ("c" = X.AST_ToString (.CYPHER_AST_IDENTIFIER "b")) := fun h => hname h.symm
  have hps : _BuildProjectionExpressions X Demo.with_count_a_as_c_order_by_b
      = .ok (some [(X.AR_EXP_FromASTNode
          (.CYPHER_AST_APPLY_OPERATOR "count" [.CYPHER_AST_IDENTIFIER "a"])).set_resolved_name
            (some "c")]) := by
    simp [_BuildProjectionExpressions, Demo.with_count_a_as_c_order_by_b,
      _BuildProjectionExpressions_loop, projection_identifier, raxTryInsert, raxNew]
  have hob : Demo.with_count_a_as_c_order_by_b.order_by
      = some [{ expression := .CYPHER_AST_IDENTIFIER "b", ascending := true }] := rfl
  have hskip : Demo.with_count_a_as_c_order_by_b.skip = none := rfl
  have hlimit : Demo.with_count_a_as_c_order_by_b.limit = none := rfl
  have hdistinct : Demo.with_count_a_as_c_order_by_b.is_distinct = false := rfl
  have hlhs : _add_WITH_LHS_projections Demo.with_count_a_as_c_order_by_b raxNew = [] := rfl
  have hos : _BuildOrderExpressions X [{ expression := .CYPHER_AST_IDENTIFIER "b", ascending := true }]
      = [.AR_EXP_OPERAND (some (X.AST_ToString (.CYPHER_AST_IDENTIFIER "b")))
          (.AR_EXP_VARIADIC "b")] := by
    simp [_BuildOrderExpressions, hb, AR_ExpNode.set_resolved_name]
  have hcomb : _combine_projection_arrays X
      [(X.AR_EXP_FromASTNode
          (.CYPHER_AST_APPLY_OPERATOR "count" [.CYPHER_AST_IDENTIFIER "a"])).set_resolved_name
            (some "c")]
      [.AR_EXP_OPERAND (some (X.AST_ToString (.CYPHER_AST_IDENTIFIER "b"))) (.AR_EXP_VARIADIC "b")]
      true [] plan
      = .ok ([(X.AR_EXP_FromASTNode
          (.CYPHER_AST_APPLY_OPERATOR "count" [.CYPHER_AST_IDENTIFIER "a"])).set_resolved_name
            (some "c"),
          X.AR_EXP_Clone (.AR_EXP_OPERAND (some (X.AST_ToString (.CYPHER_AST_IDENTIFIER "b")))
            (.AR_EXP_VARIADIC "b"))],
        ErrorCtx_SetError plan aggregation_scope_error) := by
    have hn2 : (AR_ExpNode.AR_EXP_OPERAND (some (X.AST_ToString (.CYPHER_AST_IDENTIFIER "b")))
        (.AR_EXP_VARIADIC "b")).resolved_name
        = some (X.AST_ToString (.CYPHER_AST_IDENTIFIER "b")) := rfl
    have hbeq : ("c" == X.AST_ToString (.CYPHER_AST_IDENTIFIER "b")) = false := by
      simpa using hne
    simp [_combine_projection_arrays, _combine_add_names, resolved_name_set, raxTryInsert,
      _combine_validate, _combine_found, hn2, hneq, hvalid, hne, hname, _combine_merge, hbeq]
  simp only [buildWithOps, _buildProjectionOps, hps, hob, hskip, hlimit, hdistinct, hagg, hlhs,
    hos, hcomb, Option.getD, if_true, Bool.false_eq_true, if_false, Option.map,
    AST_PrepareSortOp, List.map, ExecutionPlan_UpdateRoot, ErrorCtx_SetError, stack_ops,
    List.foldl]

end EarlierBinding

/-! ## Arrays -/

section Arrays

theorem foldl_SIArray_Append :
    ∀ (l acc : List SIValue),
      l.foldl (fun newArray value => SIArray_Append newArray value) (.SI_Array acc)
        = .SI_Array (acc ++ l) := by
  intro l
  induction l with
  | nil => intro acc; simp
  | cons v rest ih =>
    intro acc
    have hstep : SIArray_Append (.SI_Array acc) v = .SI_Array (acc ++ [v]) := rfl
    rw [List.foldl_cons, hstep, ih]
    simp

/-- C18: `SIArray_Flatten(A, 0)` equals `A`: it is the array of the same
elements, nested arrays included, so it has the same length and `SIArray_Get`
returns the same element at every index. -/
theorem C18_flatten_zero_is_identity (A : List SIValue) :
    SIArray_Flatten (.SI_Array A) 0 = .SI_Array A ∧
    SIArray_Length (SIArray_Flatten (.SI_Array A) 0) = SIArray_Length (.SI_Array A) ∧
    (∀ i, SIArray_Get (SIArray_Flatten (.SI_Array A) 0) i = SIArray_Get (.SI_Array A) i) := by
  have h : SIArray_Flatten (.SI_Array A) 0 = .SI_Array A := by
    have h0 := foldl_SIArray_Append A []
    rw [List.nil_append] at h0
    exact Eq.trans rfl h0
  refine ⟨h, by rw [h], fun i => by rw [h]⟩

theorem SIArray_Flatten_loop (levels : Nat) :
    ∀ (l acc : List SIValue),
      l.foldl
        (fun newArray value =>
          if SI_TYPE value != T_ARRAY then SIArray_Append newArray value
          else
            (SIArray_Flatten value levels).array.foldl
              (fun newArray inner => SIArray_Append newArray inner) newArray)
        (.SI_Array acc)
        = .SI_Array (acc ++ unnest (fun e => (SIArray_Flatten e levels).array) l) := by
  intro l
  induction l with
  | nil => intro acc; simp [unnest]
  | cons v rest ih =>
    intro acc
    rw [List.foldl_cons]
    by_cases hv : SI_TYPE v = T_ARRAY
    · have hb : (SI_TYPE v != T_ARRAY) = false := by simp [hv]
      simp only [hb, Bool.false_eq_true, if_false]
      rw [foldl_SIArray_Append, ih]
      simp [unnest, hv]
    · have hb : (SI_TYPE v != T_ARRAY) = true := by simp [hv]
      have hstep : SIArray_Append (.SI_Array acc) v = .SI_Array (acc ++ [v]) := rfl
      simp only [hb, if_true]
      rw [hstep, ih]
      simp [unnest, hv]

/-- C19: `SIArray_Flatten(A, n + 1)` is the in-order concatenation, over the
elements `e` of `A`, of the elements of `SIArray_Flatten(e, n)` when `e` is an
array and of the single element `e` otherwise.  On `[[1, [2, 3]], 4]` one
level gives `[1, [2, 3], 4]` and two levels give `[1, 2, 3, 4]`. -/
theorem C19_flatten_unnests_one_layer_per_level (A : List SIValue) (n : Nat) :
    SIArray_Flatten (.SI_Array A) (n + 1)
      = .SI_Array (unnest (fun e => (SIArray_Flatten e n).array) A) ∧
    SIArray_Flatten (.SI_Array Demo.nested_array) 1
      = .SI_Array [.SI_LongVal 1, .SI_Array [.SI_LongVal 2, .SI_LongVal 3], .SI_LongVal 4] ∧
    SIArray_Flatten (.SI_Array Demo.nested_array) 2
      = .SI_Array [.SI_LongVal 1, .SI_LongVal 2, .SI_LongVal 3, .SI_LongVal 4] := by
  refine ⟨?_, rfl, rfl⟩
  have h := SIArray_Flatten_loop n A []
  rw [List.nil_append] at h
  exact Eq.trans rfl h

end Arrays

section Dedup

theorem range_filterMap_eq_keep_from {α : Type} (keep : List α → α → Bool) :
    ∀ (rest pre : List α),
      (List.range rest.length).filterMap (fun i =>
        match rest[i]? with
        | some e => if keep (pre ++ rest.take i) e then some e else none
        | none => none)
      = keep_from keep pre rest := by
  intro rest
  induction rest with
  | nil => intro pre; simp [keep_from]
  | cons x rest ih =>
    intro pre
    have h := ih (pre ++ [x])
    rw [List.length_cons, List.range_succ_eq_map, List.filterMap_cons, List.filterMap_map]
    simp only [List.getElem?_cons_zero, List.take_zero, List.append_nil, keep_from]
    have htail : (List.range rest.length).filterMap ((fun i =>
          match (x :: rest)[i]? with
          | some e => if keep (pre ++ (x :: rest).take i) e then some e else none
          | none => none) ∘ Nat.succ)
        = keep_from keep (pre ++ [x]) rest := by
      rw [← h]
      apply List.filterMap_congr
      intro i _
      simp only [Function.comp, Nat.succ_eq_add_one, List.getElem?_cons_succ, List.take_succ_cons,
        List.append_assoc, List.singleton_append]
    rw [htail]
    by_cases hk : keep pre x = true <;> simp [hk]

theorem first_of_equals_eq_keep_from (V : ValueEnv) (A : List SIValue) :
    first_of_equals V A
      = keep_from (fun pre e => !SIArray_Contains V (.SI_Array pre) e) [] A := by
  rw [← range_filterMap_eq_keep_from]
  unfold first_of_equals
  apply List.filterMap_congr
  intro i _
  cases A[i]? with
  | none => rfl
  | some e =>
    simp only [List.nil_append]
    by_cases hc : SIArray_Contains V (.SI_Array (A.take i)) e = true
    · simp [hc]
    · simp [hc]

theorem SIArray_Contains_iff (V : ValueEnv) (l : List SIValue) (e : SIValue) :
    SIArray_Contains V (.SI_Array l) e = true ↔
      ∃ x ∈ l, SIArray_Contains_test V x e = true := by
  simp [SIArray_Contains, SIValue.array, SI_ShareValue, List.any_eq_true]

theorem keep_from_sublist {α : Type} (keep : List α → α → Bool) :
    ∀ (rest pre : List α), (keep_from keep pre rest).Sublist rest := by
  intro rest
  induction rest with
  | nil => intro pre; simp [keep_from]
  | cons x rest ih =>
    intro pre
    simp only [keep_from]
    by_cases hk : keep pre x = true
    · simp only [hk, if_true, List.singleton_append]
      exact (ih _).cons₂ x
    · simp only [hk, Bool.false_eq_true, if_false, List.nil_append]
      exact (ih _).cons x

/-- No element kept by the deduplication is equal to an element before it. -/
theorem keep_from_not_contained (V : ValueEnv) :
    ∀ (rest pre : List SIValue),
      (keep_from (fun pre e => !SIArray_Contains V (.SI_Array pre) e) pre rest).Pairwise
        (fun a b => SIArray_Contains_test V a b = false) ∧
      ∀ b ∈ keep_from (fun pre e => !SIArray_Contains V (.SI_Array pre) e) pre rest,
        ∀ a ∈ pre, SIArray_Contains_test V a b = false := by
  intro rest
  induction rest with
  | nil => intro pre; simp [keep_from]
  | cons x rest ih =>
    intro pre
    obtain ⟨h1, h2⟩ := ih (pre ++ [x])
    simp only [keep_from]
    by_cases hc : SIArray_Contains V (.SI_Array pre) x = true
    · simp only [hc, Bool.not_true, Bool.false_eq_true, if_false, List.nil_append]
      exact ⟨h1, fun b hb a ha => h2 b hb a (List.mem_append_left _ ha)⟩
    · have hc : SIArray_Contains V (.SI_Array pre) x = false := by simpa using hc
      simp only [hc, Bool.not_false, if_true, List.singleton_append, List.pairwise_cons,
        List.mem_cons]
      refine ⟨⟨fun b hb => h2 b hb x (by simp), h1⟩, ?_⟩
      intro b hb a ha
      rcases hb with rfl | hb
      · by_contra hne
        have : SIArray_Contains V (.SI_Array pre) b = true :=
          (SIArray_Contains_iff V pre b).mpr ⟨a, ha, by simpa using hne⟩
        rw [hc] at this
        exact absurd this (by simp)
      · exact h2 b hb a (List.mem_append_left _ ha)

/-- The loop of `SIArray_Dedup`: with `acc` the array built from the elements
`pre` visited so far, the loop over `rest` appends the elements of `rest` that
are contained in no earlier part of the array. -/
theorem SIArray_Dedup_loop (V : ValueEnv) (A : List SIValue)
    (hrefl : ∀ a ∈ A, SIArray_Contains_test V a a = true)
    (htrans : ∀ a ∈ A, ∀ b ∈ A, ∀ c ∈ A, SIArray_Contains_test V a b = true →
      SIArray_Contains_test V b c = true → SIArray_Contains_test V a c = true) :
    ∀ (rest pre acc : List SIValue), (∀ x ∈ pre, x ∈ A) → (∀ x ∈ rest, x ∈ A) →
      (∀ y ∈ acc, y ∈ pre) → (∀ x ∈ pre, ∃ y ∈ acc, SIArray_Contains_test V y x = true) →
      rest.foldl
          (fun newArray elem =>
            if SIArray_Contains V newArray elem = false then SIArray_Append newArray elem
            else newArray)
          (.SI_Array acc)
        = .SI_Array
            (acc ++ keep_from (fun pre e => !SIArray_Contains V (.SI_Array pre) e) pre rest) ∧
      ∀ x, x ∈ pre ∨ x ∈ rest →
        ∃ y ∈ acc ++ keep_from (fun pre e => !SIArray_Contains V (.SI_Array pre) e) pre rest,
          SIArray_Contains_test V y x = true := by
  intro rest
  induction rest with
  | nil =>
    intro pre acc _ _ _ hcover
    refine ⟨by simp [keep_from], ?_⟩
    intro x hx
    rcases hx with hx | hx
    · obtain ⟨y, hy, hyx⟩ := hcover x hx
      exact ⟨y, by simp [keep_from, hy], hyx⟩
    · simp at hx
  | cons e rest ih =>
    intro pre acc hpre hrest hacc hcover
    have heA : e ∈ A := hrest e (List.mem_cons_self _ _)
    have hrestA : ∀ x ∈ rest, x ∈ A := fun x hx => hrest x (List.mem_cons_of_mem _ hx)
    have hpre1 : ∀ x ∈ pre ++ [e], x ∈ A := by
      intro x hx
      rcases List.mem_append.mp hx with h | h
      · exact hpre x h
      · simp only [List.mem_singleton] at h; rw [h]; exact heA
    -- being contained in what was kept is being contained in what was visited
    have hkey : SIArray_Contains V (.SI_Array acc) e = SIArray_Contains V (.SI_Array pre) e := by
      apply Bool.eq_iff_iff.mpr
      rw [SIArray_Contains_iff, SIArray_Contains_iff]
      constructor
      · rintro ⟨y, hy, hye⟩
        exact ⟨y, hacc y hy, hye⟩
      · rintro ⟨x, hx, hxe⟩
        obtain ⟨y, hy, hyx⟩ := hcover x hx
        exact ⟨y, hy, htrans y (hpre y (hacc y hy)) x (hpre x hx) e heA hyx hxe⟩
    rw [List.foldl_cons]
    cases hc : SIArray_Contains V (.SI_Array pre) e with
    | false =>
      have hstep : SIArray_Append (.SI_Array acc) e = .SI_Array (acc ++ [e]) := rfl
      obtain ⟨h1, h2⟩ := ih (pre ++ [e]) (acc ++ [e]) hpre1 hrestA
        (by
          intro y hy
          rcases List.mem_append.mp hy with h | h
          · exact List.mem_append_left _ (hacc y h)
          · exact List.mem_append_right _ h)
        (by
          intro x hx
          rcases List.mem_append.mp hx with h | h
          · obtain ⟨y, hy, hyx⟩ := hcover x h
            exact ⟨y, List.mem_append_left _ hy, hyx⟩
          · simp only [List.mem_singleton] at h
            exact ⟨e, by simp, by rw [h]; exact hrefl e heA⟩)
      simp only [hkey, hc, if_true, hstep, h1, keep_from, Bool.not_false, List.singleton_append,
        List.append_assoc, true_and]
      intro x hx
      have hx1 : x ∈ pre ++ [e] ∨ x ∈ rest := by
        rcases hx with h | h
        · exact Or.inl (List.mem_append_left _ h)
        · rcases List.mem_cons.mp h with h | h
          · exact Or.inl (by simp [h])
          · exact Or.inr h
      obtain ⟨y, hy, hyx⟩ := h2 x hx1
      exact ⟨y, by simpa [List.append_assoc] using hy, hyx⟩
    | true =>
      obtain ⟨h1, h2⟩ := ih (pre ++ [e]) acc hpre1 hrestA
        (fun y hy => List.mem_append_left _ (hacc y hy))
        (by
          intro x hx
          rcases List.mem_append.mp hx with h | h
          · exact hcover x h
          · simp only [List.mem_singleton] at h
            rw [h]
            rw [← hkey] at hc
            exact (SIArray_Contains_iff V acc e).mp hc)
      simp only [hkey, hc, Bool.true_eq_false, if_false, h1, keep_from, Bool.not_true,
        Bool.false_eq_true, List.nil_append, true_and]
      intro x hx
      have hx1 : x ∈ pre ++ [e] ∨ x ∈ rest := by
        rcases hx with h | h
        · exact Or.inl (List.mem_append_left _ h)
        · rcases List.mem_cons.mp h with h | h
          · exact Or.inl (by simp [h])
          · exact Or.inr h
      exact h2 x hx1

/-- C17: when equality in the sense of `SIArray_Contains` (overlapping type and
`SIValue_Compare` zero) is reflexive, symmetric and transitive on the elements
of `A`, `SIArray_Dedup(A)` is the subsequence of `A` made of exactly the
elements that are not equal to any earlier element of `A`, in their original
order; no two elements of the result are equal to each other, and every
element of `A` is contained in the result. -/
theorem C17_dedup_keeps_first_of_equals (V : ValueEnv) (A : List SIValue)
    (hrefl : ∀ a ∈ A, SIArray_Contains_test V a a = true)
    (hsymm : ∀ a ∈ A, ∀ b ∈ A, SIArray_Contains_test V a b = true →
      SIArray_Contains_test V b a = true)
    (htrans : ∀ a ∈ A, ∀ b ∈ A, ∀ c ∈ A, SIArray_Contains_test V a b = true →
      SIArray_Contains_test V b c = true → SIArray_Contains_test V a c = true) :
    SIArray_Dedup V (.SI_Array A) = .SI_Array (first_of_equals V A) ∧
    (first_of_equals V A).Sublist A ∧
    (first_of_equals V A).Pairwise
      (fun a b => SIArray_Contains_test V a b = false ∧ SIArray_Contains_test V b a = false) ∧
    (∀ a ∈ A, SIArray_Contains V (SIArray_Dedup V (.SI_Array A)) a = true) := by
  obtain ⟨hloop, hcover⟩ := SIArray_Dedup_loop V A hrefl htrans A [] []
    (by simp) (fun x hx => hx) (by simp) (by simp)
  have hsub := keep_from_sublist (fun pre e => !SIArray_Contains V (.SI_Array pre) e) A []
  have hpair := (keep_from_not_contained V A []).1
  have hded : SIArray_Dedup V (.SI_Array A) = .SI_Array (first_of_equals V A) := by
    rw [first_of_equals_eq_keep_from]
    cases A with
    | nil => rfl
    | cons a rest =>
      rw [List.nil_append] at hloop
      rw [← hloop]
      rfl
  rw [first_of_equals_eq_keep_from] at hded ⊢
  refine ⟨hded, hsub, ?_, ?_⟩
  · have hmem : ∀ x ∈ keep_from (fun pre e => !SIArray_Contains V (.SI_Array pre) e) [] A,
        x ∈ A := fun x hx => hsub.subset hx
    refine (List.Pairwise.and_mem.mp hpair).imp ?_
    rintro a b ⟨ha, hb, hab⟩
    refine ⟨hab, ?_⟩
    by_contra hne
    have hba : SIArray_Contains_test V b a = true := by simpa using hne
    have := hsymm b (hmem b hb) a (hmem a ha) hba
    rw [hab] at this
    exact absurd this (by simp)
  · intro a ha
    rw [hded, SIArray_Contains_iff]
    obtain ⟨y, hy, hya⟩ := hcover a (Or.inr ha)
    exact ⟨y, by simpa using hy, hya⟩

end Dedup

section Maps

theorem foldl_range_getElem {α β : Type} (f : β → α → β) :
    ∀ (l : List α) (init : β),
      (List.range l.length).foldl
          (fun m i => match l[i]? with
            | some p => f m p
            | none => m) init
        = l.foldl f init := by
  intro l
  induction l with
  | nil => intro init; rfl
  | cons x l ih =>
    intro init
    rw [List.length_cons, List.range_succ_eq_map, List.foldl_cons, List.foldl_map]
    simp only [List.getElem?_cons_zero, List.foldl_cons, Nat.succ_eq_add_one,
      List.getElem?_cons_succ]
    exact ih (f init x)

theorem lookup_cons_if (k k0 : String) (v0 : SIValue) (l : List (String × SIValue)) :
    List.lookup k ((k0, v0) :: l) = if k = k0 then some v0 else l.lookup k := by
  by_cases h : k = k0
  · subst h
    simp [List.lookup]
  · have hb : (k == k0) = false := by simpa using h
    simp only [List.lookup, hb, h, if_false]

theorem Map_Add_pairs_lookup (key : String) (value : SIValue) :
    ∀ (m : List (String × SIValue)) (k : String),
      (Map_Add_pairs m key value).lookup k
        = if k = key then some value else m.lookup k := by
  intro m
  induction m with
  | nil =>
    intro k
    by_cases h : k = key <;> simp [Map_Add_pairs, SI_CloneValue, lookup_cons_if, h]
  | cons p m ih =>
    intro k
    obtain ⟨k0, v0⟩ := p
    by_cases h0 : k0 = key
    · subst h0
      by_cases h : k = k0 <;> simp [Map_Add_pairs, SI_CloneValue, lookup_cons_if, h]
    · by_cases h : k = key
      · subst h
        have hne : ¬ k = k0 := fun e => h0 e.symm
        simp [Map_Add_pairs, lookup_cons_if, h0, hne, ih]
      · by_cases h1 : k = k0 <;> simp [Map_Add_pairs, lookup_cons_if, h0, h, h1, ih]

theorem Map_Add_pairs_keys (key : String) (value : SIValue) :
    ∀ (m : List (String × SIValue)) (k : String),
      k ∈ (Map_Add_pairs m key value).map Prod.fst ↔ k = key ∨ k ∈ m.map Prod.fst := by
  intro m
  induction m with
  | nil => intro k; simp [Map_Add_pairs]
  | cons p m ih =>
    intro k
    obtain ⟨k0, v0⟩ := p
    by_cases h0 : k0 = key
    · subst h0
      simp [Map_Add_pairs]
    · simp only [Map_Add_pairs, beq_iff_eq, h0, if_false, List.map_cons, List.mem_cons, ih]
      tauto

theorem Map_Add_pairs_nodup (key : String) (value : SIValue) :
    ∀ (m : List (String × SIValue)), (m.map Prod.fst).Nodup →
      ((Map_Add_pairs m key value).map Prod.fst).Nodup := by
  intro m
  induction m with
  | nil => intro _; simp [Map_Add_pairs]
  | cons p m ih =>
    intro hm
    obtain ⟨k0, v0⟩ := p
    by_cases h0 : k0 = key
    · subst h0
      simpa [Map_Add_pairs] using hm
    · simp only [List.map_cons, List.nodup_cons] at hm
      simp only [Map_Add_pairs, beq_iff_eq, h0, if_false, List.map_cons, List.nodup_cons]
      refine ⟨?_, ih hm.2⟩
      intro hk
      rcases (Map_Add_pairs_keys key value m k0).mp hk with h | h
      · exact h0 h
      · exact hm.1 h

theorem lookup_eq_none_of_not_mem :
    ∀ (l : List (String × SIValue)) (k : String), k ∉ l.map Prod.fst → l.lookup k = none := by
  intro l
  induction l with
  | nil => intro k _; rfl
  | cons p l ih =>
    intro k hk
    obtain ⟨k0, v0⟩ := p
    simp only [List.map_cons, List.mem_cons, not_or] at hk
    simp [lookup_cons_if, hk.1, ih k hk.2]

/-- Adding the pairs of `l`, whose keys are distinct, to `m` one after the
other: the keys, the value of every key, and the distinctness of the keys. -/
theorem Map_Add_pairs_foldl :
    ∀ (l m : List (String × SIValue)), (l.map Prod.fst).Nodup →
      (∀ k, k ∈ (l.foldl (fun m p => Map_Add_pairs m p.1 p.2) m).map Prod.fst ↔
        k ∈ l.map Prod.fst ∨ k ∈ m.map Prod.fst) ∧
      (∀ k, (l.foldl (fun m p => Map_Add_pairs m p.1 p.2) m).lookup k
        = (match l.lookup k with
          | some v => some v
          | none => m.lookup k)) ∧
      ((m.map Prod.fst).Nodup →
        ((l.foldl (fun m p => Map_Add_pairs m p.1 p.2) m).map Prod.fst).Nodup) := by
  intro l
  induction l with
  | nil => intro m _; simp [lookup_cons_if]
  | cons p l ih =>
    intro m hl
    obtain ⟨k0, v0⟩ := p
    simp only [List.map_cons, List.nodup_cons] at hl
    obtain ⟨h1, h2, h3⟩ := ih (Map_Add_pairs m k0 v0) hl.2
    simp only [List.foldl_cons]
    refine ⟨?_, ?_, fun hm => h3 (Map_Add_pairs_nodup k0 v0 m hm)⟩
    · intro k
      rw [h1 k, Map_Add_pairs_keys]
      simp only [List.map_cons, List.mem_cons]
      tauto
    · intro k
      rw [h2 k, Map_Add_pairs_lookup]
      by_cases h : k = k0
      · subst h
        simp [lookup_cons_if, lookup_eq_none_of_not_mem l k hl.1]
      · simp [lookup_cons_if, h]

/-- C20: for maps `left` and `right` (the keys of `left` distinct, as the keys
of a map are), `AR_MERGEMAP(left, right)` is a map whose key set is the union
of the two key sets, in which every key of `left` has the value of `left` and
every other key the value of `right`; its keys are distinct when those of
`right` are. -/
theorem C20_mergemap_left_wins (left right : List (String × SIValue))
    (hleft : (left.map Prod.fst).Nodup) :
    ∃ m : List (String × SIValue),
      AR_MERGEMAP [.SI_Map left, .SI_Map right] = .ok (.SI_Map m) ∧
      (∀ k, k ∈ m.map Prod.fst ↔ k ∈ left.map Prod.fst ∨ k ∈ right.map Prod.fst) ∧
      (∀ k, m.lookup k = (match left.lookup k with
        | some v => some v
        | none => right.lookup k)) ∧
      ((right.map Prod.fst).Nodup → (m.map Prod.fst).Nodup) := by
  have hfold : ∀ (l : List (String × SIValue)) (acc : List (String × SIValue)),
      l.foldl (fun map p => Map_Add map p.1 p.2) (.SI_Map acc)
        = .SI_Map (l.foldl (fun m p => Map_Add_pairs m p.1 p.2) acc) := by
    intro l
    induction l with
    | nil => intro acc; rfl
    | cons p l ih =>
      intro acc
      have hstep : Map_Add (.SI_Map acc) p.1 p.2 = .SI_Map (Map_Add_pairs acc p.1 p.2) := rfl
      rw [List.foldl_cons, List.foldl_cons, hstep, ih]
  have hrun : AR_MERGEMAP [.SI_Map left, .SI_Map right]
      = .ok (.SI_Map (left.foldl (fun m p => Map_Add_pairs m p.1 p.2) right)) := by
    have h := foldl_range_getElem (fun (map : SIValue) (p : String × SIValue) =>
      Map_Add map p.1 p.2) left (.SI_Map right)
    rw [hfold] at h
    have hnull : ∀ l : List (String × SIValue),
        (SI_TYPE (.SI_Map l) &&& T_NULL != 0) = false := by
      intro l
      show (T_MAP &&& T_NULL != 0) = false
      decide
    have hget : ∀ i, Map_GetIdx (.SI_Map left) i = left[i]? := fun _ => rfl
    simp only [AR_MERGEMAP, hnull, Bool.false_and, Bool.false_eq_true, if_false, Map_KeyCount,
      SIValue.pairs, Map_Clone, hget]
    rw [← h]
    congr 2
    funext map i
    cases left[i]? with
    | none => rfl
    | some p => rfl
  exact ⟨_, hrun, Map_Add_pairs_foldl left right hleft⟩

end Maps

/-! ## Arrays: type containment, hashing, indexed access -/

section ArrayAccess

theorem SIArray_ContainsType_loop_iff (t : SIType) :
    ∀ (A : List SIValue), SIArray_ContainsType_loop A t = true ↔
      ∃ v ∈ nested_values A, SI_TYPE v &&& t ≠ 0
  | [] => by simp [SIArray_ContainsType_loop, nested_values]
  | e :: rest => by
    have h2 := SIArray_ContainsType_loop_iff t rest
    cases e with
    | SI_Array inner =>
      have h1 := SIArray_ContainsType_loop_iff t inner
      simp only [SIArray_ContainsType_loop, SIArray_ContainsType, nested_values, nested_values_of,
        List.mem_cons, List.mem_append]
      by_cases h0 : SI_TYPE (.SI_Array inner) &&& t = 0
      · simp only [h0, bne_self_eq_false, Bool.false_eq_true, if_false]
        by_cases hin : SIArray_ContainsType_loop inner t = true
        · simp only [hin, if_true, true_iff]
          obtain ⟨v, hv, hvt⟩ := h1.mp hin
          exact ⟨v, Or.inr (Or.inl hv), hvt⟩
        · simp only [hin, Bool.false_eq_true, if_false, h2]
          constructor
          · rintro ⟨v, hv, hvt⟩
            exact ⟨v, Or.inr (Or.inr hv), hvt⟩
          · rintro ⟨v, hv | hv | hv, hvt⟩
            · subst hv; exact absurd h0 hvt
            · exact absurd (h1.mpr ⟨v, hv, hvt⟩) hin
            · exact ⟨v, hv, hvt⟩
      · have hb : (SI_TYPE (.SI_Array inner) &&& t != 0) = true := by simpa using h0
        simp only [hb, if_true, true_iff]
        exact ⟨_, Or.inl rfl, h0⟩
    | _ =>
      simp only [SIArray_ContainsType_loop, nested_values, nested_values_of, List.nil_append,
        List.mem_cons]
      split
      · rename_i hb
        simp only [true_iff]
        exact ⟨_, Or.inl rfl, by simpa using hb⟩
      · rename_i hb
        rw [h2]
        constructor
        · rintro ⟨v, hv, hvt⟩
          exact ⟨v, Or.inr hv, hvt⟩
        · rintro ⟨v, hv | hv, hvt⟩
          · subst hv; exact absurd (by simpa using hvt) hb
          · exact ⟨v, hv, hvt⟩

theorem nested_values_mem (v : SIValue) :
    ∀ (A : List SIValue), v ∈ nested_values A ↔
      v ∈ A ∨ ∃ inner, SIValue.SI_Array inner ∈ A ∧ v ∈ nested_values inner := by
  intro A
  induction A with
  | nil => simp [nested_values]
  | cons e rest ih =>
    simp only [nested_values, List.mem_cons, List.mem_append, ih]
    constructor
    · rintro (h | h | h | ⟨inner, h1, h2⟩)
      · exact Or.inl (Or.inl h)
      · cases e with
        | SI_Array inner => exact Or.inr ⟨inner, Or.inl rfl, by simpa [nested_values_of] using h⟩
        | _ => simp [nested_values_of] at h
      · exact Or.inl (Or.inr h)
      · exact Or.inr ⟨inner, Or.inr h1, h2⟩
    · rintro ((h | h) | ⟨inner, h1 | h1, h2⟩)
      · exact Or.inl h
      · exact Or.inr (Or.inr (Or.inl h))
      · subst h1
        exact Or.inr (Or.inl (by simpa [nested_values_of] using h2))
      · exact Or.inr (Or.inr (Or.inr ⟨inner, h1, h2⟩))

/-- C25: `SIArray_ContainsType(A, t)` is true exactly when some value reachable
from `A` by descending through nested arrays to any depth has a type that
shares a bit with `t`; the reachable values are the elements of `A` and the
values reachable from the array elements of `A`.  It is false for the empty
array, and it is a total function: the recursion is on the nesting of the
array.  In `[[["s"]], 4]` it finds the string two arrays down, which the
shallow `SIArray_AllOfType` and a test of the elements alone do not see. -/
theorem C25_contains_type_descends (A : List SIValue) (t : SIType) :
    (SIArray_ContainsType (.SI_Array A) t = true ↔
      ∃ v ∈ nested_values A, SI_TYPE v &&& t ≠ 0) ∧
    (∀ v, v ∈ nested_values A ↔
      v ∈ A ∨ ∃ inner, SIValue.SI_Array inner ∈ A ∧ v ∈ nested_values inner) ∧
    SIArray_ContainsType (.SI_Array []) t = false ∧
    SIArray_ContainsType (.SI_Array Demo.deep_array) T_STRING = true ∧
    Demo.deep_array.any (fun e => SI_TYPE e &&& T_STRING != 0) = false ∧
    SIArray_ContainsType (.SI_Array Demo.deep_array) T_BOOL = false := by
  refine ⟨?_, fun v => nested_values_mem v A, ?_, by decide, by decide, by decide⟩
  · have h := SIArray_ContainsType_loop_iff t A
    simpa only [SIArray_ContainsType] using h
  · simp [SIArray_ContainsType, SIArray_ContainsType_loop]

theorem SIArray_HashCode_loop (V : ValueEnv) :
    ∀ (A : List SIValue) (h : Nat),
      A.foldl (fun hashCode value => (31 * hashCode + V.SIValue_HashCode value) % 2 ^ 64) h
        = combine_hashes h (A.map V.SIValue_HashCode) := by
  intro A
  induction A with
  | nil => intro h; rfl
  | cons a A ih => intro h; simp only [List.foldl_cons, List.map_cons, combine_hashes, ih]

theorem combine_hashes_lt : ∀ (es : List Nat) (h : Nat), h < 2 ^ 64 →
    combine_hashes h es < 2 ^ 64 := by
  intro es
  induction es with
  | nil => intro h hh; simpa [combine_hashes] using hh
  | cons e es ih =>
    intro h _
    simp only [combine_hashes]
    exact ih _ (Nat.mod_lt _ (by norm_num))

theorem combine_hashes_polynomial : ∀ (es : List Nat) (h : Nat), h < 2 ^ 64 →
    combine_hashes h es = (h * 31 ^ es.length + hash_polynomial es) % 2 ^ 64 := by
  intro es
  induction es with
  | nil =>
    intro h hh
    simp only [combine_hashes, hash_polynomial, List.length_nil, pow_zero, Nat.mul_one,
      Nat.add_zero]
    exact (Nat.mod_eq_of_lt hh).symm
  | cons e es ih =>
    intro h _
    simp only [combine_hashes, hash_polynomial, List.length_cons]
    rw [ih _ (Nat.mod_lt _ (by norm_num))]
    have h1 : ((31 * h + e) % 2 ^ 64 * 31 ^ es.length + hash_polynomial es) % 2 ^ 64
        = ((31 * h + e) * 31 ^ es.length + hash_polynomial es) % 2 ^ 64 := by
      rw [Nat.add_mod, Nat.mul_mod, Nat.mod_mod, ← Nat.mul_mod, ← Nat.add_mod]
    rw [h1]
    congr 1
    ring

/-- C26: `SIArray_HashCode(A)` is the left fold over the elements of `A`, in
index order, of `h -> (31 * h + SIValue_HashCode(e)) mod 2^64`, started from
the XXH64 hash of the array type discriminator.  The hash of the empty array
is the seed; two arrays of equal length whose elements have pairwise equal
hash codes have equal hash codes; and for a 64-bit seed the hash is the seed
times `31^n` plus the polynomial of the element hashes, modulo `2^64`. -/
theorem C26_hash_is_fold_of_31 (V : ValueEnv) (A B : List SIValue) :
    SIArray_HashCode V (.SI_Array A)
      = combine_hashes V.XXH64_T_ARRAY (A.map V.SIValue_HashCode) ∧
    SIArray_HashCode V (.SI_Array []) = V.XXH64_T_ARRAY ∧
    (List.Forall₂ (fun a b => V.SIValue_HashCode a = V.SIValue_HashCode b) A B →
      SIArray_HashCode V (.SI_Array A) = SIArray_HashCode V (.SI_Array B)) ∧
    (V.XXH64_T_ARRAY < 2 ^ 64 →
      SIArray_HashCode V (.SI_Array A) < 2 ^ 64 ∧
      SIArray_HashCode V (.SI_Array A)
        = (V.XXH64_T_ARRAY * 31 ^ A.length
            + hash_polynomial (A.map V.SIValue_HashCode)) % 2 ^ 64) := by
  have hfold : ∀ l : List SIValue, SIArray_HashCode V (.SI_Array l)
      = combine_hashes V.XXH64_T_ARRAY (l.map V.SIValue_HashCode) :=
    fun l => SIArray_HashCode_loop V l V.XXH64_T_ARRAY
  refine ⟨hfold A, rfl, ?_, ?_⟩
  · intro hAB
    rw [hfold A, hfold B]
    congr 1
    induction hAB with
    | nil => rfl
    | cons h _ ih => simp only [List.map_cons, h, ih]
  · intro hseed
    rw [hfold A]
    refine ⟨combine_hashes_lt _ _ hseed, ?_⟩
    rw [combine_hashes_polynomial _ _ hseed, List.length_map]

/-- C27: `SIArray_Get(A, i)` is the Null value when `i >= SIArray_Length(A)`
and otherwise the `i`-th element, shared; after `SIArray_Append(A, v)` the
length is one greater, `SIArray_Get` at the old length is `v` (its clone), and
`SIArray_Get` at every smaller index is what it was. -/
theorem C27_get_and_append (A : List SIValue) (v : SIValue) (i : Nat) :
    (i ≥ SIArray_Length (.SI_Array A) → SIArray_Get (.SI_Array A) i = .SI_NullVal) ∧
    (∀ h : i < A.length, SIArray_Get (.SI_Array A) i = SI_ShareValue (A.get ⟨i, h⟩)) ∧
    SIArray_Length (SIArray_Append (.SI_Array A) v) = SIArray_Length (.SI_Array A) + 1 ∧
    SIArray_Get (SIArray_Append (.SI_Array A) v) (SIArray_Length (.SI_Array A))
      = SI_CloneValue v ∧
    SI_CloneValue v = v ∧
    (i < SIArray_Length (.SI_Array A) →
      SIArray_Get (SIArray_Append (.SI_Array A) v) i = SIArray_Get (.SI_Array A) i) := by
  refine ⟨?_, ?_, ?_, ?_, rfl, ?_⟩
  · intro h
    simp only [SIArray_Get, if_pos h]
  · intro h
    have hn : ¬ i ≥ SIArray_Length (.SI_Array A) := by
      simp only [SIArray_Length, SIValue.array]; omega
    simp only [SIArray_Get, if_neg hn, SIValue.array, List.getElem?_eq_getElem h,
      List.get_eq_getElem]
  · simp [SIArray_Length, SIArray_Append, SIValue.array]
  · simp [SIArray_Get, SIArray_Length, SIArray_Append, SIValue.array, SI_CloneValue,
      SI_ShareValue]
  · intro h
    simp only [SIArray_Length, SIValue.array] at h
    have h1 : ¬ i ≥ SIArray_Length (.SI_Array (A ++ [SI_CloneValue v])) := by
      simp only [SIArray_Length, SIValue.array, List.length_append,
        List.length_singleton]; omega
    have h2 : ¬ i ≥ SIArray_Length (.SI_Array A) := by
      simp only [SIArray_Length, SIValue.array]; omega
    simp only [SIArray_Get, SIArray_Append, SIValue.array, if_neg h1, if_neg h2,
      List.getElem?_append_left h]

end ArrayAccess

/-! ## Map builders -/

section MapArity

theorem AR_TOMAP_loop_raises (argv : List SIValue) (argc : Nat) :
    ∀ (fuel i : Nat) (map : SIValue) (ctx : ErrorCtx),
      ∃ tail, (AR_TOMAP_loop argv argc fuel i map ctx).1 = ctx ++ tail ∧
        runtime_exceptions tail = [] := by
  intro fuel
  induction fuel with
  | zero =>
    intro i map ctx
    refine ⟨[], ?_, rfl⟩
    simp only [AR_TOMAP_loop]
    split <;> simp
  | succ fuel ih =>
    intro i map ctx
    simp only [AR_TOMAP_loop]
    split
    · split
      · split
        · exact ⟨[.type_mismatch _ _], rfl, rfl⟩
        · split
          · exact ih _ _ _
          · exact ⟨[], by simp, rfl⟩
      · exact ⟨[], by simp, rfl⟩
    · exact ⟨[], by simp, rfl⟩

theorem AR_FROMLIST_loop_raises (F : StringFuncs) (list : SIValue) (arrayLen : Nat) :
    ∀ (fuel i : Nat) (map : SIValue) (ctx : ErrorCtx),
      ∃ tail, (AR_FROMLIST_loop F list arrayLen fuel i map ctx).1 = ctx ++ tail ∧
        runtime_exceptions tail = [] := by
  intro fuel
  induction fuel with
  | zero =>
    intro i map ctx
    refine ⟨[], ?_, rfl⟩
    simp only [AR_FROMLIST_loop]
    split <;> simp
  | succ fuel ih =>
    intro i map ctx
    simp only [AR_FROMLIST_loop]
    split
    · split
      · exact ih _ _ _
      · split
        · exact ⟨[.type_mismatch _ _], rfl, rfl⟩
        · split
          · exact ⟨[], by simp, rfl⟩
          · exact ih _ _ _
    · exact ⟨[], by simp, rfl⟩

theorem AR_FROMTWOLISTS_loop_raises (F : StringFuncs) (keys vals : SIValue) (keyCount : Nat) :
    ∀ (fuel i : Nat) (map : SIValue) (ctx : ErrorCtx),
      ∃ tail, (AR_FROMTWOLISTS_loop F keys vals keyCount fuel i map ctx).1 = ctx ++ tail ∧
        runtime_exceptions tail = [] := by
  intro fuel
  induction fuel with
  | zero =>
    intro i map ctx
    refine ⟨[], ?_, rfl⟩
    simp only [AR_FROMTWOLISTS_loop]
    split <;> simp
  | succ fuel ih =>
    intro i map ctx
    simp only [AR_FROMTWOLISTS_loop]
    split
    · split
      · exact ih _ _ _
      · split
        · exact ⟨[.type_mismatch _ _], rfl, rfl⟩
        · split
          · exact ⟨[], by simp, rfl⟩
          · exact ih _ _ _
    · exact ⟨[], by simp, rfl⟩

/-- C22: each map builder raises the runtime-exception condition exactly on an
arity violation.  The runtime exceptions a call adds to the channel are: for
`AR_TOMAP` its message when the number of arguments is odd and nothing
otherwise; for `AR_FROMLIST` its message when the length of the list is odd
and nothing otherwise; for `AR_FROMTWOLISTS` its message when the two lists
differ in length and nothing otherwise. -/
theorem C22_arity_violation_raises_runtime_exception (F : StringFuncs) (ctx : ErrorCtx)
    (argv : List SIValue) (base : List (String × SIValue)) (list keys vals : List SIValue) :
    runtime_exceptions (AR_TOMAP argv ctx).1
      = runtime_exceptions ctx ++
        (if argv.length % 2 = 1 then
          [.runtime_exception "map expects even number of elements"] else []) ∧
    runtime_exceptions (AR_FROMLIST F [.SI_Map base, .SI_Array list] ctx).1
      = runtime_exceptions ctx ++
        (if list.length % 2 = 1 then
          [.runtime_exception "List containing keyStr and values expects even number of elements"]
         else []) ∧
    runtime_exceptions (AR_FROMTWOLISTS F [.SI_Map base, .SI_Array keys, .SI_Array vals] ctx).1
      = runtime_exceptions ctx ++
        (if keys.length ≠ vals.length then
          [.runtime_exception "Number of keys must be equal to the number of values"]
         else []) := by
  refine ⟨?_, ?_, ?_⟩
  · obtain ⟨tail, h, ht⟩ := AR_TOMAP_loop_raises argv argv.length argv.length 0 (.SI_Map [])
      (if argv.length % 2 != 0 then
        ErrorCtx_RaiseRuntimeException ctx "map expects even number of elements" else ctx)
    simp only [AR_TOMAP, h, runtime_exceptions, List.filter_append] at ht ⊢
    rw [ht]
    by_cases hodd : argv.length % 2 = 1
    · have hb : (argv.length % 2 != 0) = true := by simp [hodd]
      simp [hb, hodd, ErrorCtx_RaiseRuntimeException, Condition.is_runtime_exception]
    · have h0 : argv.length % 2 = 0 := by omega
      simp [h0]
  · by_cases hzero : list.length = 0
    · have hnil : list = [] := List.length_eq_zero.mp hzero
      subst hnil
      simp [AR_FROMLIST, SI_TYPE, SIArray_Length, SIValue.array]
    · obtain ⟨tail, h, ht⟩ := AR_FROMLIST_loop_raises F (.SI_Array list) list.length list.length 0
        (Map_Clone (.SI_Map base))
        (if list.length % 2 != 0 then
          ErrorCtx_RaiseRuntimeException ctx
            "List containing keyStr and values expects even number of elements" else ctx)
      simp only [AR_FROMLIST, SI_TYPE, SIArray_Length, SIValue.array, and_self, if_true, hzero,
        if_false, h, runtime_exceptions, List.filter_append] at ht ⊢
      rw [ht]
      by_cases hodd : list.length % 2 = 1
      · have hb : (list.length % 2 != 0) = true := by simp [hodd]
        simp [hb, hodd, ErrorCtx_RaiseRuntimeException, Condition.is_runtime_exception]
      · have h0 : list.length % 2 = 0 := by omega
        simp [h0]
  · obtain ⟨tail, h, ht⟩ := AR_FROMTWOLISTS_loop_raises F (.SI_Array keys) (.SI_Array vals)
      keys.length keys.length 0 (Map_Clone (.SI_Map base))
      (if keys.length ≠ vals.length then
        ErrorCtx_RaiseRuntimeException ctx
          "Number of keys must be equal to the number of values" else ctx)
    simp only [AR_FROMTWOLISTS, SI_TYPE, SIArray_Length, SIValue.array, and_self, if_true,
      h, runtime_exceptions, List.filter_append] at ht ⊢
    rw [ht]
    by_cases hne : keys.length = vals.length
    · simp [hne]
    · simp [hne, ErrorCtx_RaiseRuntimeException, Condition.is_runtime_exception]

end MapArity

section MapLoops

theorem SIArray_Get_of_lt (l : List SIValue) (i : Nat) (h : i < l.length) :
    SIArray_Get (.SI_Array l) i = l[i] := by
  have hn : ¬ i ≥ SIArray_Length (.SI_Array l) := by
    simp only [SIArray_Length, SIValue.array]; omega
  simp only [SIArray_Get, if_neg hn, SIValue.array, List.getElem?_eq_getElem h, SI_ShareValue]

/-- The loop of `AR_FROMLIST` over a list of even length processes the pairs
of the list in order; the iteration bound `arrayLen` is never used up. -/
theorem AR_FROMLIST_loop_eq (F : StringFuncs) (list : List SIValue) :
    ∀ (fuel i : Nat) (map : SIValue) (ctx : ErrorCtx),
      i ≤ list.length → (list.length - i) % 2 = 0 → list.length - i ≤ 2 * fuel →
      AR_FROMLIST_loop F (.SI_Array list) list.length fuel i map ctx
        = update_from_pairs F (list_pairs (list.drop i)) map ctx := by
  intro fuel
  induction fuel with
  | zero =>
    intro i map ctx hi _ hf
    have hil : i = list.length := by omega
    subst hil
    simp [AR_FROMLIST_loop, list_pairs, update_from_pairs]
  | succ fuel ih =>
    intro i map ctx hi hpar hf
    by_cases hlt : i < list.length
    · have hlt1 : i + 1 < list.length := by omega
      have hdrop : list.drop i = list[i] :: list[i + 1] :: list.drop (i + 2) := by
        rw [List.drop_eq_getElem_cons hlt, List.drop_eq_getElem_cons hlt1]
      have ih2 := fun m c => ih (i + 2) m c (by omega) (by omega) (by omega)
      simp only [AR_FROMLIST_loop, if_pos hlt, hdrop, list_pairs, update_from_pairs,
        SIArray_Get_of_lt list i hlt, SIArray_Get_of_lt list (i + 1) hlt1, ih2]
    · have hil : i = list.length := by omega
      subst hil
      simp [AR_FROMLIST_loop, list_pairs, update_from_pairs]

/-- The loop of `AR_FROMTWOLISTS` over two lists of the same length processes
the pairs of a key and the value at the same index in order. -/
theorem AR_FROMTWOLISTS_loop_eq (F : StringFuncs) (keys vals : List SIValue)
    (hlen : keys.length = vals.length) :
    ∀ (fuel i : Nat) (map : SIValue) (ctx : ErrorCtx),
      i ≤ keys.length → keys.length - i ≤ fuel →
      AR_FROMTWOLISTS_loop F (.SI_Array keys) (.SI_Array vals) keys.length fuel i map ctx
        = update_from_pairs F ((keys.drop i).zip (vals.drop i)) map ctx := by
  intro fuel
  induction fuel with
  | zero =>
    intro i map ctx hi hf
    have hil : i = keys.length := by omega
    subst hil
    simp [AR_FROMTWOLISTS_loop, update_from_pairs]
  | succ fuel ih =>
    intro i map ctx hi hf
    by_cases hlt : i < keys.length
    · have hltv : i < vals.length := by omega
      have hdk : keys.drop i = keys[i] :: keys.drop (i + 1) := List.drop_eq_getElem_cons hlt
      have hdv : vals.drop i = vals[i] :: vals.drop (i + 1) := List.drop_eq_getElem_cons hltv
      have ih2 := fun m c => ih (i + 1) m c (by omega) (by omega)
      simp only [AR_FROMTWOLISTS_loop, if_pos hlt, hdk, hdv, List.zip_cons_cons,
        update_from_pairs, SIArray_Get_of_lt keys i hlt, SIArray_Get_of_lt vals i hltv, ih2]
    · have hil : i = keys.length := by omega
      subst hil
      simp [AR_FROMTWOLISTS_loop, update_from_pairs]

theorem list_pairs_interleave :
    ∀ (keys vals : List SIValue), list_pairs (interleave keys vals) = keys.zip vals := by
  intro keys
  induction keys with
  | nil => intro vals; simp [interleave, list_pairs]
  | cons k keys ih =>
    intro vals
    cases vals with
    | nil => simp [interleave, list_pairs]
    | cons v vals => simp [interleave, list_pairs, ih]

theorem interleave_length :
    ∀ (keys vals : List SIValue), keys.length = vals.length →
      (interleave keys vals).length = 2 * keys.length := by
  intro keys
  induction keys with
  | nil => intro vals _; simp [interleave]
  | cons k keys ih =>
    intro vals h
    cases vals with
    | nil => simp at h
    | cons v vals =>
      simp only [List.length_cons, Nat.add_right_cancel_iff] at h
      simp only [interleave, List.length_cons, ih vals h]
      omega

/-- `AR_FROMLIST` on a list of even length. -/
theorem AR_FROMLIST_even (F : StringFuncs) (base : List (String × SIValue))
    (list : List SIValue) (ctx : ErrorCtx) (heven : list.length % 2 = 0) :
    AR_FROMLIST F [.SI_Map base, .SI_Array list] ctx
      = update_from_pairs F (list_pairs list) (.SI_Map base) ctx := by
  by_cases hzero : list.length = 0
  · have hnil : list = [] := List.length_eq_zero.mp hzero
    subst hnil
    simp [AR_FROMLIST, SI_TYPE, SIArray_Length, SIValue.array, list_pairs, update_from_pairs]
  · have h := AR_FROMLIST_loop_eq F list list.length 0 (.SI_Map base) ctx (by omega)
      (by simpa using heven) (by omega)
    have hb : (list.length % 2 != 0) = false := by simp [heven]
    simp only [AR_FROMLIST, SI_TYPE, SIArray_Length, SIValue.array, and_self, if_true, hzero,
      if_false, hb, Bool.false_eq_true, Map_Clone, SIValue.pairs]
    simpa using h

/-- `AR_FROMTWOLISTS` on two lists of the same length. -/
theorem AR_FROMTWOLISTS_same_length (F : StringFuncs) (base : List (String × SIValue))
    (keys vals : List SIValue) (ctx : ErrorCtx) (hlen : keys.length = vals.length) :
    AR_FROMTWOLISTS F [.SI_Map base, .SI_Array keys, .SI_Array vals] ctx
      = update_from_pairs F (keys.zip vals) (.SI_Map base) ctx := by
  have h := AR_FROMTWOLISTS_loop_eq F keys vals hlen keys.length 0 (.SI_Map base) ctx
    (by omega) (by omega)
  simp only [AR_FROMTWOLISTS, SI_TYPE, SIArray_Length, SIValue.array, and_self, if_true,
    hlen, ne_eq, not_true_eq_false, if_false, Map_Clone, SIValue.pairs]
  rw [hlen] at h
  simpa using h

end MapLoops

section MapFromList

theorem update_from_pairs_string_keys (F : StringFuncs) :
    ∀ (ps : List (SIValue × SIValue)) (map : SIValue) (ctx : ErrorCtx),
      (∀ p ∈ ps, SI_TYPE p.1 = T_STRING ∨ SI_TYPE p.1 = T_NULL) →
      update_from_pairs F ps map ctx = (ctx, .ok (ps.foldl process_pair map)) := by
  intro ps
  induction ps with
  | nil => intro map ctx _; rfl
  | cons p ps ih =>
    intro map ctx h
    obtain ⟨key, val⟩ := p
    have hrest : ∀ q ∈ ps, SI_TYPE q.1 = T_STRING ∨ SI_TYPE q.1 = T_NULL :=
      fun q hq => h q (List.mem_cons_of_mem _ hq)
    have hkey := h (key, val) (List.mem_cons_self _ _)
    cases key with
    | SI_ConstStringVal s =>
      have hn : ¬ SI_TYPE (.SI_ConstStringVal s) = T_NULL := by
        simp only [SI_TYPE]; decide
      simp only [update_from_pairs, if_neg hn, SI_TYPE, ne_eq, not_true_eq_false, if_false,
        SIValue.stringval, List.foldl_cons, process_pair]
      exact ih _ _ hrest
    | SI_NullVal =>
      simp only [update_from_pairs, SI_TYPE, if_true, List.foldl_cons, process_pair]
      exact ih _ _ hrest
    | _ =>
      exfalso
      rcases hkey with h1 | h1 <;> simp only [SI_TYPE] at h1 <;> exact absurd h1 (by decide)

theorem filter_lookup (k : String) :
    ∀ (m : List (String × SIValue)) (k' : String),
      (m.filter (fun p => !(p.1 == k))).lookup k' = if k' = k then none else m.lookup k' := by
  intro m
  induction m with
  | nil => intro k'; simp [List.lookup]
  | cons p m ih =>
    intro k'
    obtain ⟨k0, v0⟩ := p
    by_cases h0 : k0 = k
    · subst h0
      have hb : (!(k0 == k0)) = false := by simp
      rw [List.filter_cons, if_neg (by simp), ih, lookup_cons_if]
      by_cases h : k' = k0 <;> simp [h]
    · have hb : (!(k0 == k)) = true := by simpa using h0
      rw [List.filter_cons, if_pos hb, lookup_cons_if, lookup_cons_if, ih]
      by_cases h : k' = k0
      · have hk : ¬ k' = k := fun e => h0 (h ▸ e)
        simp [h, hk, h0]
      · simp [h]

/-- C21: for a base map and a list `[k1, v1, ..., kn, vn]` of even length whose
keys are strings or null, `AR_FROMLIST(base, list)` raises nothing and returns
the result of processing the pairs in list order starting from the base map,
where a pair with a null key is skipped, a pair with a null value removes the
key and a pair with a non-null value sets the key to the value: after
`Map_Remove` the key has no value, after `Map_Add` it has the new value, and
every other key keeps its value.  An empty list returns the base map. -/
theorem C21_fromlist_processes_pairs_in_order (F : StringFuncs)
    (base : List (String × SIValue)) (list : List SIValue) (ctx : ErrorCtx)
    (heven : list.length % 2 = 0)
    (hkeys : ∀ p ∈ list_pairs list, SI_TYPE p.1 = T_STRING ∨ SI_TYPE p.1 = T_NULL) :
    AR_FROMLIST F [.SI_Map base, .SI_Array list] ctx
      = (ctx, .ok ((list_pairs list).foldl process_pair (.SI_Map base))) ∧
    (∀ (m : List (String × SIValue)) (k : String) (v : SIValue) (k' : String),
      (Map_Add (.SI_Map m) k v).pairs.lookup k' = if k' = k then some v else m.lookup k') ∧
    (∀ (m : List (String × SIValue)) (k k' : String),
      (Map_Remove (.SI_Map m) k).pairs.lookup k' = if k' = k then none else m.lookup k') ∧
    AR_FROMLIST F [.SI_Map base, .SI_Array []] ctx = (ctx, .ok (.SI_Map base)) := by
  refine ⟨?_, ?_, ?_, rfl⟩
  · rw [AR_FROMLIST_even F base list ctx heven]
    exact update_from_pairs_string_keys F _ _ _ hkeys
  · intro m k v k'
    exact Map_Add_pairs_lookup k v m k'
  · intro m k k'
    exact filter_lookup k m k'

/-- C30: for a base map and two lists `keys` and `vals` of the same length,
`AR_FROMTWOLISTS(base, keys, vals)` gives the same map, or the same fault, and
leaves the same conditions on the error channel as `AR_FROMLIST` applied to
the base map and the interleaved list `[keys[0], vals[0], keys[1], ...]`,
whose pairs are the pairs of a key and the value at the same index. -/
theorem C30_fromtwolists_is_fromlist_of_interleaved (F : StringFuncs)
    (base : List (String × SIValue)) (keys vals : List SIValue) (ctx : ErrorCtx)
    (hlen : keys.length = vals.length) :
    AR_FROMTWOLISTS F [.SI_Map base, .SI_Array keys, .SI_Array vals] ctx
      = AR_FROMLIST F [.SI_Map base, .SI_Array (interleave keys vals)] ctx ∧
    (interleave keys vals).length = 2 * keys.length ∧
    list_pairs (interleave keys vals) = keys.zip vals := by
  refine ⟨?_, interleave_length keys vals hlen, list_pairs_interleave keys vals⟩
  rw [AR_FROMTWOLISTS_same_length F base keys vals ctx hlen,
    AR_FROMLIST_even F base (interleave keys vals) ctx
      (by rw [interleave_length keys vals hlen]; omega),
    list_pairs_interleave]

end MapFromList

section MapToMap

theorem lookup_append (k : String) :
    ∀ (l1 l2 : List (String × SIValue)),
      (l1 ++ l2).lookup k = (match l1.lookup k with
        | some v => some v
        | none => l2.lookup k) := by
  intro l1
  induction l1 with
  | nil => intro l2; rfl
  | cons p l1 ih =>
    intro l2
    obtain ⟨k0, v0⟩ := p
    rw [List.cons_append, lookup_cons_if, lookup_cons_if, ih]
    by_cases h : k = k0 <;> simp [h]

/-- Adding pairs one after the other: every key has the value of its last
occurrence, or the value it had. -/
theorem Map_Add_pairs_foldl_last :
    ∀ (l m : List (String × SIValue)),
      (∀ k, (l.foldl (fun m p => Map_Add_pairs m p.1 p.2) m).lookup k
        = (match l.reverse.lookup k with
          | some v => some v
          | none => m.lookup k)) ∧
      ((m.map Prod.fst).Nodup →
        ((l.foldl (fun m p => Map_Add_pairs m p.1 p.2) m).map Prod.fst).Nodup) := by
  intro l
  induction l with
  | nil => intro m; simp [List.lookup]
  | cons p l ih =>
    intro m
    obtain ⟨k0, v0⟩ := p
    obtain ⟨h1, h2⟩ := ih (Map_Add_pairs m k0 v0)
    simp only [List.foldl_cons]
    refine ⟨?_, fun hm => h2 (Map_Add_pairs_nodup k0 v0 m hm)⟩
    intro k
    rw [h1 k, Map_Add_pairs_lookup, List.reverse_cons, lookup_append, lookup_cons_if]
    cases l.reverse.lookup k with
    | some v => rfl
    | none => by_cases h : k = k0 <;> simp [h, List.lookup]

/-- The loop of `AR_TOMAP` over an argument array of even length adds the pairs
before the first key that is not a string and raises the type mismatch for
that key; the iteration bound `argc` is never used up. -/
theorem AR_TOMAP_loop_eq (argv : List SIValue) :
    ∀ (fuel i : Nat) (m : List (String × SIValue)) (ctx : ErrorCtx),
      i ≤ argv.length → (argv.length - i) % 2 = 0 → argv.length - i ≤ 2 * fuel →
      AR_TOMAP_loop argv argv.length fuel i (.SI_Map m) ctx
        = (ctx ++ (match first_non_string_key (list_pairs (argv.drop i)) with
              | some k => [.type_mismatch k T_STRING]
              | none => []),
           .ok (.SI_Map ((pairs_before_mismatch (list_pairs (argv.drop i))).foldl
             (fun m p => Map_Add_pairs m p.1 p.2) m))) := by
  intro fuel
  induction fuel with
  | zero =>
    intro i m ctx hi _ hf
    have hil : i = argv.length := by omega
    subst hil
    simp [AR_TOMAP_loop, list_pairs, first_non_string_key, pairs_before_mismatch]
  | succ fuel ih =>
    intro i m ctx hi hpar hf
    by_cases hlt : i < argv.length
    · have hlt1 : i + 1 < argv.length := by omega
      have hdrop : argv.drop i = argv[i] :: argv[i + 1] :: argv.drop (i + 2) := by
        rw [List.drop_eq_getElem_cons hlt, List.drop_eq_getElem_cons hlt1]
      have ih2 := fun m c => ih (i + 2) m c (by omega) (by omega) (by omega)
      simp only [AR_TOMAP_loop, if_pos hlt, hdrop, list_pairs, List.getElem?_eq_getElem hlt,
        List.getElem?_eq_getElem hlt1]
      cases argv[i] with
      | SI_ConstStringVal s =>
        have hs : ¬ (T_STRING &&& T_STRING = 0) := by decide
        simp only [SI_TYPE, if_neg hs, SIValue.stringval, Map_Add, SIValue.pairs, ih2,
          first_non_string_key, pairs_before_mismatch, List.foldl_cons]
      | SI_NullVal =>
        have hs : T_NULL &&& T_STRING = 0 := by decide
        simp [SI_TYPE, hs, first_non_string_key, pairs_before_mismatch, Error_SITypeMismatch]
      | SI_BoolVal b =>
        have hs : T_BOOL &&& T_STRING = 0 := by decide
        simp [SI_TYPE, hs, first_non_string_key, pairs_before_mismatch, Error_SITypeMismatch]
      | SI_LongVal n =>
        have hs : T_INT64 &&& T_STRING = 0 := by decide
        simp [SI_TYPE, hs, first_non_string_key, pairs_before_mismatch, Error_SITypeMismatch]
      | SI_DoubleVal n =>
        have hs : T_DOUBLE &&& T_STRING = 0 := by decide
        simp [SI_TYPE, hs, first_non_string_key, pairs_before_mismatch, Error_SITypeMismatch]
      | SI_Array n =>
        have hs : T_ARRAY &&& T_STRING = 0 := by decide
        simp [SI_TYPE, hs, first_non_string_key, pairs_before_mismatch, Error_SITypeMismatch]
      | SI_Map n =>
        have hs : T_MAP &&& T_STRING = 0 := by decide
        simp [SI_TYPE, hs, first_non_string_key, pairs_before_mismatch, Error_SITypeMismatch]
      | SI_Node n =>
        have hs : T_NODE &&& T_STRING = 0 := by decide
        simp [SI_TYPE, hs, first_non_string_key, pairs_before_mismatch, Error_SITypeMismatch]
      | SI_Edge n =>
        have hs : T_EDGE &&& T_STRING = 0 := by decide
        simp [SI_TYPE, hs, first_non_string_key, pairs_before_mismatch, Error_SITypeMismatch]
    · have hil : i = argv.length := by omega
      subst hil
      simp [AR_TOMAP_loop, list_pairs, first_non_string_key, pairs_before_mismatch]

theorem first_non_string_key_facts :
    ∀ (ps : List (SIValue × SIValue)),
      ((first_non_string_key ps).isSome = true ↔ ∃ p ∈ ps, SI_TYPE p.1 &&& T_STRING = 0) ∧
      (pairs_before_mismatch ps).map (fun p => (SIValue.SI_ConstStringVal p.1, p.2))
        = ps.takeWhile (fun p => SI_TYPE p.1 &&& T_STRING != 0) := by
  intro ps
  induction ps with
  | nil => simp [first_non_string_key, pairs_before_mismatch]
  | cons p ps ih =>
    obtain ⟨key, val⟩ := p
    obtain ⟨ih1, ih2⟩ := ih
    cases key with
    | SI_ConstStringVal s =>
      have hs : ¬ (T_STRING &&& T_STRING = 0) := by decide
      have hb : (T_STRING &&& T_STRING != 0) = true := by decide
      simp only [first_non_string_key, pairs_before_mismatch, ih1, List.mem_cons, List.map_cons,
        List.takeWhile_cons, SI_TYPE, hb, if_true, ih2, and_true]
      constructor
      · rintro ⟨p, hp, hpt⟩
        exact ⟨p, Or.inr hp, hpt⟩
      · rintro ⟨p, hp | hp, hpt⟩
        · subst hp; exact absurd hpt hs
        · exact ⟨p, hp, hpt⟩
    | SI_NullVal =>
      have hs : T_NULL &&& T_STRING = 0 := by decide
      exact ⟨by simp [first_non_string_key, SI_TYPE, hs],
        by simp [pairs_before_mismatch, SI_TYPE, hs]⟩
    | SI_BoolVal b =>
      have hs : T_BOOL &&& T_STRING = 0 := by decide
      exact ⟨by simp [first_non_string_key, SI_TYPE, hs],
        by simp [pairs_before_mismatch, SI_TYPE, hs]⟩
    | SI_LongVal n =>
      have hs : T_INT64 &&& T_STRING = 0 := by decide
      exact ⟨by simp [first_non_string_key, SI_TYPE, hs],
        by simp [pairs_before_mismatch, SI_TYPE, hs]⟩
    | SI_DoubleVal n =>
      have hs : T_DOUBLE &&& T_STRING = 0 := by decide
      exact ⟨by simp [first_non_string_key, SI_TYPE, hs],
        by simp [pairs_before_mismatch, SI_TYPE, hs]⟩
    | SI_Array n =>
      have hs : T_ARRAY &&& T_STRING = 0 := by decide
      exact ⟨by simp [first_non_string_key, SI_TYPE, hs],
        by simp [pairs_before_mismatch, SI_TYPE, hs]⟩
    | SI_Map n =>
      have hs : T_MAP &&& T_STRING = 0 := by decide
      exact ⟨by simp [first_non_string_key, SI_TYPE, hs],
        by simp [pairs_before_mismatch, SI_TYPE, hs]⟩
    | SI_Node n =>
      have hs : T_NODE &&& T_STRING = 0 := by decide
      exact ⟨by simp [first_non_string_key, SI_TYPE, hs],
        by simp [pairs_before_mismatch, SI_TYPE, hs]⟩
    | SI_Edge n =>
      have hs : T_EDGE &&& T_STRING = 0 := by decide
      exact ⟨by simp [first_non_string_key, SI_TYPE, hs],
        by simp [pairs_before_mismatch, SI_TYPE, hs]⟩

/-- C23: for an argument list of even length, `AR_TOMAP` raises no runtime
exception, raises the type mismatch, once and for the first key that is not a
string, exactly when some key is not a string, and returns the map built from
the pairs before that key alone (all pairs when every key is a string); in
the map every key has the value of its last occurrence among these pairs, and
the keys are distinct. -/
theorem C23_tomap_type_mismatch_on_first_non_string_key (argv : List SIValue) (ctx : ErrorCtx)
    (heven : argv.length % 2 = 0) :
    ∃ m : List (String × SIValue),
      AR_TOMAP argv ctx
        = (ctx ++ (match first_non_string_key (list_pairs argv) with
              | some k => [.type_mismatch k T_STRING]
              | none => []),
           .ok (.SI_Map m)) ∧
      ((first_non_string_key (list_pairs argv)).isSome = true ↔
        ∃ p ∈ list_pairs argv, SI_TYPE p.1 &&& T_STRING = 0) ∧
      (pairs_before_mismatch (list_pairs argv)).map
          (fun p => (SIValue.SI_ConstStringVal p.1, p.2))
        = (list_pairs argv).takeWhile (fun p => SI_TYPE p.1 &&& T_STRING != 0) ∧
      (∀ k, m.lookup k = (pairs_before_mismatch (list_pairs argv)).reverse.lookup k) ∧
      (m.map Prod.fst).Nodup := by
  have h := AR_TOMAP_loop_eq argv argv.length 0 [] ctx (by omega) (by simpa using heven)
    (by omega)
  have hb : (argv.length % 2 != 0) = false := by simp [heven]
  obtain ⟨hl, hn⟩ := Map_Add_pairs_foldl_last (pairs_before_mismatch (list_pairs argv)) []
  obtain ⟨hf1, hf2⟩ := first_non_string_key_facts (list_pairs argv)
  refine ⟨_, ?_, hf1, hf2, ?_, hn (by simp)⟩
  · simp only [AR_TOMAP, hb, Bool.false_eq_true, if_false]
    simpa using h
  · intro k
    rw [hl k]
    cases (pairs_before_mismatch (list_pairs argv)).reverse.lookup k <;> simp [List.lookup]

end MapToMap

section MapKeyConversion

theorem list_pairs_append_even :
    ∀ (n : Nat) (pre rest : List SIValue), pre.length = 2 * n →
      list_pairs (pre ++ rest) = list_pairs pre ++ list_pairs rest := by
  intro n
  induction n with
  | zero =>
    intro pre rest h
    have hnil : pre = [] := List.length_eq_zero.mp (by omega)
    subst hnil
    simp [list_pairs]
  | succ n ih =>
    intro pre rest h
    match pre, h with
    | k :: v :: pre1, h =>
      simp only [List.length_cons] at h
      have hrec := ih pre1 rest (by omega)
      show list_pairs (k :: v :: (pre1 ++ rest)) = list_pairs (k :: v :: pre1) ++ list_pairs rest
      simp only [list_pairs, hrec, List.cons_append]

/-- Pairs whose keys are strings or null are processed one after the other,
and the update goes on with the pairs that follow. -/
theorem update_from_pairs_append (F : StringFuncs) :
    ∀ (ps rest : List (SIValue × SIValue)) (map : SIValue) (ctx : ErrorCtx),
      (∀ p ∈ ps, SI_TYPE p.1 = T_STRING ∨ SI_TYPE p.1 = T_NULL) →
      update_from_pairs F (ps ++ rest) map ctx
        = update_from_pairs F rest (ps.foldl process_pair map) ctx := by
  intro ps
  induction ps with
  | nil => intro rest map ctx _; rfl
  | cons p ps ih =>
    intro rest map ctx h
    obtain ⟨key, val⟩ := p
    have hrest : ∀ q ∈ ps, SI_TYPE q.1 = T_STRING ∨ SI_TYPE q.1 = T_NULL :=
      fun q hq => h q (List.mem_cons_of_mem _ hq)
    have hkey := h (key, val) (List.mem_cons_self _ _)
    cases key with
    | SI_ConstStringVal s =>
      have hn : ¬ SI_TYPE (.SI_ConstStringVal s) = T_NULL := by
        simp only [SI_TYPE]; decide
      simp only [List.cons_append, update_from_pairs, if_neg hn, SI_TYPE, ne_eq,
        not_true_eq_false, if_false, SIValue.stringval, List.foldl_cons, process_pair]
      exact ih _ _ _ hrest
    | SI_NullVal =>
      simp only [List.cons_append, update_from_pairs, SI_TYPE, if_true, List.foldl_cons,
        process_pair]
      exact ih _ _ _ hrest
    | _ =>
      exfalso
      rcases hkey with h1 | h1 <;> simp only [SI_TYPE] at h1 <;> exact absurd h1 (by decide)

/-- A key that is neither a string nor null and that `AR_TOSTRING` turns into
the string `s` is processed as the key `s`; when `AR_TOSTRING` gives null the
type mismatch is raised and the update stops. -/
theorem update_from_pairs_convert (F : StringFuncs) (key val : SIValue)
    (rest : List (SIValue × SIValue)) (map : SIValue) (ctx : ErrorCtx)
    (hstr : SI_TYPE key ≠ T_STRING) (hnull : SI_TYPE key ≠ T_NULL) :
    (∀ s, F.AR_TOSTRING key = .SI_ConstStringVal s →
      update_from_pairs F ((key, val) :: rest) map ctx
        = update_from_pairs F ((.SI_ConstStringVal s, val) :: rest) map ctx) ∧
    (SI_TYPE (F.AR_TOSTRING key) = T_NULL →
      update_from_pairs F ((key, val) :: rest) map ctx
        = (ctx ++ [.type_mismatch key T_STRING], .ok map)) := by
  constructor
  · intro s hs
    have hn : ¬ SI_TYPE (SIValue.SI_ConstStringVal s) = T_NULL := by
      simp only [SI_TYPE]; decide
    have hss : ¬ SI_TYPE (SIValue.SI_ConstStringVal s) ≠ T_STRING := not_not.mpr rfl
    simp only [update_from_pairs, if_neg hnull, if_pos hstr, hs, if_neg hn, if_neg hss,
      SI_CloneValue]
  · intro hs
    simp only [update_from_pairs, if_neg hnull, if_pos hstr, hs, if_true]
    rfl

end MapKeyConversion

section MapKeyClaims

theorem update_from_pairs_convert_at (F : StringFuncs) (key val : SIValue) (s : String)
    (hstr : SI_TYPE key ≠ T_STRING) (hnull : SI_TYPE key ≠ T_NULL)
    (hs : F.AR_TOSTRING key = .SI_ConstStringVal s) :
    ∀ (ps rest : List (SIValue × SIValue)) (map : SIValue) (ctx : ErrorCtx),
      update_from_pairs F (ps ++ (key, val) :: rest) map ctx
        = update_from_pairs F (ps ++ (.SI_ConstStringVal s, val) :: rest) map ctx := by
  intro ps
  induction ps with
  | nil =>
    intro rest map ctx
    exact (update_from_pairs_convert F key val rest map ctx hstr hnull).1 s hs
  | cons p ps ih =>
    intro rest map ctx
    obtain ⟨k0, v0⟩ := p
    simp only [List.cons_append, update_from_pairs, List.append_eq, ih]

/-- C24, on the code: with the string conversion of the examples, which gives
an integer its decimal digits, the integer key `1` raises nothing and is
inserted as the key `"1"`, by `AR_FROMLIST` and by `AR_FROMTWOLISTS`. -/
theorem C24_integer_key_is_inserted_as_string :
    AR_FROMLIST Demo.funcs
        [.SI_Map [], .SI_Array [.SI_LongVal 1, .SI_ConstStringVal "v"]] []
      = ([], .ok (.SI_Map [("1", .SI_ConstStringVal "v")])) ∧
    AR_FROMTWOLISTS Demo.funcs
        [.SI_Map [], .SI_Array [.SI_LongVal 1], .SI_Array [.SI_ConstStringVal "v"]] []
      = ([], .ok (.SI_Map [("1", .SI_ConstStringVal "v")])) :=
  ⟨rfl, rfl⟩

/-- C24, amended: in `AR_FROMLIST` and `AR_FROMTWOLISTS` a key that is neither a
string nor null is handed to `AR_TOSTRING`.  When the result is a string `s`
the pair is processed exactly as if its key were `s`, so the key is inserted
in its string form and no type mismatch is raised for it.  When the result is
null, and the keys before it are strings or null, the type mismatch is raised
for the key, the loop stops, and the map returned is the one built from the
pairs before it: the key is not inserted. -/
theorem C24_non_string_key_is_converted (F : StringFuncs) (base : List (String × SIValue))
    (pre post kpre kpost vpre vpost : List SIValue) (key val : SIValue) (ctx : ErrorCtx)
    (hpre : pre.length % 2 = 0) (hpost : post.length % 2 = 0)
    (hlen1 : kpre.length = vpre.length) (hlen2 : kpost.length = vpost.length)
    (hstr : SI_TYPE key ≠ T_STRING) (hnull : SI_TYPE key ≠ T_NULL) :
    (∀ s, F.AR_TOSTRING key = .SI_ConstStringVal s →
      AR_FROMLIST F [.SI_Map base, .SI_Array (pre ++ key :: val :: post)] ctx
        = AR_FROMLIST F
            [.SI_Map base, .SI_Array (pre ++ .SI_ConstStringVal s :: val :: post)] ctx ∧
      AR_FROMTWOLISTS F
          [.SI_Map base, .SI_Array (kpre ++ key :: kpost), .SI_Array (vpre ++ val :: vpost)] ctx
        = AR_FROMTWOLISTS F
            [.SI_Map base, .SI_Array (kpre ++ .SI_ConstStringVal s :: kpost),
             .SI_Array (vpre ++ val :: vpost)] ctx) ∧
    (SI_TYPE (F.AR_TOSTRING key) = T_NULL →
      ((∀ p ∈ list_pairs pre, SI_TYPE p.1 = T_STRING ∨ SI_TYPE p.1 = T_NULL) →
        AR_FROMLIST F [.SI_Map base, .SI_Array (pre ++ key :: val :: post)] ctx
          = (ctx ++ [.type_mismatch key T_STRING],
             .ok ((list_pairs pre).foldl process_pair (.SI_Map base)))) ∧
      ((∀ p ∈ kpre.zip vpre, SI_TYPE p.1 = T_STRING ∨ SI_TYPE p.1 = T_NULL) →
        AR_FROMTWOLISTS F
            [.SI_Map base, .SI_Array (kpre ++ key :: kpost), .SI_Array (vpre ++ val :: vpost)] ctx
          = (ctx ++ [.type_mismatch key T_STRING],
             .ok ((kpre.zip vpre).foldl process_pair (.SI_Map base))))) := by
  obtain ⟨n, hn⟩ : ∃ n, pre.length = 2 * n := ⟨pre.length / 2, by omega⟩
  have heven : ∀ k : SIValue, (pre ++ k :: val :: post).length % 2 = 0 := by
    intro k
    simp only [List.length_append, List.length_cons]
    omega
  have hpairs : ∀ k : SIValue, list_pairs (pre ++ k :: val :: post)
      = list_pairs pre ++ (k, val) :: list_pairs post := by
    intro k
    rw [list_pairs_append_even n pre _ hn]
    rfl
  have hlen : ∀ k : SIValue, (kpre ++ k :: kpost).length = (vpre ++ val :: vpost).length := by
    intro k
    simp only [List.length_append, List.length_cons, hlen1, hlen2]
  have hzip : ∀ k : SIValue, (kpre ++ k :: kpost).zip (vpre ++ val :: vpost)
      = kpre.zip vpre ++ (k, val) :: kpost.zip vpost := by
    intro k
    rw [List.zip_append hlen1, List.zip_cons_cons]
  refine ⟨fun s hs => ⟨?_, ?_⟩, fun hs => ⟨fun hkeys => ?_, fun hkeys => ?_⟩⟩
  · rw [AR_FROMLIST_even F base _ ctx (heven key), AR_FROMLIST_even F base _ ctx (heven _),
      hpairs, hpairs]
    exact update_from_pairs_convert_at F key val s hstr hnull hs _ _ _ _
  · rw [AR_FROMTWOLISTS_same_length F base _ _ ctx (hlen key),
      AR_FROMTWOLISTS_same_length F base _ _ ctx (hlen _), hzip, hzip]
    exact update_from_pairs_convert_at F key val s hstr hnull hs _ _ _ _
  · rw [AR_FROMLIST_even F base _ ctx (heven key), hpairs,
      update_from_pairs_append F _ _ _ _ hkeys]
    exact (update_from_pairs_convert F key val _ _ ctx hstr hnull).2 hs
  · rw [AR_FROMTWOLISTS_same_length F base _ _ ctx (hlen key), hzip,
      update_from_pairs_append F _ _ _ _ hkeys]
    exact (update_from_pairs_convert F key val _ _ ctx hstr hnull).2 hs

end MapKeyClaims

/-! ## The records invariant of an eager CallSubquery -/

section EagerInvariant
variable {R L β : Type}

/-- A consume of an eager, non-returning operation that returns leaves `first`
false and the retained list in place, provided the list was in place if
`first` was false before. -/
theorem CallSubqueryConsumeEager_keeps_records (E : Env R L (ArgumentList R) β) (fuel : Nat)
    (op op1 : OpCallSubquery R L (ArgumentList R) β) (x : Option R)
    (hret : op.is_returning = false)
    (hinv : op.first = false → op.records.isSome = true)
    (h : CallSubqueryConsumeEager E fuel op = .ok (x, op1)) :
    op1.is_returning = false ∧ op1.first = false ∧ op1.records.isSome = true := by
  have hhand : ∀ (o o1 : OpCallSubquery R L (ArgumentList R) β) (y : Option R),
      o.is_returning = false → o.first = false → o.records.isSome = true →
      _handoff_eager E o = .ok (y, o1) →
      o1.is_returning = false ∧ o1.first = false ∧ o1.records.isSome = true := by
    intro o o1 y h1 h2 h3 h4
    simp only [_handoff_eager, h1, Bool.false_eq_true, if_false] at h4
    cases hr : o.records with
    | none => rw [hr] at h3; simp at h3
    | some records =>
      rw [hr] at h4
      simp only at h4
      cases hl : records.getLast? with
      | none =>
        rw [hl] at h4
        simp only [Except.ok.injEq, Prod.mk.injEq] at h4
        rw [← h4.2]
        exact ⟨h1, h2, by rw [hr]; rfl⟩
      | some r =>
        rw [hl] at h4
        simp only [Except.ok.injEq, Prod.mk.injEq] at h4
        rw [← h4.2]
        exact ⟨rfl, h2, rfl⟩
  by_cases hf : op.first = false
  · simp only [CallSubqueryConsumeEager, hf, if_true] at h
    exact hhand op op1 x hret hf (hinv hf) h
  · simp only [CallSubqueryConsumeEager, hf, if_false, hret, Bool.false_eq_true] at h
    cases hl : op.lhs with
    | none =>
      rw [hl] at h
      simp only [Bool.true_eq_false, if_false] at h
      split at h
      · simp at h
      · exact hhand _ op1 x (by rfl) (by rfl) (by rfl) h
    | some l =>
      rw [hl] at h
      simp only at h
      cases hd : drain_lhs E fuel l [] with
      | error e => rw [hd] at h; simp at h
      | ok res =>
        obtain ⟨records, l1⟩ := res
        rw [hd] at h
        simp only [Bool.true_eq_false, if_false] at h
        split at h
        · simp at h
        · exact hhand _ op1 x (by rfl) (by rfl) (by rfl) h

/-- Along consume calls alone the retained list stays in place. -/
theorem run_eager_consumes_keep_records (E : Env R L (ArgumentList R) β) (fuel : Nat) :
    ∀ (calls : List OpCall) (op op1 : OpCallSubquery R L (ArgumentList R) β),
      (∀ c ∈ calls, c = .consume) → op.is_returning = false →
      (op.first = false → op.records.isSome = true) →
      run_eager_calls E fuel calls op = .ok op1 →
      (op1.first = false → op1.records.isSome = true) := by
  intro calls
  induction calls with
  | nil =>
    intro op op1 _ _ hinv h
    simp only [run_eager_calls, Except.ok.injEq] at h
    rw [← h]
    exact hinv
  | cons c calls ih =>
    intro op op1 hc hret hinv h
    have hc0 : c = .consume := hc c (List.mem_cons_self _ _)
    subst hc0
    simp only [run_eager_calls] at h
    cases hs : CallSubqueryConsumeEager E fuel op with
    | error e => rw [hs] at h; simp at h
    | ok res =>
      obtain ⟨x, op2⟩ := res
      rw [hs] at h
      simp only at h
      obtain ⟨h1, _, h3⟩ := CallSubqueryConsumeEager_keeps_records E fuel op op2 x hret hinv hs
      exact ih op2 op1 (fun c hc1 => hc c (List.mem_cons_of_mem _ hc1)) h1 (fun _ => h3) h

/-- C28, on the code: along consume calls alone an eager, non-returning
CallSubquery keeps the invariant (once `first` is false the retained list is
not `NULL`), but a reset breaks it.  After a consume and a reset on the rows
1, 2, 3 of `Demo.eager_env` the operation is in a state with `first` false and
`records` `NULL`, and the consume that follows the reset fails the assertion
of `_handoff_eager`. -/
theorem C28_reset_breaks_records_invariant :
    (∀ (E : Env R L (ArgumentList R) β) (fuel : Nat) (calls : List OpCall) (lhs : Option L)
        (body : BodyState (ArgumentList R) β) (op1 : OpCallSubquery R L (ArgumentList R) β),
      (∀ c ∈ calls, c = .consume) →
      run_eager_calls E fuel calls (NewCallSubqueryOp true false lhs body) = .ok op1 →
      (op1.first = false → op1.records.isSome = true)) ∧
    (∃ op1, run_eager_calls Demo.eager_env 4 [.consume, .reset]
          (NewCallSubqueryOp true false (some [1, 2, 3]) Demo.eager_body0) = .ok op1 ∧
      op1.is_eager = true ∧ op1.is_returning = false ∧
      op1.first = false ∧ op1.records = none ∧
      CallSubqueryConsumeEager Demo.eager_env 4 op1 = .error .assertion ∧
      run_eager_calls Demo.eager_env 4 [.consume, .reset, .consume]
          (NewCallSubqueryOp true false (some [1, 2, 3]) Demo.eager_body0)
        = .error .assertion) := by
  constructor
  · intro E fuel calls lhs body op1 hc h
    exact run_eager_consumes_keep_records E fuel calls _ op1 hc rfl
      (fun hf => by simp [NewCallSubqueryOp] at hf) h
  · exact ⟨_, rfl, rfl, rfl, rfl, rfl, rfl, rfl⟩

end EagerInvariant

/-! ## The self-calls of `_consume_and_return` -/

section SelfCalls
variable {R L β : Type}

/-- Leaving the counters out of `_consume_and_return_counted` gives
`_consume_and_return`. -/
theorem consume_and_return_counted_fst (E : Env R L (Argument R) β) :
    ∀ (fuel : Nat) (op : OpCallSubquery R L (Argument R) β),
      (_consume_and_return_counted E fuel op).map Prod.fst = _consume_and_return E fuel op := by
  intro fuel
  induction fuel with
  | zero => intro op; rfl
  | succ fuel ih =>
    intro op
    simp only [_consume_and_return_counted, _consume_and_return]
    rcases E.consume_body op.body with ⟨c, b1⟩
    cases c with
    | some consumed =>
      simp only
      cases op.r <;> rfl
    | none =>
      simp only
      cases op.lhs with
      | none => rfl
      | some l =>
        simp only
        rcases E.consume_lhs l with ⟨x, l1⟩
        cases x with
        | none => rfl
        | some r =>
          simp only
          cases Argument_AddRecord b1.deepest (E.DeepCloneRecord r) with
          | error e => rfl
          | ok arg =>
            simp only
            rw [← ih]
            cases _consume_and_return_counted E fuel
              { op with body := { b1 with deepest := arg }, r := some r, lhs := some l1 } with
            | error e => rfl
            | ok res => rfl

/-- Every self-call follows one row returned by the left child. -/
theorem consume_and_return_counted_rows (E : Env R L (Argument R) β) :
    ∀ (fuel : Nat) (op : OpCallSubquery R L (Argument R) β)
      (res : Option R × OpCallSubquery R L (Argument R) β) (calls : Nat) (rows : List R),
      _consume_and_return_counted E fuel op = .ok (res, calls, rows) → calls = rows.length := by
  intro fuel
  induction fuel with
  | zero => intro op res calls rows h; simp [_consume_and_return_counted] at h
  | succ fuel ih =>
    intro op res calls rows h
    simp only [_consume_and_return_counted] at h
    split at h
    · split at h
      · simp only [Except.ok.injEq, Prod.mk.injEq] at h
        rw [← h.2.1, ← h.2.2]; rfl
      · split at h
        · simp only [Except.ok.injEq, Prod.mk.injEq] at h
          rw [← h.2.1, ← h.2.2]; rfl
        · split at h
          · simp at h
          · split at h
            · simp at h
            · rename_i hrec
              simp only [Except.ok.injEq, Prod.mk.injEq] at h
              rw [← h.2.1, ← h.2.2, List.length_cons, ih _ _ _ _ hrec]
    · split at h
      · simp at h
      · simp only [Except.ok.injEq, Prod.mk.injEq] at h
        rw [← h.2.1, ← h.2.2]; rfl

/-- A call of `_consume_and_return` that finds the body depleted for the held
row, then pulls the rows `empties`, for each of which the body gives nothing,
and then either finds the left child depleted or pulls a row `p` for which the
body gives `x`. -/
theorem consume_and_return_counted_run (E : Env R L (Argument R) β) :
    ∀ (empties : List R) (fuel : Nat) (r : R) (l l1 : L) (b b0 b1 : BodyState (Argument R) β),
      E.consume_body b = (none, b0) → b0.deepest.r = none →
      Pulls E.consume_lhs l empties l1 →
      BodyRuns E b0 (empties.map (fun e => (e, []))) b1 →
      empties.length + 1 < fuel →
      (∀ l2, E.consume_lhs l1 = (none, l2) →
        _consume_and_return_counted E fuel
            { NewCallSubqueryOp false true (some l) b with r := some r }
          = .ok ((none, NewCallSubqueryOp false true (some l2) b1),
              empties.length, empties)) ∧
      (∀ p x l2 b2, E.consume_lhs l1 = (some p, l2) →
        E.consume_body { b1 with deepest := { r := some (E.DeepCloneRecord p) } }
          = (some x, b2) →
        _consume_and_return_counted E fuel
            { NewCallSubqueryOp false true (some l) b with r := some r }
          = .ok ((some (E.Merge_Into (E.DeepCloneRecord p) x),
                { NewCallSubqueryOp false true (some l2) b2 with r := some p }),
              empties.length + 1, empties ++ [p])) := by
  intro empties
  induction empties with
  | nil =>
    intro fuel r l l1 b b0 b1 hcur harg hl hb hf
    obtain ⟨f, rfl⟩ : ∃ f1, fuel = f1 + 1 + 1 := ⟨fuel - 2, by simp at hf; omega⟩
    simp only [Pulls] at hl
    simp only [List.map_nil, BodyRuns] at hb
    subst hl hb
    constructor
    · intro l2 hdep
      simp [_consume_and_return_counted, NewCallSubqueryOp, hcur, hdep]
    · intro p x l2 b2 hp hx
      simp [_consume_and_return_counted, NewCallSubqueryOp, hcur, hp, Argument_AddRecord, harg,
        hx]
  | cons e empties ih =>
    intro fuel r l l1 b b0 b1 hcur harg hl hb hf
    obtain ⟨f, rfl⟩ : ∃ f1, fuel = f1 + 1 := ⟨fuel - 1, by omega⟩
    obtain ⟨hl1, hl2⟩ := hl
    simp only [List.map_cons, BodyRuns] at hb
    obtain ⟨b3, hy3, hb3, hrest⟩ := hb
    simp only [Yields] at hy3
    simp only [List.length_cons] at hf
    obtain ⟨h1, h2⟩ := ih f e (E.consume_lhs l).2 l1 _ b3 b1 hy3 hb3 hl2 hrest (by omega)
    rcases hc : E.consume_lhs l with ⟨y, l3⟩
    rw [hc] at hl1 h1 h2
    simp only at hl1 h1 h2
    subst hl1
    simp only [NewCallSubqueryOp] at h1 h2 ⊢
    constructor
    · intro l2 hdep
      simp only [_consume_and_return_counted, hcur, hc, Argument_AddRecord, harg, h1 l2 hdep,
        List.length_cons]
    · intro p x l2 b2 hp hx
      simp only [_consume_and_return_counted, hcur, hc, Argument_AddRecord, harg,
        h2 p x l2 b2 hp hx, List.length_cons, List.cons_append]

/-- C29: a call of `_consume_and_return` by a non-eager, returning CallSubquery
that holds a row returns, with the iteration bound not used up, in each of
the cases the finiteness of the left child and of the body leave.  When the
body has a record for the held row there is no self-call.  When the body is
depleted for the held row, the left child then returns the rows `empties`,
for each of which the body gives nothing, and then is depleted, the call
returns depletion after `empties.length` self-calls; when instead the left
child then returns a row for which the body gives a record, the call returns
the merged record after `empties.length + 1` self-calls.  The rows pulled
from the left child are `empties` and the last row, one before each
self-call, and leaving the counters out gives `_consume_and_return`. -/
theorem C29_self_calls_bounded_by_empty_rows (E : Env R L (Argument R) β)
    (empties : List R) (fuel : Nat) (r : R) (l l1 : L) (b b0 b1 : BodyState (Argument R) β)
    (hcur : E.consume_body b = (none, b0)) (harg : b0.deepest.r = none)
    (hlhs : Pulls E.consume_lhs l empties l1)
    (hbody : BodyRuns E b0 (empties.map (fun e => (e, []))) b1)
    (hfuel : empties.length + 1 < fuel) :
    (∀ l2, E.consume_lhs l1 = (none, l2) →
      _consume_and_return_counted E fuel
          { NewCallSubqueryOp false true (some l) b with r := some r }
        = .ok ((none, NewCallSubqueryOp false true (some l2) b1),
            empties.length, empties)) ∧
    (∀ p x l2 b2, E.consume_lhs l1 = (some p, l2) →
      E.consume_body { b1 with deepest := { r := some (E.DeepCloneRecord p) } }
        = (some x, b2) →
      _consume_and_return_counted E fuel
          { NewCallSubqueryOp false true (some l) b with r := some r }
        = .ok ((some (E.Merge_Into (E.DeepCloneRecord p) x),
              { NewCallSubqueryOp false true (some l2) b2 with r := some p }),
            empties.length + 1, empties ++ [p])) ∧
    (∀ (b3 b4 : BodyState (Argument R) β) (x : R), E.consume_body b3 = (some x, b4) →
      _consume_and_return_counted E fuel
          { NewCallSubqueryOp false true (some l) b3 with r := some r }
        = .ok ((some (E.Merge_Into (E.DeepCloneRecord r) x),
              { NewCallSubqueryOp false true (some l) b4 with r := some r }), 0, [])) ∧
    (∀ (g : Nat) (op : OpCallSubquery R L (Argument R) β),
      (_consume_and_return_counted E g op).map Prod.fst = _consume_and_return E g op) ∧
    (∀ (g : Nat) (op : OpCallSubquery R L (Argument R) β)
        (res : Option R × OpCallSubquery R L (Argument R) β) (calls : Nat) (rows : List R),
      _consume_and_return_counted E g op = .ok (res, calls, rows) → calls = rows.length) := by
  obtain ⟨h1, h2⟩ := consume_and_return_counted_run E empties fuel r l l1 b b0 b1 hcur harg
    hlhs hbody hfuel
  refine ⟨h1, h2, ?_, consume_and_return_counted_fst E, consume_and_return_counted_rows E⟩
  intro b3 b4 x hx
  obtain ⟨f, rfl⟩ : ∃ f1, fuel = f1 + 1 := ⟨fuel - 1, by omega⟩
  simp [_consume_and_return_counted, NewCallSubqueryOp, hx]

end SelfCalls

/-! ## Flattening to the full depth -/

section FlattenDepth

theorem depth_of_le_depth (e : SIValue) :
    ∀ (A : List SIValue), e ∈ A → depth_of e ≤ depth A := by
  intro A
  induction A with
  | nil => intro h; simp at h
  | cons a rest ih =>
    intro h
    simp only [depth]
    rcases List.mem_cons.mp h with h | h
    · subst h; exact Nat.le_max_left _ _
    · exact Nat.le_trans (ih h) (Nat.le_max_right _ _)

theorem leaves_eq_flatMap : ∀ (A : List SIValue), leaves A = A.flatMap leaves_of := by
  intro A
  induction A with
  | nil => simp [leaves]
  | cons a rest ih => simp only [leaves, List.flatMap_cons, ih]

theorem leaves_of_not_array (e : SIValue) (h : SI_TYPE e ≠ T_ARRAY) : leaves_of e = [e] := by
  cases e with
  | SI_Array inner => exact absurd rfl h
  | _ => simp only [leaves_of]

/-- A list without array elements has depth zero and is its own list of
leaves. -/
theorem depth_leaves_of_flat :
    ∀ (A : List SIValue), (∀ v ∈ A, SI_TYPE v ≠ T_ARRAY) → depth A = 0 ∧ leaves A = A := by
  intro A
  induction A with
  | nil => intro _; simp [depth, leaves]
  | cons a rest ih =>
    intro h
    obtain ⟨h1, h2⟩ := ih (fun v hv => h v (List.mem_cons_of_mem _ hv))
    have ha : SI_TYPE a ≠ T_ARRAY := h a (List.mem_cons_self _ _)
    have hd : depth_of a = 0 := by
      cases a with
      | SI_Array inner => exact absurd rfl ha
      | _ => simp only [depth_of]
    simp only [depth, leaves, hd, h1, h2, leaves_of_not_array a ha, Nat.max_self,
      List.singleton_append, and_self]

/-- A list of depth zero has no array element. -/
theorem no_array_of_depth_zero :
    ∀ (A : List SIValue), depth A = 0 → ∀ v ∈ A, SI_TYPE v ≠ T_ARRAY := by
  intro A h v hv
  have hle := depth_of_le_depth v A hv
  cases v with
  | SI_Array inner => simp only [depth_of] at hle; omega
  | _ => simp only [SI_TYPE]; decide

/-- Flattening to at least the nesting depth gives the leaves, and the leaves
are not arrays. -/
theorem SIArray_Flatten_leaves :
    ∀ (levels : Nat) (A : List SIValue), depth A ≤ levels →
      SIArray_Flatten (.SI_Array A) levels = .SI_Array (leaves A) ∧
      ∀ v ∈ leaves A, SI_TYPE v ≠ T_ARRAY := by
  intro levels
  induction levels with
  | zero =>
    intro A h
    have hflat := no_array_of_depth_zero A (by omega)
    obtain ⟨_, hl⟩ := depth_leaves_of_flat A hflat
    have h0 := foldl_SIArray_Append A []
    rw [List.nil_append] at h0
    rw [hl]
    exact ⟨Eq.trans rfl h0, hflat⟩
  | succ levels ih =>
    intro A h
    have hloop := SIArray_Flatten_loop levels A []
    rw [List.nil_append] at hloop
    have hinner : ∀ e ∈ A,
        (if SI_TYPE e = T_ARRAY then (SIArray_Flatten e levels).array else [e]) = leaves_of e ∧
        ∀ v ∈ leaves_of e, SI_TYPE v ≠ T_ARRAY := by
      intro e he
      have hle := depth_of_le_depth e A he
      cases e with
      | SI_Array inner =>
        simp only [depth_of] at hle
        obtain ⟨h1, h2⟩ := ih inner (by omega)
        simp only [SI_TYPE, if_true, h1, SIValue.array, leaves_of]
        exact ⟨trivial, h2⟩
      | SI_NullVal => exact ⟨by simp only [leaves_of]; rfl, by simp [leaves_of, SI_TYPE]; decide⟩
      | SI_BoolVal b => exact ⟨by simp only [leaves_of]; rfl, by simp [leaves_of, SI_TYPE]; decide⟩
      | SI_LongVal b => exact ⟨by simp only [leaves_of]; rfl, by simp [leaves_of, SI_TYPE]; decide⟩
      | SI_DoubleVal b =>
        exact ⟨by simp only [leaves_of]; rfl, by simp [leaves_of, SI_TYPE]; decide⟩
      | SI_ConstStringVal b =>
        exact ⟨by simp only [leaves_of]; rfl, by simp [leaves_of, SI_TYPE]; decide⟩
      | SI_Map b => exact ⟨by simp only [leaves_of]; rfl, by simp [leaves_of, SI_TYPE]; decide⟩
      | SI_Node b => exact ⟨by simp only [leaves_of]; rfl, by simp [leaves_of, SI_TYPE]; decide⟩
      | SI_Edge b => exact ⟨by simp only [leaves_of]; rfl, by simp [leaves_of, SI_TYPE]; decide⟩
    constructor
    · refine Eq.trans (Eq.trans rfl hloop) ?_
      rw [leaves_eq_flatMap]
      simp only [unnest]
      congr 1
      exact List.flatMap_congr (fun e he => (hinner e he).1)
    · intro v hv
      rw [leaves_eq_flatMap, List.mem_flatMap] at hv
      obtain ⟨e, he, hve⟩ := hv
      exact (hinner e he).2 v hve

end FlattenDepth

section FlattenClaim

theorem leaves_eq_filter_nested_values :
    ∀ (A : List SIValue),
      leaves A = (nested_values A).filter (fun v => SI_TYPE v != T_ARRAY)
  | [] => by simp [leaves, nested_values]
  | e :: rest => by
    have h2 := leaves_eq_filter_nested_values rest
    cases e with
    | SI_Array inner =>
      have h1 := leaves_eq_filter_nested_values inner
      have hb : (SI_TYPE (.SI_Array inner) != T_ARRAY) = false := by simp [SI_TYPE]
      simp only [leaves, leaves_of, nested_values, nested_values_of, List.filter_cons, hb,
        Bool.false_eq_true, if_false, List.filter_append, h1, h2]
    | SI_NullVal =>
      have hb : (SI_TYPE .SI_NullVal != T_ARRAY) = true := by decide
      simp only [leaves, leaves_of, nested_values, nested_values_of, List.filter_cons, hb,
        if_true, List.nil_append, List.singleton_append, h2]
    | SI_BoolVal b =>
      have hb : (SI_TYPE (.SI_BoolVal b) != T_ARRAY) = true := by simp only [SI_TYPE]; decide
      simp only [leaves, leaves_of, nested_values, nested_values_of, List.filter_cons, hb,
        if_true, List.nil_append, List.singleton_append, h2]
    | SI_LongVal b =>
      have hb : (SI_TYPE (.SI_LongVal b) != T_ARRAY) = true := by simp only [SI_TYPE]; decide
      simp only [leaves, leaves_of, nested_values, nested_values_of, List.filter_cons, hb,
        if_true, List.nil_append, List.singleton_append, h2]
    | SI_DoubleVal b =>
      have hb : (SI_TYPE (.SI_DoubleVal b) != T_ARRAY) = true := by simp only [SI_TYPE]; decide
      simp only [leaves, leaves_of, nested_values, nested_values_of, List.filter_cons, hb,
        if_true, List.nil_append, List.singleton_append, h2]
    | SI_ConstStringVal b =>
      have hb : (SI_TYPE (.SI_ConstStringVal b) != T_ARRAY) = true := by
        simp only [SI_TYPE]; decide
      simp only [leaves, leaves_of, nested_values, nested_values_of, List.filter_cons, hb,
        if_true, List.nil_append, List.singleton_append, h2]
    | SI_Map b =>
      have hb : (SI_TYPE (.SI_Map b) != T_ARRAY) = true := by simp only [SI_TYPE]; decide
      simp only [leaves, leaves_of, nested_values, nested_values_of, List.filter_cons, hb,
        if_true, List.nil_append, List.singleton_append, h2]
    | SI_Node b =>
      have hb : (SI_TYPE (.SI_Node b) != T_ARRAY) = true := by simp only [SI_TYPE]; decide
      simp only [leaves, leaves_of, nested_values, nested_values_of, List.filter_cons, hb,
        if_true, List.nil_append, List.singleton_append, h2]
    | SI_Edge b =>
      have hb : (SI_TYPE (.SI_Edge b) != T_ARRAY) = true := by simp only [SI_TYPE]; decide
      simp only [leaves, leaves_of, nested_values, nested_values_of, List.filter_cons, hb,
        if_true, List.nil_append, List.singleton_append, h2]

/-- C31: for an array `A` whose maximum nesting depth of inner arrays is
`depth A` and every `levels` at least that depth, `SIArray_Flatten(A, levels)`
is the array of the non-array leaves of `A` in left-to-right order (the
values reachable from `A` that are not arrays, in order) and holds no array;
so it equals `SIArray_Flatten(A, depth A)`, and flattening it again at any
depth gives it back. -/
theorem C31_flatten_to_depth_gives_leaves (A : List SIValue) (levels : Nat)
    (hlevels : depth A ≤ levels) :
    SIArray_Flatten (.SI_Array A) levels = .SI_Array (leaves A) ∧
    (∀ v ∈ (SIArray_Flatten (.SI_Array A) levels).array, SI_TYPE v ≠ T_ARRAY) ∧
    leaves A = (nested_values A).filter (fun v => SI_TYPE v != T_ARRAY) ∧
    SIArray_Flatten (.SI_Array A) levels = SIArray_Flatten (.SI_Array A) (depth A) ∧
    (∀ n, SIArray_Flatten (SIArray_Flatten (.SI_Array A) levels) n
      = SIArray_Flatten (.SI_Array A) levels) := by
  obtain ⟨h1, h2⟩ := SIArray_Flatten_leaves levels A hlevels
  obtain ⟨h3, _⟩ := SIArray_Flatten_leaves (depth A) A (Nat.le_refl _)
  obtain ⟨hd, hl⟩ := depth_leaves_of_flat (leaves A) h2
  refine ⟨h1, ?_, leaves_eq_filter_nested_values A, by rw [h1, h3], ?_⟩
  · rw [h1]
    exact h2
  · intro n
    rw [h1]
    obtain ⟨h4, _⟩ := SIArray_Flatten_leaves n (leaves A) (by omega)
    rw [h4, hl]

end FlattenClaim

section Witnesses

theorem C1_unit_subquery_emits_outer_rows_witness :
    consumeN (CallSubqueryConsume Demo.env 3) 4
        (NewCallSubqueryOp false false (some [1, 2, 3]) Demo.body0)
      = .ok ([some 1, some 2, some 3, none],
             NewCallSubqueryOp false false (some []) Demo.body0) :=
  (C1_unit_subquery_emits_outer_rows Demo.env 3
    [(1, [202, 203]), (2, [204, 205]), (3, [206, 207])] [1, 2, 3] [] [] Demo.body0 Demo.body0
    ⟨rfl, rfl, rfl, rfl⟩ rfl rfl
    ⟨_, ⟨rfl, rfl, rfl⟩, rfl, _, ⟨rfl, rfl, rfl⟩, rfl, _, ⟨rfl, rfl, rfl⟩, rfl, rfl⟩
    (by decide)).2

theorem C2_returning_subquery_emits_merged_rows_witness :
    consumeN (CallSubqueryConsume Demo.env 3) 5
        (NewCallSubqueryOp false true (some [1, 2]) Demo.body0)
      = .ok ([some 101202, some 101203, some 102204, some 102205, none],
             NewCallSubqueryOp false true (some []) Demo.body0) :=
  (C2_returning_subquery_emits_merged_rows Demo.env 3
    [(1, [202, 203]), (2, [204, 205])] [1, 2] [] [] Demo.body0 Demo.body0
    ⟨rfl, rfl, rfl⟩ rfl rfl
    ⟨_, ⟨rfl, rfl, rfl⟩, rfl, _, ⟨rfl, rfl, rfl⟩, rfl, rfl⟩
    (by decide)).1

theorem C3_eager_returning_streams_body_witness :
    consumeN (CallSubqueryConsumeEager Demo.eager_env 4) 4
        (NewCallSubqueryOp true true (some [1, 2, 3]) Demo.eager_body0)
      = .ok ([some 6, some 4, some 2, none],
             { NewCallSubqueryOp true true (some []) Demo.eager_body1 with first := false }) :=
  (C3_eager_returning_streams_body Demo.eager_env 4 [1, 2, 3] [1, 2, 3] [] Demo.eager_body0
    ⟨rfl, rfl, rfl, rfl⟩ (by decide)).2 [6, 4, 2] Demo.eager_body1 ⟨rfl, rfl, rfl, rfl⟩

theorem C4_eager_unit_replays_reversed_witness :
    consumeN (CallSubqueryConsumeEager Demo.eager_env 4) 5
        (NewCallSubqueryOp true false (some [1, 2, 3]) Demo.eager_body0)
      = .ok ([some 3, some 2, some 1, none, none],
             { NewCallSubqueryOp true false (some []) Demo.eager_body1 with
               first := false, records := some [] }) :=
  C4_eager_unit_replays_reversed Demo.eager_env 4 [1, 2, 3] [206, 204, 202] [1, 2, 3] []
    Demo.eager_body0 Demo.eager_body1 ⟨rfl, rfl, rfl, rfl⟩ ⟨rfl, rfl, rfl, rfl⟩
    (by decide) (by decide) 4

theorem Demo_body_consumes_Argument :
    ∀ s, (Demo.env.consume_body s).1 = none → (Demo.env.consume_body s).2.deepest.r = none := by
  intro s h
  rcases s with ⟨⟨a⟩, inner⟩
  cases inner with
  | cons x rest => simp [Demo.env, Demo.consume_body] at h
  | nil =>
    cases a with
    | none => rfl
    | some c => simp [Demo.env, Demo.consume_body, ArgumentConsume] at h

theorem C8_AddRecord_requires_empty_slot_witness :
    consumeN (CallSubqueryConsume Demo.env 3) 5
        (NewCallSubqueryOp false true (some [1, 2]) Demo.body0) ≠ .error .assertion :=
  (C8_AddRecord_requires_empty_slot Demo.env Demo_body_consumes_Argument).2
    true (some [1, 2]) Demo.body0 3 5 rfl

theorem C9_fixed_wiring_order_witness :
    ∃ ops, (some (OpBase.mk .Results
        [.mk (.Sort [.AR_EXP_OPERAND (some "z") (.AR_EXP_VARIADIC "z")] [1])
          [.mk (.Project (some [.AR_EXP_OPERAND (some "x") (.AR_EXP_VARIADIC "x"),
                                .AR_EXP_OPERAND (some "y") (.AR_EXP_VARIADIC "y"),
                                .AR_EXP_OPERAND (some "z") (.AR_EXP_VARIADIC "z")])) []]]))
        = stack_ops none ops ∧
      ops.map Op.type = [.OPType_PROJECT, .OPType_SORT, .OPType_RESULTS] :=
  (C9_fixed_wiring_order Demo.ast Demo.empty_plan Demo.return_x_y_order_by_z).1
    { root := some (.mk .Results
        [.mk (.Sort [.AR_EXP_OPERAND (some "z") (.AR_EXP_VARIADIC "z")] [1])
          [.mk (.Project (some [.AR_EXP_OPERAND (some "x") (.AR_EXP_VARIADIC "x"),
                                .AR_EXP_OPERAND (some "y") (.AR_EXP_VARIADIC "y"),
                                .AR_EXP_OPERAND (some "z") (.AR_EXP_VARIADIC "z")])) []]])
      error := none }
    rfl

theorem C10_projection_names_deduplicated_witness :
    _BuildProjectionExpressions Demo.ast Demo.return_duplicate_names
      = .ok (some [.AR_EXP_OPERAND (some "a") (.AR_EXP_VARIADIC "a"),
                   .AR_EXP_OPERAND (some "x") (.AR_EXP_VARIADIC "c")]) :=
  (C10_projection_names_deduplicated Demo.ast Demo.return_duplicate_names rfl (by decide)).1

theorem C11_distinct_targets_precede_order_by_witness :
    ∃ ps base above, _BuildProjectionExpressions Demo.ast Demo.return_distinct_x_y_order_by_z
        = .ok ps ∧
      (some (OpBase.mk (.Sort [.AR_EXP_OPERAND (some "z") (.AR_EXP_VARIADIC "z")] [1])
        [.mk (.Distinct [some "x", some "y"])
          [.mk (.Project (some [.AR_EXP_OPERAND (some "x") (.AR_EXP_VARIADIC "x"),
                                .AR_EXP_OPERAND (some "y") (.AR_EXP_VARIADIC "y"),
                                .AR_EXP_OPERAND (some "z") (.AR_EXP_VARIADIC "z")])) []]]))
        = stack_ops none
            (base :: Op.Distinct ((ps.getD []).map AR_ExpNode.resolved_name) :: above) ∧
      (base.type = .OPType_AGGREGATE ∨ base.type = .OPType_PROJECT) ∧
      (∀ op ∈ above, op.type ≠ .OPType_DISTINCT) ∧
      (∀ a ∈ (ps.getD []).map AR_ExpNode.resolved_name,
        ∃ p ∈ Demo.return_distinct_x_y_order_by_z.projections, a = resolved_name_of p) :=
  (C11_distinct_targets_precede_order_by Demo.ast Demo.empty_plan
      Demo.return_distinct_x_y_order_by_z).1
    { root := some (.mk (.Sort [.AR_EXP_OPERAND (some "z") (.AR_EXP_VARIADIC "z")] [1])
        [.mk (.Distinct [some "x", some "y"])
          [.mk (.Project (some [.AR_EXP_OPERAND (some "x") (.AR_EXP_VARIADIC "x"),
                                .AR_EXP_OPERAND (some "y") (.AR_EXP_VARIADIC "y"),
                                .AR_EXP_OPERAND (some "z") (.AR_EXP_VARIADIC "z")])) []]])
      error := none }
    rfl rfl

theorem C12_sort_expression_with_projected_name_not_appended_witness :
    ∃ appended : List AR_ExpNode, appended.Sublist
        [AR_ExpNode.AR_EXP_OPERAND (some "y") (.AR_EXP_VARIADIC "y"),
         .AR_EXP_OPERAND (some "z") (.AR_EXP_VARIADIC "z")] ∧
      [AR_ExpNode.AR_EXP_OPERAND (some "x") (.AR_EXP_VARIADIC "x"),
       .AR_EXP_OPERAND (some "y") (.AR_EXP_VARIADIC "y"),
       .AR_EXP_OPERAND (some "z") (.AR_EXP_VARIADIC "z")]
        = [AR_ExpNode.AR_EXP_OPERAND (some "x") (.AR_EXP_VARIADIC "x"),
           .AR_EXP_OPERAND (some "y") (.AR_EXP_VARIADIC "y")]
          ++ appended.map Demo.ast.AR_EXP_Clone ∧
      ∀ e ∈ appended, e.resolved_name ∉
        [AR_ExpNode.AR_EXP_OPERAND (some "x") (.AR_EXP_VARIADIC "x"),
         .AR_EXP_OPERAND (some "y") (.AR_EXP_VARIADIC "y")].map AR_ExpNode.resolved_name :=
  (C12_sort_expression_with_projected_name_not_appended Demo.ast
    [.AR_EXP_OPERAND (some "x") (.AR_EXP_VARIADIC "x"),
     .AR_EXP_OPERAND (some "y") (.AR_EXP_VARIADIC "y")]
    [.AR_EXP_OPERAND (some "y") (.AR_EXP_VARIADIC "y"),
     .AR_EXP_OPERAND (some "z") (.AR_EXP_VARIADIC "z")]
    false raxNew Demo.empty_plan).1
    [.AR_EXP_OPERAND (some "x") (.AR_EXP_VARIADIC "x"),
     .AR_EXP_OPERAND (some "y") (.AR_EXP_VARIADIC "y"),
     .AR_EXP_OPERAND (some "z") (.AR_EXP_VARIADIC "z")]
    Demo.empty_plan rfl

theorem C13_projection_list_after_merge_witness :
    ∃ ps0, _BuildProjectionExpressions Demo.ast Demo.return_x_y_order_by_z = .ok ps0 ∧
      (some (OpBase.mk (.Sort [.AR_EXP_OPERAND (some "z") (.AR_EXP_VARIADIC "z")] [1])
        [.mk (.Project (some [.AR_EXP_OPERAND (some "x") (.AR_EXP_VARIADIC "x"),
                              .AR_EXP_OPERAND (some "y") (.AR_EXP_VARIADIC "y"),
                              .AR_EXP_OPERAND (some "z") (.AR_EXP_VARIADIC "z")])) []]))
        = stack_ops none
          ((if Demo.ast.AST_ClauseContainsAggregation Demo.return_x_y_order_by_z = true then
              Op.Aggregate (some ((ps0.getD []) ++ (new_sort_expressions
                (initial_projection_names Demo.ast Demo.return_x_y_order_by_z
                  ++ projected_names (ps0.getD []))
                (_BuildOrderExpressions Demo.ast
                  [{ expression := .CYPHER_AST_IDENTIFIER "z", ascending := true }])).map
                    Demo.ast.AR_EXP_Clone))
            else
              Op.Project (some ((ps0.getD []) ++ (new_sort_expressions
                (initial_projection_names Demo.ast Demo.return_x_y_order_by_z
                  ++ projected_names (ps0.getD []))
                (_BuildOrderExpressions Demo.ast
                  [{ expression := .CYPHER_AST_IDENTIFIER "z", ascending := true }])).map
                    Demo.ast.AR_EXP_Clone)))
            :: projection_modifiers Demo.ast Demo.return_x_y_order_by_z ps0) :=
  (C13_projection_list_after_merge Demo.ast Demo.empty_plan Demo.return_x_y_order_by_z
      [] [] false raxNew).2.2.1
    { root := some (.mk (.Sort [.AR_EXP_OPERAND (some "z") (.AR_EXP_VARIADIC "z")] [1])
        [.mk (.Project (some [.AR_EXP_OPERAND (some "x") (.AR_EXP_VARIADIC "x"),
                              .AR_EXP_OPERAND (some "y") (.AR_EXP_VARIADIC "y"),
                              .AR_EXP_OPERAND (some "z") (.AR_EXP_VARIADIC "z")])) []])
      error := none }
    [{ expression := .CYPHER_AST_IDENTIFIER "z", ascending := true }] rfl rfl

theorem C15_unprojected_variable_sets_scope_error_witness :
    buildWithOps Demo.ast Demo.empty_plan Demo.with_count_a_as_c_order_by_b
      = .ok { root := some (.mk (.Sort [.AR_EXP_OPERAND (some "b") (.AR_EXP_VARIADIC "b")] [1])
                [.mk (.Aggregate (some
                  [.AR_EXP_OP (some "c") "count" [.AR_EXP_OPERAND none (.AR_EXP_VARIADIC "a")],
                   .AR_EXP_OPERAND (some "b") (.AR_EXP_VARIADIC "b")])) []])
              error := some aggregation_scope_error } :=
  (C15_unprojected_variable_sets_scope_error Demo.ast Demo.empty_plan none rfl rfl
    (by decide) rfl).2

theorem C17_dedup_keeps_first_of_equals_witness :
    SIArray_Dedup Demo.values (.SI_Array Demo.array_1_2_1_3_2)
      = .SI_Array [.SI_LongVal 1, .SI_LongVal 2, .SI_LongVal 3] :=
  (C17_dedup_keeps_first_of_equals Demo.values Demo.array_1_2_1_3_2
    (by decide) (by decide) (by decide)).1

theorem C20_mergemap_left_wins_witness :
    ∃ m : List (String × SIValue),
      AR_MERGEMAP [.SI_Map Demo.map_x1_y2, .SI_Map Demo.map_y9_z3] = .ok (.SI_Map m) ∧
      (∀ k, k ∈ m.map Prod.fst ↔ k = "x" ∨ k = "y" ∨ k = "z") ∧
      m.lookup "x" = some (.SI_LongVal 1) ∧
      m.lookup "y" = some (.SI_LongVal 2) ∧
      m.lookup "z" = some (.SI_LongVal 3) ∧
      (m.map Prod.fst).Nodup := by
  obtain ⟨m, hm, hkeys, hlookup, hnodup⟩ :=
    C20_mergemap_left_wins Demo.map_x1_y2 Demo.map_y9_z3 (by decide)
  refine ⟨m, hm, ?_, (hlookup "x").trans rfl, (hlookup "y").trans rfl,
    (hlookup "z").trans rfl, hnodup (by decide)⟩
  intro k
  rw [hkeys k]
  simp only [Demo.map_x1_y2, Demo.map_y9_z3, List.map_cons, List.map_nil, List.mem_cons,
    List.mem_singleton, List.not_mem_nil, or_false]
  tauto
theorem C26_hash_is_fold_of_31_witness :
    SIArray_HashCode Demo.values (.SI_Array Demo.array_1_2_1_3_2) < 2 ^ 64 ∧
    SIArray_HashCode Demo.values (.SI_Array Demo.array_1_2_1_3_2)
      = (Demo.values.XXH64_T_ARRAY * 31 ^ Demo.array_1_2_1_3_2.length
          + hash_polynomial (Demo.array_1_2_1_3_2.map Demo.values.SIValue_HashCode)) % 2 ^ 64 :=
  (C26_hash_is_fold_of_31 Demo.values Demo.array_1_2_1_3_2 []).2.2.2 (by decide)

theorem C27_get_and_append_witness :
    SIArray_Get (SIArray_Append (.SI_Array Demo.array_1_2_1_3_2) (.SI_LongVal 7)) 3
      = SIArray_Get (.SI_Array Demo.array_1_2_1_3_2) 3 :=
  (C27_get_and_append Demo.array_1_2_1_3_2 (.SI_LongVal 7) 3).2.2.2.2.2 (by decide)

theorem C21_fromlist_processes_pairs_in_order_witness :
    AR_FROMLIST Demo.funcs
        [.SI_Map Demo.map_a0_b0,
         .SI_Array [.SI_ConstStringVal "a", .SI_LongVal 1, .SI_ConstStringVal "b", .SI_NullVal]] []
      = ([], .ok (.SI_Map [("a", .SI_LongVal 1)])) :=
  (C21_fromlist_processes_pairs_in_order Demo.funcs Demo.map_a0_b0
    [.SI_ConstStringVal "a", .SI_LongVal 1, .SI_ConstStringVal "b", .SI_NullVal] []
    (by decide) (by decide)).1.trans rfl

theorem C30_fromtwolists_is_fromlist_of_interleaved_witness :
    AR_FROMTWOLISTS Demo.funcs
        [.SI_Map Demo.map_a0_b0,
         .SI_Array [.SI_ConstStringVal "a", .SI_LongVal 7, .SI_NullVal, .SI_Array []],
         .SI_Array [.SI_LongVal 1, .SI_NullVal, .SI_LongVal 3, .SI_LongVal 4]] []
      = AR_FROMLIST Demo.funcs
        [.SI_Map Demo.map_a0_b0,
         .SI_Array [.SI_ConstStringVal "a", .SI_LongVal 1, .SI_LongVal 7, .SI_NullVal,
                    .SI_NullVal, .SI_LongVal 3, .SI_Array [], .SI_LongVal 4]] [] :=
  (C30_fromtwolists_is_fromlist_of_interleaved Demo.funcs Demo.map_a0_b0
    [.SI_ConstStringVal "a", .SI_LongVal 7, .SI_NullVal, .SI_Array []]
    [.SI_LongVal 1, .SI_NullVal, .SI_LongVal 3, .SI_LongVal 4] [] rfl).1

theorem C23_tomap_type_mismatch_on_first_non_string_key_witness :
    ∃ m : List (String × SIValue),
      AR_TOMAP [.SI_ConstStringVal "a", .SI_LongVal 1, .SI_ConstStringVal "a", .SI_LongVal 2,
                .SI_LongVal 5, .SI_LongVal 3, .SI_ConstStringVal "b", .SI_LongVal 4] []
        = ([.type_mismatch (.SI_LongVal 5) T_STRING], .ok (.SI_Map m)) ∧
      m.lookup "a" = some (.SI_LongVal 2) ∧ m.lookup "b" = none := by
  obtain ⟨m, hm, _, _, hl, _⟩ := C23_tomap_type_mismatch_on_first_non_string_key
    [.SI_ConstStringVal "a", .SI_LongVal 1, .SI_ConstStringVal "a", .SI_LongVal 2,
     .SI_LongVal 5, .SI_LongVal 3, .SI_ConstStringVal "b", .SI_LongVal 4] [] (by decide)
  exact ⟨m, hm, (hl "a").trans rfl, (hl "b").trans rfl⟩

theorem C24_non_string_key_is_converted_witness :
    AR_FROMLIST Demo.funcs
        [.SI_Map Demo.map_a0_b0,
         .SI_Array [.SI_ConstStringVal "a", .SI_LongVal 1, .SI_LongVal 7,
                    .SI_ConstStringVal "v"]] []
      = AR_FROMLIST Demo.funcs
        [.SI_Map Demo.map_a0_b0,
         .SI_Array [.SI_ConstStringVal "a", .SI_LongVal 1, .SI_ConstStringVal "7",
                    .SI_ConstStringVal "v"]] [] ∧
    AR_FROMLIST Demo.funcs
        [.SI_Map Demo.map_a0_b0,
         .SI_Array [.SI_ConstStringVal "a", .SI_LongVal 1, .SI_Array [],
                    .SI_ConstStringVal "v"]] []
      = ([.type_mismatch (.SI_Array []) T_STRING],
         .ok (.SI_Map [("a", .SI_LongVal 1), ("b", .SI_LongVal 0)])) :=
  ⟨((C24_non_string_key_is_converted Demo.funcs Demo.map_a0_b0
      [.SI_ConstStringVal "a", .SI_LongVal 1] [] [.SI_ConstStringVal "a"] [] [.SI_LongVal 1] []
      (.SI_LongVal 7) (.SI_ConstStringVal "v") [] (by decide) (by decide) rfl rfl
      (by decide) (by decide)).1 "7" rfl).1,
   (((C24_non_string_key_is_converted Demo.funcs Demo.map_a0_b0
      [.SI_ConstStringVal "a", .SI_LongVal 1] [] [.SI_ConstStringVal "a"] [] [.SI_LongVal 1] []
      (.SI_Array []) (.SI_ConstStringVal "v") [] (by decide) (by decide) rfl rfl
      (by decide) (by decide)).2 rfl).1 (by decide)).trans rfl⟩

theorem C29_self_calls_bounded_by_empty_rows_witness :
    _consume_and_return_counted Demo.filter_env 4
        { NewCallSubqueryOp false true (some [1, 3, 4]) Demo.filter_body0 with r := some 0 }
      = .ok ((some 104104,
              { NewCallSubqueryOp false true (some []) Demo.filter_body0 with r := some 4 }),
            3, [1, 3, 4]) :=
  (C29_self_calls_bounded_by_empty_rows Demo.filter_env [1, 3] 4 0 [1, 3, 4] [4]
    Demo.filter_body0 Demo.filter_body0 Demo.filter_body0 rfl rfl ⟨rfl, rfl, rfl⟩
    ⟨Demo.filter_body0, rfl, rfl, Demo.filter_body0, rfl, rfl, rfl⟩ (by decide)).2.1
    4 104 [] Demo.filter_body0 rfl rfl

theorem C31_flatten_to_depth_gives_leaves_witness :
    depth Demo.nested_array = 2 ∧
    SIArray_Flatten (.SI_Array Demo.nested_array) 5
      = .SI_Array [.SI_LongVal 1, .SI_LongVal 2, .SI_LongVal 3, .SI_LongVal 4] ∧
    SIArray_Flatten (.SI_Array Demo.nested_array) 5
      = SIArray_Flatten (.SI_Array Demo.nested_array) (depth Demo.nested_array) :=
  ⟨by decide,
   (C31_flatten_to_depth_gives_leaves Demo.nested_array 5 (by decide)).1.trans rfl,
   (C31_flatten_to_depth_gives_leaves Demo.nested_array 5 (by decide)).2.2.2.1⟩

end Witnesses

end RedisGraph
